import Mathlib

/-!
Fish Fillets NG: the round engine of `Room`.

A shallow embedding of `src/level/Room.cpp`.  The room owns the ordered
collection of models, the impact accumulator and the `fresh` flag.  Everything
else it talks to (the rules of each model, the cubes themselves, the controls,
the phase locker, the view, the planner, the sound and dialog agents) lives
outside of `Room.cpp`: their joint state is an abstract world `W`, and their
methods are the fields of `Collab W`.

Every call that `Room.cpp` makes on a collaborator is written to a ghost
`trace`, together with the answer it got, so that statements about which calls
happen, how often and in which order can be made.  The four private phases of a
round additionally record their entry.

`Room::playSound` looks its cue up in the member `m_soundPack`, and the lookup
throws a `ResourceException` when the pack has no resource of that name.  The
methods of `Room W` are the methods of `Room.cpp` on the path on which every
such lookup returns; the methods of `SoundRoom W` carry the pack and end in the
exception where a lookup throws.  Each method of `SoundRoom W` is proved to
return what the method of `Room W` returns, or to be thrown out of at a
described state.
-/

namespace FishFillets

/-- A model (`Cube *`) is known to the room by its object identity. `0` is `NULL`. -/
abbrev Cube := Nat

/-- A driver of a model (`Unit *`), by object identity. -/
abbrev DriveUnit := Nat

/-- An input source (`const InputProvider *`), by object identity. -/
abbrev InputProvider := Nat

/-- Modelled from the spec: the enum `Cube::eWeight` is declared in `Cube.h`;
`Room.cpp` uses its values `NONE`, `LIGHT`, `HEAVY` and compares them with `<`;
the spec orders the weight classes none, light, heavy. -/
inductive eWeight where
  | NONE
  | LIGHT
  | HEAVY
  deriving DecidableEq, Repr

/-- The integer value of an enumerator, which is what `<` compares. -/
def eWeight.toNat : eWeight → Nat
  | .NONE => 0
  | .LIGHT => 1
  | .HEAVY => 2

instance : LT eWeight := ⟨fun a b => a.toNat < b.toNat⟩

instance (a b : eWeight) : Decidable (a < b) :=
  inferInstanceAs (Decidable (a.toNat < b.toNat))

/-- Modelled from the spec: the enum `Rules::eFall` is declared in `Rules.h`;
`Room.cpp` tests for `FALL_NOW` and `FALL_LAST`. -/
inductive eFall where
  | NONE
  | FALL_NOW
  | FALL_LAST
  deriving DecidableEq, Repr

/-- The two exception classes that `Room.cpp` throws, with the text of `ExInfo`. -/
inductive RoomException where
  | LogicException (info : String)
  | LoadException (info : String)
  deriving DecidableEq, Repr

/-- The private phases of a round. -/
inductive Phase where
  | prepareRound
  | fallout
  | falldown
  | finishRound
  deriving DecidableEq, Repr

/-- One entry of the ghost trace: a call on a collaborator with its arguments
and, for a call that answers, the answer; or the entry of a phase. -/
inductive Event where
  | phase (p : Phase)
  | takeField (m : Cube)
  | setIndex (m : Cube) (index : Int)
  | getIndex (m : Cube) (index : Int)
  | getPower (m : Cube) (power : eWeight)
  | getWeight (m : Cube) (weight : eWeight)
  | isSatisfy (m : Cube) (answer : Bool)
  | isWrong (m : Cube) (answer : Bool)
  | occupyNewPos (m : Cube)
  | checkDead (m : Cube) (die : Bool)
  | changeState (m : Cube)
  | actionOut (m : Cube) (outDepth : Int)
  | actionFall (m : Cube) (fall : eFall)
  | rulesFinishRound (m : Cube)
  | takeModel (u : DriveUnit) (m : Cube)
  | addUnit (u : DriveUnit)
  | driving (input : InputProvider)
  | checkActive
  | lockPhases
  | controlsMakeMove (move : Char) (answer : Bool)
  | ensurePhases (count : Int)
  | getLocked (locked : Int)
  | noteNewRound (phases : Int)
  | interruptPlan
  | killSound (index : Int)
  | playSound (name : String) (volume : Int)
  | logWarning (info : String)
  deriving DecidableEq, Repr

/-- The model whose exit check an event records. -/
def Event.outChecked : Event → Option Cube
  | .actionOut m _ => some m
  | _ => none

/-- The model whose fall check an event records. -/
def Event.fallChecked : Event → Option Cube
  | .actionFall m _ => some m
  | _ => none

/-- The model and the answer of an `isSatisfy` query that an event records. -/
def Event.satisfyReport : Event → Option (Cube × Bool)
  | .isSatisfy m answer => some (m, answer)
  | _ => none

/-- The move code and the answer of a `Controls::makeMove` call that an event records. -/
def Event.moveAsked : Event → Option (Char × Bool)
  | .controlsMakeMove move answer => some (move, answer)
  | _ => none

/-- The phase whose entry an event records. -/
def Event.phaseEntered : Event → Option Phase
  | .phase p => some p
  | _ => none

/-- The calls that `prepareRound` makes. -/
def Event.inPrepare : Event → Prop
  | .occupyNewPos _ | .checkDead _ _ | .changeState _ | .getIndex _ _ | .killSound _
  | .getPower _ _ | .playSound _ _ | .logWarning _ | .interruptPlan | .checkActive => True
  | _ => False

/-- The calls that `fallout` makes. -/
def Event.inFallout : Event → Prop
  | .actionOut _ _ | .ensurePhases _ | .interruptPlan | .checkActive => True
  | _ => False

/-- The calls that `falldown` makes. -/
def Event.inFalldown : Event → Prop
  | .actionFall _ _ | .getWeight _ _ => True
  | _ => False

/-- The calls that `playImpact` makes. -/
def Event.inImpact : Event → Prop
  | .playSound _ _ => True
  | _ => False

/-- The calls that `finishRound` makes. -/
def Event.inFinish : Event → Prop
  | .lockPhases | .getLocked _ | .noteNewRound _ | .rulesFinishRound _ | .isSatisfy _ _ => True
  | _ => False

/-- What `beginFall` records after the entry of `prepareRound`: the entries of
`fallout` and `falldown` and the calls of the three phases and of `playImpact`. -/
def Event.inBeginFall (e : Event) : Prop :=
  e = .phase .fallout ∨ e = .phase .falldown ∨
    e.inPrepare ∨ e.inFallout ∨ e.inFalldown ∨ e.inImpact

/-- The collaborators of a room over a world `W`: every method of another class
that `Room.cpp` calls, as a function of the world.  A method that answers
returns the answer with the new world; a `const` getter only reads the world.
The three last fields are default arguments declared in `Room.h`. -/
structure Collab (W : Type) where
  /-- The call `model->rules()->takeField(m_field)`. -/
  takeField : Cube → W → W
  /-- The call `model->setIndex(index)`. -/
  setIndex : Cube → Int → W → W
  /-- The call `model->getIndex()`. -/
  getIndex : Cube → W → Int
  /-- The call `model->getPower()`. -/
  getPower : Cube → W → eWeight
  /-- The call `model->getWeight()`. -/
  getWeight : Cube → W → eWeight
  /-- The call `model->isSatisfy()`. -/
  isSatisfy : Cube → W → Bool
  /-- The call `model->isWrong()`. -/
  isWrong : Cube → W → Bool
  /-- The call `model->rules()->occupyNewPos()`. -/
  occupyNewPos : Cube → W → W
  /-- The call `model->rules()->checkDead()`. -/
  checkDead : Cube → W → Bool × W
  /-- The call `model->rules()->changeState()`. -/
  changeState : Cube → W → W
  /-- The call `model->rules()->actionOut()`. -/
  actionOut : Cube → W → Int × W
  /-- The call `model->rules()->actionFall()`. -/
  actionFall : Cube → W → eFall × W
  /-- The call `model->rules()->finishRound()`. -/
  rulesFinishRound : Cube → W → W
  /-- The call `unit->takeModel(model)`. -/
  takeModel : DriveUnit → Cube → W → W
  /-- The call `m_controls->addUnit(unit)`. -/
  addUnit : DriveUnit → W → W
  /-- The call `m_controls->driving(input)`; the room ignores what it returns. -/
  driving : InputProvider → W → W
  /-- The call `m_controls->checkActive()`. -/
  checkActive : W → W
  /-- The call `m_controls->lockPhases()`. -/
  lockPhases : W → W
  /-- The call `m_controls->makeMove(move)`. -/
  controlsMakeMove : Char → W → Bool × W
  /-- The call `m_locker->ensurePhases(count)`. -/
  ensurePhases : Int → W → W
  /-- The call `m_locker->getLocked()`. -/
  getLocked : W → Int
  /-- The call `m_view->noteNewRound(phases)`. -/
  noteNewRound : Int → W → W
  /-- The call `m_levelScript->interruptPlan()`. -/
  interruptPlan : W → W
  /-- The call `DialogAgent::agent()->killSound(index)`. -/
  killSound : Int → W → W
  /-- The call `SoundAgent::agent()->playSound(m_soundPack->getRandomRes(name), volume)`. -/
  playSound : String → Int → W → W
  /-- The call `LOG_WARNING(info)`. -/
  logWarning : String → W → W
  /-- The default of `interactive` in `beginFall(bool interactive)` -/
  beginFallDefault : Bool
  /-- The default of `interactive` in `finishRound(bool interactive)` -/
  finishRoundDefault : Bool
  /-- The default of `volume` in `playSound(name, volume)` -/
  playSoundDefault : Int

/-- The state of a `Room`: the members `m_models`, `m_impact`, `m_fresh`, the
world of its collaborators, and the ghost trace. -/
structure Room (W : Type) where
  models : List Cube
  impact : eWeight
  fresh : Bool
  world : W
  trace : List Event
  deriving DecidableEq, Repr

/-- How a call ends: it returns a value, it throws, or (for the loop of
`loadMove` only) it is still running when the fuel is spent.  Each case carries
the state of the room at that moment. -/
inductive Outcome (W : Type) (α : Type) where
  | ok (value : α) (room : Room W)
  | error (e : RoomException) (room : Room W)
  | running (room : Room W)
  deriving DecidableEq, Repr

/-- The room at the end of a call, however it ended. -/
def Outcome.room {W α : Type} : Outcome W α → Room W
  | .ok _ r => r
  | .error _ r => r
  | .running r => r

/-- Conversion of a `size_t` to `int`: the low 32 bits, read as a signed number. -/
def sizeToInt (n : Nat) : Int :=
  (((n + 2 ^ 31) % 2 ^ 32 : Nat) : Int) - 2 ^ 31

variable {W : Type}

/-- Write one entry to the ghost trace. -/
def Room.log (r : Room W) (e : Event) : Room W :=
  { r with trace := r.trace ++ [e] }

/-- A call on a collaborator: the world becomes `w`, the call is recorded. -/
def Room.call (r : Room W) (e : Event) (w : W) : Room W :=
  { r with world := w, trace := r.trace ++ [e] }

/-- The events recorded between an earlier state and a later one. -/
def eventsSince (before after : Room W) : List Event :=
  after.trace.drop before.trace.length

/-- The constructor `Room::Room`: no models, `m_impact = Cube::NONE`,
`m_fresh = true`. -/
def Room.create (w : W) : Room W :=
  { models := [], impact := .NONE, fresh := true, world := w, trace := [] }

/-- The method `Room::playSound(name, volume)` when the lookup of the cue in
`m_soundPack` returns: the call on the sound agent.  The lookup itself, which
throws when the pack has no resource of that name, is in `SoundRoom.playSound`. -/
def Room.playSound (x : Collab W) (name : String) (volume : Int) (r : Room W) : Room W :=
  r.call (.playSound name volume) (x.playSound name volume r.world)

/-- The method `Room::addModel(new_model, new_unit)`; `none` is a `NULL` unit. -/
def Room.addModel (x : Collab W) (new_model : Cube) (new_unit : Option DriveUnit)
    (r : Room W) : Int × Room W :=
  let r1 := r.call (.takeField new_model) (x.takeField new_model r.world)
  let r2 : Room W := { r1 with models := r1.models ++ [new_model] }
  let r3 := match new_unit with
    | some u =>
      let s := r2.call (.takeModel u new_model) (x.takeModel u new_model r2.world)
      s.call (.addUnit u) (x.addUnit u s.world)
    | none => r2
  let model_index := sizeToInt (r3.models.length - 1)
  (model_index, r3.call (.setIndex new_model model_index) (x.setIndex new_model model_index r3.world))

/-- The method `Room::getModel(model_index)`. -/
def Room.getModel (r : Room W) (model_index : Int) : Outcome W Cube :=
  if 0 ≤ model_index ∧ model_index < sizeToInt r.models.length then
    .ok (r.models.getD model_index.toNat 0) r
  else
    .error (.LogicException "bad model index") r

/-- The method `Room::playImpact()` when the lookup of its cue returns (with the
lookup: `SoundRoom.playImpact`).  Its `default` branch, an assertion, is out of
reach of the three enumerators. -/
def Room.playImpact (x : Collab W) (r : Room W) : Room W :=
  let r1 := match r.impact with
    | .NONE => r
    | .LIGHT => r.playSound x "impact_light" 50
    | .HEAVY => r.playSound x "impact_heavy" 50
  { r1 with impact := .NONE }

/-- The method `Room::playDead(model)` when the lookup of its cue returns (with
the lookup: `SoundRoom.playDead`). -/
def Room.playDead (x : Collab W) (model : Cube) (r : Room W) : Room W :=
  let index := x.getIndex model r.world
  let r1 := (r.log (.getIndex model index)).call (.killSound index) (x.killSound index r.world)
  let power := x.getPower model r1.world
  let r2 := r1.log (.getPower model power)
  match power with
  | .LIGHT => r2.playSound x "dead_small" x.playSoundDefault
  | .HEAVY => r2.playSound x "dead_big" x.playSoundDefault
  | .NONE =>
    (r2.log (.getPower model (x.getPower model r2.world))).call
      (.logWarning "curious power of dead fish")
      (x.logWarning "curious power of dead fish" r2.world)

/-- The body of the first loop of `prepareRound`. -/
def Room.occupyStep (x : Collab W) (r : Room W) (m : Cube) : Room W :=
  r.call (.occupyNewPos m) (x.occupyNewPos m r.world)

/-- The body of the second loop of `prepareRound`, on `(interrupt, room)`, when
`playDead` returns (the loop that ends where it throws: `SoundRoom.deadLoop`). -/
def Room.deadStep (x : Collab W) (acc : Bool × Room W) (m : Cube) : Bool × Room W :=
  let die := x.checkDead m acc.2.world
  let r1 := acc.2.call (.checkDead m die.1) die.2
  (acc.1 || die.1, if die.1 then r1.playDead x m else r1)

/-- The body of the third loop of `prepareRound`. -/
def Room.stateStep (x : Collab W) (r : Room W) (m : Cube) : Room W :=
  r.call (.changeState m) (x.changeState m r.world)

/-- The two calls made after a death or an exit. -/
def Room.interrupt (x : Collab W) (r : Room W) : Room W :=
  let r1 := r.call .interruptPlan (x.interruptPlan r.world)
  r1.call .checkActive (x.checkActive r1.world)

/-- The method `Room::prepareRound()` when every `playDead` in it returns (with
the throw: `SoundRoom.prepareRound`). -/
def Room.prepareRound (x : Collab W) (r : Room W) : Room W :=
  let r0 := r.log (.phase .prepareRound)
  let r1 := r0.models.foldl (Room.occupyStep x) r0
  let p := r0.models.foldl (Room.deadStep x) (false, r1)
  let r3 := r0.models.foldl (Room.stateStep x) p.2
  if p.1 then r3.interrupt x else r3

/-- The body of the loop of `fallout`, on `(wentOut, room)`. -/
def Room.outStep (x : Collab W) (interactive : Bool) (acc : Bool × Room W) (m : Cube) :
    Bool × Room W :=
  let out := x.actionOut m acc.2.world
  let r1 := acc.2.call (.actionOut m out.1) out.2
  if 0 < out.1 then
    (true, if interactive then r1.call (.ensurePhases 3) (x.ensurePhases 3 r1.world) else r1)
  else
    (acc.1, r1)

/-- The method `Room::fallout(interactive)`. -/
def Room.fallout (x : Collab W) (interactive : Bool) (r : Room W) : Bool × Room W :=
  let r0 := r.log (.phase .fallout)
  let p := r0.models.foldl (Room.outStep x interactive) (false, r0)
  if p.1 then (true, p.2.interrupt x) else (false, p.2)

/-- The body of the loop of `falldown`, on `(result, room)`. -/
def Room.fallStep (x : Collab W) (acc : Bool × Room W) (m : Cube) : Bool × Room W :=
  let fall := x.actionFall m acc.2.world
  let r1 := acc.2.call (.actionFall m fall.1) fall.2
  if fall.1 = .FALL_NOW then
    (true, r1)
  else if fall.1 = .FALL_LAST then
    let r2 := r1.log (.getWeight m (x.getWeight m r1.world))
    if r2.impact < x.getWeight m r1.world then
      (acc.1, { r2.log (.getWeight m (x.getWeight m r2.world)) with
                impact := x.getWeight m r2.world })
    else
      (acc.1, r2)
  else
    (acc.1, r1)

/-- The method `Room::falldown()`. -/
def Room.falldown (x : Collab W) (r : Room W) : Bool × Room W :=
  let r0 : Room W := { r.log (.phase .falldown) with impact := .NONE }
  r0.models.foldl (Room.fallStep x) (false, r0)

/-- The body of the loop of `finishRound`, on `(room_complete, room)`. -/
def Room.finishStep (x : Collab W) (acc : Bool × Room W) (m : Cube) : Bool × Room W :=
  let r1 := acc.2.call (.rulesFinishRound m) (x.rulesFinishRound m acc.2.world)
  let satisfy := x.isSatisfy m r1.world
  (acc.1 && satisfy, r1.log (.isSatisfy m satisfy))

/-- The method `Room::finishRound(interactive)`. -/
def Room.finishRound (x : Collab W) (interactive : Bool) (r : Room W) : Bool × Room W :=
  let r0 := r.log (.phase .finishRound)
  let r1 := if interactive then r0.call .lockPhases (x.lockPhases r0.world) else r0
  let locked := x.getLocked r1.world
  let r2 := (r1.log (.getLocked locked)).call (.noteNewRound locked) (x.noteNewRound locked r1.world)
  let p := r2.models.foldl (Room.finishStep x) (true, r2)
  (p.1, { p.2 with fresh := false })

/-- The method `Room::beginFall(interactive)` when every cue lookup in it
returns (with the throw: `SoundRoom.beginFall`). -/
def Room.beginFall (x : Collab W) (interactive : Bool) (r : Room W) : Bool × Room W :=
  let r1 := Room.prepareRound x { r with fresh := true }
  let out := r1.fallout x interactive
  if out.1 then
    (true, { out.2 with fresh := false })
  else
    let down := out.2.falldown x
    let r3 := if interactive then down.2.playImpact x else down.2
    (down.1, { r3 with fresh := !down.1 })

/-- The method `Room::makeMove(move)`. -/
def Room.makeMove (x : Collab W) (move : Char) (r : Room W) : Outcome W Bool :=
  if r.fresh then
    let answer := x.controlsMakeMove move r.world
    let r1 := r.call (.controlsMakeMove move answer.1) answer.2
    if answer.1 then
      .ok true { r1 with fresh := false }
    else
      .error (.LoadException "load error - bad move") r1
  else
    .ok false r

/-- The method `Room::nextRound(input)` when every cue lookup in it returns
(with the throw: `SoundRoom.nextRound`). -/
def Room.nextRound (x : Collab W) (input : InputProvider) (r : Room W) : Bool × Room W :=
  let fall := r.beginFall x x.beginFallDefault
  let r1 := if fall.1 then fall.2 else fall.2.call (.driving input) (x.driving input fall.2.world)
  r1.finishRound x x.finishRoundDefault

/-- The method `Room::loadMove(move)` when every cue lookup in it returns (with
the throw: `SoundRoom.loadMove`).  Each unit of fuel pays for one turn of the
`while (falling)` loop. -/
def Room.loadMove (x : Collab W) : Nat → Char → Room W → Outcome W Bool
  | 0, _, r => .running r
  | fuel + 1, move, r =>
    let fall := r.beginFall x false
    match fall.2.makeMove x move with
    | .error e r2 => .error e r2
    | .running r2 => .running r2
    | .ok _ r2 =>
      let fin := r2.finishRound x false
      if fin.1 && fall.1 then
        .error (.LoadException "load error - early finished level") fin.2
      else if fall.1 then
        Room.loadMove x fuel move fin.2
      else
        .ok fin.1 fin.2

/-- The loop of `Room::isSolvable()`, which returns at the first wrong model. -/
def Room.isSolvableLoop (x : Collab W) : List Cube → Room W → Bool × Room W
  | [], r => (true, r)
  | m :: ms, r =>
    let r1 := r.log (.isWrong m (x.isWrong m r.world))
    if x.isWrong m r.world then (false, r1) else Room.isSolvableLoop x ms r1

/-- The method `Room::isSolvable()`. -/
def Room.isSolvable (x : Collab W) (r : Room W) : Bool × Room W :=
  Room.isSolvableLoop x r.models r


/-- One public operation of a room, as a caller issues it.  `loadMove` carries
the fuel of its loop. -/
inductive RoomOp where
  | addModel (new_model : Cube) (new_unit : Option DriveUnit)
  | nextRound (input : InputProvider)
  | beginFall (interactive : Bool)
  | makeMove (move : Char)
  | finishRound (interactive : Bool)
  | loadMove (fuel : Nat) (move : Char)
  | isSolvable
  | getModel (model_index : Int)
  deriving DecidableEq, Repr

/-- The room after one operation: the state in which the call leaves it, also
when the call throws (the caller may catch and go on), and the state reached so
far when the loop of `loadMove` is still running. -/
def Room.applyOp (x : Collab W) (r : Room W) : RoomOp → Room W
  | .addModel new_model new_unit => (r.addModel x new_model new_unit).2
  | .nextRound input => (r.nextRound x input).2
  | .beginFall interactive => (r.beginFall x interactive).2
  | .makeMove move => (r.makeMove x move).room
  | .finishRound interactive => (r.finishRound x interactive).2
  | .loadMove fuel move => (r.loadMove x fuel move).room
  | .isSolvable => (r.isSolvable x).2
  | .getModel model_index => (r.getModel model_index).room

/-- The room after a sequence of operations. -/
def Room.applyOps (x : Collab W) (r : Room W) (ops : List RoomOp) : Room W :=
  ops.foldl (Room.applyOp x) r

/-- The model that an operation inserts, if it is an `addModel`. -/
def RoomOp.inserts : RoomOp → Option Cube
  | .addModel new_model _ => some new_model
  | _ => none

/-- The models that the `addModel` calls of a sequence insert, in call order. -/
def inserted (ops : List RoomOp) : List Cube :=
  ops.filterMap RoomOp.inserts

/-- A small world for the examples.  The number counts down the rounds until
the models rest: they fall while it is at least 2 and land when it is 1; every
`finishRound` of a model's rules lowers it.  Models with an odd identity are
satisfied, model 13 is wrong, models from 100 on leave the room, and the
controls accept every move but `'x'`. -/
def toy : Collab Nat where
  takeField _ w := w
  setIndex _ _ w := w
  getIndex m _ := m
  getPower _ _ := .LIGHT
  getWeight _ _ := .HEAVY
  isSatisfy m _ := m % 2 == 1
  isWrong m _ := m == 13
  occupyNewPos _ w := w
  checkDead _ w := (false, w)
  changeState _ w := w
  actionOut m w := (if 100 ≤ m then 1 else 0, w)
  actionFall _ w := (if 2 ≤ w then .FALL_NOW else if w = 1 then .FALL_LAST else .NONE, w)
  rulesFinishRound _ w := w - 1
  takeModel _ _ w := w
  addUnit _ w := w
  driving _ w := w
  checkActive w := w
  lockPhases w := w
  controlsMakeMove c w := (c != 'x', w)
  ensurePhases _ w := w
  getLocked _ := 0
  noteNewRound _ w := w
  interruptPlan w := w
  killSound _ w := w
  playSound _ _ w := w
  logWarning _ w := w
  beginFallDefault := true
  finishRoundDefault := true
  playSoundDefault := 100

/-- An example room: two models, the second with a driver, three rounds of fall ahead. -/
def toyRoom : Room Nat :=
  ((Room.create 3).applyOps toy [.addModel 4 none, .addModel 6 (some 1)])

/-- Successive `makeMove` calls with nothing in between: each call starts from
the room that the call before left, also when that call threw. -/
def Room.makeMoves (x : Collab W) : List Char → Room W → List (Outcome W Bool)
  | [], _ => []
  | move :: moves, r => r.makeMove x move :: Room.makeMoves x moves (r.makeMove x move).room

/-- Whether a call returned `true`. -/
def Outcome.returnedTrue : Outcome W Bool → Bool
  | .ok true _ => true
  | _ => false

/-- One turn of the loop of `loadMove` without its `makeMove`:
`beginFall(false)`, then `finishRound(false)`.  This is what a turn does when
something falls, since `makeMove` then finds the room not fresh. -/
def Room.fallRound (x : Collab W) (r : Room W) : Bool × Room W :=
  (r.beginFall x false).2.finishRound x false

/-- The room at the start of turn `j` of the loop of `loadMove`, counted from 0,
when the turns before it were falling rounds. -/
def Room.replayStart (x : Collab W) : Nat → Room W → Room W
  | 0, r => r
  | j + 1, r => Room.replayStart x j (r.fallRound x).2

/-- The turn that starts at `r` is a falling round that does not report the
room complete, so that the loop goes on. -/
def Room.fallsOn (x : Collab W) (r : Room W) : Bool :=
  (r.beginFall x false).1 && !(r.fallRound x).1

/-- The turn that starts at `r` is a falling round that reports the room complete. -/
def Room.earlyFinishAt (x : Collab W) (r : Room W) : Bool :=
  (r.beginFall x false).1 && (r.fallRound x).1

/-- In the turn that starts at `r` nothing falls or leaves, and the control
layer rejects `move`. -/
def Room.rejectedAt (x : Collab W) (move : Char) (r : Room W) : Bool :=
  !(r.beginFall x false).1 && !(x.controlsMakeMove move (r.beginFall x false).2.world).1

/-- In the turn that starts at `r` nothing falls or leaves, and the control
layer accepts `move`. -/
def Room.acceptedAt (x : Collab W) (move : Char) (r : Room W) : Bool :=
  !(r.beginFall x false).1 && (x.controlsMakeMove move (r.beginFall x false).2.world).1

/-- The room after `beginFall(false)` and a `makeMove` that the control layer rejected. -/
def Room.rejected (x : Collab W) (move : Char) (r : Room W) : Room W :=
  (r.beginFall x false).2.call (.controlsMakeMove move false)
    (x.controlsMakeMove move (r.beginFall x false).2.world).2

/-- The room after `beginFall(false)` and a `makeMove` that the control layer accepted. -/
def Room.committed (x : Collab W) (move : Char) (r : Room W) : Room W :=
  { (r.beginFall x false).2.call (.controlsMakeMove move true)
      (x.controlsMakeMove move (r.beginFall x false).2.world).2 with fresh := false }

/-- The first `k` turns of the loop of `loadMove` from `r` are falling rounds
after which the loop goes on. -/
def Room.fallsThrough (x : Collab W) (k : Nat) (r : Room W) : Prop :=
  ∀ i, i < k → (Room.replayStart x i r).fallsOn x = true

/-- How often a phase has been entered so far. -/
def Room.entered (p : Phase) (r : Room W) : Nat :=
  (r.trace.filterMap Event.phaseEntered).count p

/-- The move codes passed to the control layer so far, with its answers. -/
def Room.movesAsked (r : Room W) : List (Char × Bool) :=
  r.trace.filterMap Event.moveAsked

/-- An example room after a replayed move: the room in which `loadMove('u')`
leaves `toyRoom`, one falling round and one round with the move later. -/
def landedRoom : Room Nat :=
  (toyRoom.loadMove toy 9 'u').room

/-- An example room with one model at rest. -/
def restRoom : Room Nat :=
  ((Room.create 0).applyOps toy [.addModel 4 none])

/-- An example room whose second model is wrong. -/
def wrongRoom : Room Nat :=
  ((Room.create 3).applyOps toy [.addModel 4 none, .addModel 13 none])

/-- An example room in which the second model leaves the room. -/
def exitRoom : Room Nat :=
  ((Room.create 3).applyOps toy [.addModel 4 none, .addModel 100 none])

/-- Between `r` and `s` the trace only grew, and only by events that satisfy `P`. -/
def Emits (P : Event → Prop) (r s : Room W) : Prop :=
  ∃ d, s.trace = r.trace ++ d ∧ ∀ e ∈ d, P e

/-- The operations of a model's rules that the room drives. -/
inductive RulesOp where
  | occupyNewPos
  | checkDead
  | changeState
  | actionOut
  | actionFall
  | finishRound
  deriving DecidableEq, Repr

/-- The call on a model's rules that an event records, with the model. -/
def Event.rulesCall : Event → Option (RulesOp × Cube)
  | .occupyNewPos m => some (.occupyNewPos, m)
  | .checkDead m _ => some (.checkDead, m)
  | .changeState m => some (.changeState, m)
  | .actionOut m _ => some (.actionOut, m)
  | .actionFall m _ => some (.actionFall, m)
  | .rulesFinishRound m => some (.finishRound, m)
  | _ => none

/-- The model whose `finishRound` rules call an event records. -/
def Event.finishCalled : Event → Option Cube
  | .rulesFinishRound m => some m
  | _ => none

/-- The model whose death check an event records as answered with true. -/
def Event.died : Event → Option Cube
  | .checkDead m true => some m
  | _ => none

/-- The model for which an event records the start of `playDead`: its first
act, the `getIndex` query, which nothing else in `Room.cpp` makes. -/
def Event.playDeadFor : Event → Option Cube
  | .getIndex m _ => some m
  | _ => none

/-- The name of the sound cue that an event records as requested. -/
def Event.soundCue : Event → Option String
  | .playSound name _ => some name
  | _ => none

/-- The count of phases that an event records as requested from the locker. -/
def Event.phasesEnsured : Event → Option Int
  | .ensurePhases count => some count
  | _ => none

/-- What `playDead` records after its `getIndex` query. -/
def Event.inPlayDead : Event → Prop
  | .killSound _ | .getPower _ _ | .playSound _ _ | .logWarning _ => True
  | _ => False

/-- The model that an event records as leaving the room: an exit check that
answered with a positive depth. -/
def Event.exited : Event → Option Cube
  | .actionOut m outDepth => if 0 < outDepth then some m else none
  | _ => none

/-- The example world with a death: as `toy`, but the death check of model 7
answers true. -/
def toyDeath : Collab Nat :=
  { toy with checkDead := fun m w => (m == 7, w) }

/-- An example room at rest in which the second model dies. -/
def deadRoom : Room Nat :=
  ((Room.create 0).applyOps toyDeath [.addModel 4 none, .addModel 7 none])

/-- The model whose fall check an event records as answered with `FALL_NOW`. -/
def Event.fallingNow : Event → Option Cube
  | .actionFall m .FALL_NOW => some m
  | _ => none

/-- The model whose fall check an event records as answered with `FALL_LAST`. -/
def Event.landedModel : Event → Option Cube
  | .actionFall m .FALL_LAST => some m
  | _ => none

/-- The models that land in a gravity phase over the models `ms` that starts in
the world `w`, each with its weight class: the models whose fall check answers
`FALL_LAST`, in collection order, with what `getWeight` answers after that fall
check.  The fall checks are made one after the other, each in the world that
the one before left. -/
def landed (x : Collab W) : List Cube → W → List (Cube × eWeight)
  | [], _ => []
  | m :: ms, w =>
    if (x.actionFall m w).1 = .FALL_LAST then
      (m, x.getWeight m (x.actionFall m w).2) :: landed x ms (x.actionFall m w).2
    else
      landed x ms (x.actionFall m w).2

/-- The room inside `beginFall` after `prepareRound`. -/
def Room.afterPrepare (x : Collab W) (r : Room W) : Room W :=
  Room.prepareRound x { r with fresh := true }

/-- The answer of `fallout` inside `beginFall`, and the room after it. -/
def Room.afterFallout (x : Collab W) (interactive : Bool) (r : Room W) : Bool × Room W :=
  (r.afterPrepare x).fallout x interactive

/-- The answer of `falldown` inside `beginFall` when no model left, and the room
after it. -/
def Room.afterFalldown (x : Collab W) (interactive : Bool) (r : Room W) : Bool × Room W :=
  (r.afterFallout x interactive).2.falldown x

/-- An example room in which the model lands in the next round. -/
def landingRoom : Room Nat :=
  ((Room.create 1).applyOps toy [.addModel 4 none])

/-- An event that, if it requests a sound cue, requests one of the two death cues. -/
def Event.deadCueOnly (e : Event) : Prop :=
  ∀ name volume, e = Event.playSound name volume → name = "dead_small" ∨ name = "dead_big"

/-- The models whose rules have been asked to finish a round so far, call by call. -/
def Room.finishCalls (r : Room W) : List Cube :=
  r.trace.filterMap Event.finishCalled

/-- The room inside `nextRound` right before `finishRound`: after `beginFall`
and, when nothing falls, the `driving` call. -/
def Room.beforeFinish (x : Collab W) (input : InputProvider) (r : Room W) : Room W :=
  if (r.beginFall x x.beginFallDefault).1 then (r.beginFall x x.beginFallDefault).2
  else (r.beginFall x x.beginFallDefault).2.call (.driving input)
    (x.driving input (r.beginFall x x.beginFallDefault).2.world)

/-- Whether an event records a call on a model's rules. -/
def Event.isRules (e : Event) : Bool :=
  e.rulesCall.isSome

/-- The calls on the models' rules so far, each with its answer, in call order. -/
def Room.rulesTrace (r : Room W) : List Event :=
  r.trace.filter Event.isRules

/-- Two rooms that agree on what replay is about: the same models, the same
view of the world, and the same calls on the models' rules with the same
answers. -/
def Sim {M : Type} (view : W → M) (r s : Room W) : Prop :=
  r.models = s.models ∧ view r.world = view s.world ∧ r.rulesTrace = s.rulesTrace

/-- An example room that carries an impact from an earlier round: `landedRoom`,
in which the replayed round left the impact of the landing, with one more model
that leaves the room. -/
def staleRoom : Room Nat :=
  landedRoom.applyOps toy [.addModel 100 none]

/-- A step of a round that an event records: the entry of a phase, or the
`driving` call of the control layer. -/
def Event.roundStep : Event → Option Event
  | .phase p => some (.phase p)
  | .driving input => some (.driving input)
  | _ => none

/-- An event that is no `driving` call. -/
def Event.notDriving : Event → Prop
  | .driving _ => False
  | _ => True

/-! ## The game agent (`GameAgent.cpp`) -/

/-- One entry of the ghost trace of the game agent: a call that reaches
`ensurePhases`, or a call of the agent on the level, the world map, the log,
the sound agent or the options. -/
inductive GameEvent where
  | ensurePhases (count : Int)
  | nextAction (room_complete : Bool)
  | updateLevel
  | markSolved
  | logInfo (info : String)
  | deleteLevel
  | setParam (name : String) (value : Int)
  | watchCursor
  | stopMusic
  | action_restart
  deriving DecidableEq, Repr

/-- The answer of a `nextAction` call that an event records. -/
def GameEvent.actionAnswer : GameEvent → Option Bool
  | .nextAction room_complete => some room_complete
  | _ => none

/-- The collaborators of the game agent over a level state `L`; none of them is
part of `GameAgent.cpp`.  A call on the level may call back the agent's
`ensurePhases`: it returns the counts of these calls, in call order, with the
new state of the level. -/
structure GameCollab (L : Type) where
  /-- The call `m_level->nextAction()`: the answer, the `ensurePhases` calls, the level. -/
  nextAction : L → Bool × List Int × L
  /-- The call `m_level->updateLevel()`: the `ensurePhases` calls, the level. -/
  updateLevel : L → List Int × L
  /-- The call `m_world->createSelected()`; `none` is `NULL`. -/
  createSelected : Option L
  /-- The call `m_level->action_restart()`: the `ensurePhases` calls, the level. -/
  action_restart : L → List Int × L
  /-- The call `m_world->getW()`. -/
  worldW : Int
  /-- The call `m_world->getH()`. -/
  worldH : Int

/-- The state of a `GameAgent`: the members `m_level` (`none` is `NULL`, otherwise
the state of the level) and `m_lockPhases`, and the ghost trace. -/
structure GameAgent (L : Type) where
  level : Option L
  lockPhases : Int
  trace : List GameEvent
  deriving DecidableEq, Repr

/-- Write one entry to the ghost trace of the agent. -/
def GameAgent.log {L : Type} (g : GameAgent L) (e : GameEvent) : GameAgent L :=
  { g with trace := g.trace ++ [e] }

/-- The method `GameAgent::ensurePhases(count)`. -/
def GameAgent.ensurePhases {L : Type} (count : Int) (g : GameAgent L) : GameAgent L :=
  { g.log (.ensurePhases count) with lockPhases := max g.lockPhases count }

/-- The `ensurePhases` calls that a call on the level makes, one after the other. -/
def GameAgent.called {L : Type} (counts : List Int) (g : GameAgent L) : GameAgent L :=
  counts.foldl (fun s count => s.ensurePhases count) g

/-- The method `GameAgent::cleanLevel()`. -/
def GameAgent.cleanLevel {L : Type} (x : GameCollab L) (g : GameAgent L) : GameAgent L :=
  let g1 : GameAgent L := { g with lockPhases := 0 }
  let g2 : GameAgent L :=
    match g1.level with
    | some _ => { g1.log .deleteLevel with level := none }
    | none => g1
  (g2.log (.setParam "screen_width" x.worldW)).log (.setParam "screen_height" x.worldH)

/-- The method `GameAgent::own_init()`, as far as the level and the lock go: the
world map of the test and the key binding touch neither and are left out. -/
def GameAgent.own_init {L : Type} (x : GameCollab L) : GameAgent L :=
  GameAgent.cleanLevel x { level := none, lockPhases := 0, trace := [] }

/-- The method `GameAgent::newLevel()`. -/
def GameAgent.newLevel {L : Type} (x : GameCollab L) (g : GameAgent L) : GameAgent L :=
  match g.level with
  | none =>
    match x.createSelected with
    | some l =>
      (({ g with level := some (x.action_restart l).2 }.log .stopMusic).log
        .action_restart).called (x.action_restart l).1
    | none => g
  | some _ => g

/-- The method `GameAgent::own_update()`. -/
def GameAgent.own_update {L : Type} (x : GameCollab L) (g : GameAgent L) : GameAgent L :=
  match g.level with
  | some l =>
    let act : Bool × List Int × L := if g.lockPhases = 0 then x.nextAction l else (false, [], l)
    let g1 := if g.lockPhases = 0 then (g.log (.nextAction act.1)).called act.2.1 else g
    let upd := x.updateLevel act.2.2
    let g2 := ({ g1 with level := some upd.2 }.log .updateLevel).called upd.1
    let g3 : GameAgent L :=
      if 0 < g2.lockPhases then { g2 with lockPhases := g2.lockPhases - 1 } else g2
    if act.1 then
      GameAgent.cleanLevel x
        ((g3.log .markSolved).log (.logInfo "gratulation, room is complete"))
    else
      g3
  | none => g.log .watchCursor

/-- The agent after `k` successive calls of `own_update`. -/
def GameAgent.updates {L : Type} (x : GameCollab L) : Nat → GameAgent L → GameAgent L
  | 0, g => g
  | k + 1, g => GameAgent.updates x k (g.own_update x)

/-- The answers of the `nextAction` calls that the next `own_update` makes. -/
def GameAgent.actionsIn {L : Type} (x : GameCollab L) (g : GameAgent L) : List Bool :=
  ((g.own_update x).trace.drop g.trace.length).filterMap GameEvent.actionAnswer

/-- The counts of the `ensurePhases` calls made during the next `own_update`. -/
def GameAgent.ensuredIn {L : Type} (x : GameCollab L) (g : GameAgent L) : List Int :=
  ((g.own_update x).trace.drop g.trace.length).filterMap
    (fun e => match e with
      | .ensurePhases count => some count
      | _ => none)

/-- The level after `k` calls of `updateLevel`. -/
def GameCollab.idle {L : Type} (x : GameCollab L) : Nat → L → L
  | 0, l => l
  | k + 1, l => GameCollab.idle x k (x.updateLevel l).2

/-- A small game for the examples: the state of the level is the number of
actions until the room is complete; every action asks for three phases, and the
action that brings the number to 0 reports the room complete. -/
def arcade : GameCollab Nat where
  nextAction l := (decide (l ≤ 1), [3], l - 1)
  updateLevel l := ([], l)
  createSelected := some 2
  action_restart l := ([], l)
  worldW := 640
  worldH := 480

/-- An example agent: after `own_init` the level of `arcade` is started. -/
def arcadeStart : GameAgent Nat :=
  (GameAgent.own_init arcade).newLevel arcade

/-- The agent inside `own_update` after the `updateLevel` call on the level `l`. -/
def GameAgent.updated {L : Type} (x : GameCollab L) (l : L) (g : GameAgent L) : GameAgent L :=
  ({ g with level := some (x.updateLevel l).2 }.log .updateLevel).called (x.updateLevel l).1

/-- The step `if (m_lockPhases > 0) m_lockPhases--` of `own_update`. -/
def GameAgent.countDown {L : Type} (g : GameAgent L) : GameAgent L :=
  if 0 < g.lockPhases then { g with lockPhases := g.lockPhases - 1 } else g

/-! ## The parameter store (`Environ.cpp`) -/

/-- A watcher message (`BaseMsg *`), by object identity. -/
abbrev Msg := Nat

/-- One entry of the ghost trace of the parameter store: a call on a message
or on the log.  A `sendClone` call is recorded with whether it threw a
`NameException`. -/
inductive EnvEvent where
  | logDebug (info : String)
  | sendClone (msg : Msg) (threw : Bool)
  | logWarning (info : String)
  | deleteMsg (msg : Msg)
  deriving DecidableEq, Repr

/-- The message that an event records as sent to. -/
def EnvEvent.sentTo : EnvEvent → Option Msg
  | .sendClone msg _ => some msg
  | _ => none

/-- The collaborators of the parameter store over a world `V`: the call
`msg->sendClone()`, which returns normally (`none`) or throws a `NameException`
with an info text. -/
structure EnvCollab (V : Type) where
  sendClone : Msg → V → Option String × V

/-- Modelled from the spec: `Environ.h` is not part of the sources.  The state of
an `Environ`: `m_values`, a map from names to values, as a partial function (its
order is not represented, the methods embedded here only look names up);
`m_watchers`, a multimap from names to messages, as the list of its entries, in
which the entries of one name stand in insertion order; the world of the
messages, and the ghost trace. -/
structure Environ (V : Type) where
  values : String → Option String
  watchers : List (String × Msg)
  world : V
  trace : List EnvEvent

/-- A new `Environ`: no values, no watchers. -/
def Environ.create {V : Type} (w : V) : Environ V :=
  { values := fun _ => none, watchers := [], world := w, trace := [] }

/-- Write one entry to the ghost trace of the store. -/
def Environ.log {V : Type} (env : Environ V) (e : EnvEvent) : Environ V :=
  { env with trace := env.trace ++ [e] }

/-- The expression `m_values[name]`: the value under `name`, after the name has
been entered with the empty string if it was not in the map. -/
def Environ.index {V : Type} (name : String) (env : Environ V) : String × Environ V :=
  match env.values name with
  | some value => (value, env)
  | none => ("", { env with values := Function.update env.values name (some "") })

/-- The body of the loop of `setParam` on one entry of `m_watchers`, on the
store whose `watchers` are the entries kept so far: an entry of another name is
passed over; the message of an entry of `name` is sent, and when that throws a
`NameException` the warning is logged, the message deleted and the entry
erased. -/
def Environ.noticeStep {V : Type} (x : EnvCollab V) (name : String) (acc : Environ V)
    (entry : String × Msg) : Environ V :=
  if entry.1 = name then
    match x.sendClone entry.2 acc.world with
    | (none, w) =>
      { acc with world := w, watchers := acc.watchers ++ [entry],
                 trace := acc.trace ++ [.sendClone entry.2 false] }
    | (some info, w) =>
      { acc with world := w,
                 trace := acc.trace ++ [.sendClone entry.2 true, .logWarning info,
                   .deleteMsg entry.2] }
  else
    { acc with watchers := acc.watchers ++ [entry] }

/-- The loop of `setParam` over the watchers of `name`: the entries of `name`
are next to each other in the multimap, from `m_watchers.find(name)` on, and the
loop visits `m_watchers.count(name)` of them. -/
def Environ.notice {V : Type} (x : EnvCollab V) (name : String) (env : Environ V) : Environ V :=
  env.watchers.foldl (Environ.noticeStep x name) { env with watchers := [] }

/-- The method `Environ::setParam(name, value)`. -/
def Environ.setParam {V : Type} (x : EnvCollab V) (name value : String) (env : Environ V) :
    Environ V :=
  let e0 := env.log (.logDebug "setParam")
  let cur := e0.index name
  if cur.1 ≠ value then
    Environ.notice x name { cur.2 with values := Function.update cur.2.values name (some value) }
  else
    cur.2

/-- The method `Environ::getParam(name, implicit)`. -/
def Environ.getParam {V : Type} (name implicit : String) (env : Environ V) : String :=
  match env.values name with
  | some value => value
  | none => implicit

/-- The method `Environ::addWatcher(name, msg)`. -/
def Environ.addWatcher {V : Type} (name : String) (msg : Msg) (env : Environ V) : Environ V :=
  { env with watchers := env.watchers ++ [(name, msg)] }.log (.logDebug "add watcher")

/-- The messages that watch `name`, in the order of the multimap. -/
def Environ.watching {V : Type} (name : String) (env : Environ V) : List Msg :=
  (env.watchers.filter (fun entry => entry.1 = name)).map Prod.snd

/-- The messages sent to between two states of the store, in call order. -/
def Environ.sentSince {V : Type} (before after : Environ V) : List Msg :=
  (after.trace.drop before.trace.length).filterMap EnvEvent.sentTo

/-- A call that changes an `Environ`. -/
inductive EnvOp where
  | setParam (name value : String)
  | addWatcher (name : String) (msg : Msg)
  deriving DecidableEq, Repr

/-- The name that a call sets, if it sets one. -/
def EnvOp.sets : EnvOp → Option String
  | .setParam name _ => some name
  | .addWatcher _ _ => none

/-- Run one call. -/
def Environ.applyOp {V : Type} (x : EnvCollab V) (env : Environ V) : EnvOp → Environ V
  | .setParam name value => env.setParam x name value
  | .addWatcher name msg => env.addWatcher name msg

/-- Run a sequence of calls, in order. -/
def Environ.applyOps {V : Type} (x : EnvCollab V) (env : Environ V) (ops : List EnvOp) :
    Environ V :=
  ops.foldl (Environ.applyOp x) env

/-- A small world of messages for the examples: the number counts the messages
sent, and the message 13 has lost its listener. -/
def postman : EnvCollab Nat where
  sendClone msg w := (if msg = 13 then some "unknown listener" else none, w + 1)

/-- An example store: the volume is set, with two watchers of the volume and one
of the language. -/
def optionsExample : Environ Nat :=
  (Environ.create 0).applyOps postman
    [.setParam "volume" "50", .addWatcher "volume" 7, .addWatcher "lang" 9,
      .addWatcher "volume" 13]

/-! ## The resource pack (`ResourcePack.h`) -/

/-- The exception class that `ResourcePack.h` throws, with the text of `ExInfo`. -/
inductive PackException where
  | ResourceException (info : String)
  deriving DecidableEq, Repr

/-- The state of a `ResourcePack<T>`: the multimap `m_reses` as the list of its
entries, in which the entries of one name stand in insertion order (the order
between different names is not represented: the methods embedded here only look
at the range of one name), and as ghost state the resources handed to
`unloadRes`, in call order. -/
structure ResourcePack (T : Type) where
  reses : List (String × T)
  unloaded : List T
  deriving DecidableEq, Repr

/-- A pack without resources. -/
def ResourcePack.empty {T : Type} : ResourcePack T :=
  { reses := [], unloaded := [] }

/-- The values of `m_reses.equal_range(name)`, first to last. -/
def ResourcePack.equalRange {T : Type} (name : String) (p : ResourcePack T) : List T :=
  (p.reses.filter (fun entry => entry.1 = name)).map Prod.snd

/-- The method `addRes(name, res)`. -/
def ResourcePack.addRes {T : Type} (name : String) (res : T) (p : ResourcePack T) :
    ResourcePack T :=
  { p with reses := p.reses ++ [(name, res)] }

/-- The method `removeRes(name)`: every resource of the range is unloaded, then
the entries of the name are erased. -/
def ResourcePack.removeRes {T : Type} (name : String) (p : ResourcePack T) : ResourcePack T :=
  { reses := p.reses.filter (fun entry => ¬ entry.1 = name),
    unloaded := p.unloaded ++ p.equalRange name }

/-- The loop of `getRes`, from the counter `i` on what is left of the range:
while `i < rank` and the range is not at its end, step on. -/
def ResourcePack.skip {T : Type} (rank : Int) : Int → List T → List T
  | _, [] => []
  | i, t :: ts => if i < rank then ResourcePack.skip rank (i + 1) ts else t :: ts

/-- The method `getRes(name, rank)`. -/
def ResourcePack.getRes {T : Type} (name : String) (rank : Int) (p : ResourcePack T) :
    Except PackException T :=
  match ResourcePack.skip rank 0 (p.equalRange name) with
  | [] => .error (.ResourceException "no such resource at index")
  | t :: _ => .ok t

/-- The method `getRange(name)`. -/
def ResourcePack.getRange {T : Type} (name : String) (p : ResourcePack T) : List T :=
  p.equalRange name

/-- The method `countRes(name)`: `m_reses.count(name)`, converted to `int`. -/
def ResourcePack.countRes {T : Type} (name : String) (p : ResourcePack T) : Int :=
  sizeToInt (p.equalRange name).length

/-- The method `getRandomRes(name)`; `randomInt` is `Random::randomInt`. -/
def ResourcePack.getRandomRes {T : Type} (randomInt : Int → Int) (name : String)
    (p : ResourcePack T) : Except PackException T :=
  if (p.equalRange name).length = 0 then
    .error (.ResourceException "no such resource")
  else
    p.getRes name (randomInt (sizeToInt (p.equalRange name).length))

/-- Whether a call threw. -/
def threw {ε α : Type} : Except ε α → Bool
  | .error _ => true
  | .ok _ => false

/-- A call that changes a pack. -/
inductive PackOp (T : Type) where
  | addRes (name : String) (res : T)
  | removeRes (name : String)
  deriving DecidableEq, Repr

/-- Run one call. -/
def ResourcePack.applyOp {T : Type} (p : ResourcePack T) : PackOp T → ResourcePack T
  | .addRes name res => p.addRes name res
  | .removeRes name => p.removeRes name

/-- Run a sequence of calls, in order. -/
def ResourcePack.applyOps {T : Type} (p : ResourcePack T) (ops : List (PackOp T)) :
    ResourcePack T :=
  ops.foldl ResourcePack.applyOp p

/-- The resources added under `name` by a sequence of calls and not removed
since, in the order in which they were added, after the resources `acc`. -/
def addedUnder {T : Type} (name : String) : List (PackOp T) → List T → List T
  | [], acc => acc
  | .addRes other res :: ops, acc =>
    addedUnder name ops (if other = name then acc ++ [res] else acc)
  | .removeRes other :: ops, acc =>
    addedUnder name ops (if other = name then [] else acc)

/-- An example pack: two sounds under one name, one under another. -/
def soundPack : ResourcePack Nat :=
  ResourcePack.empty.applyOps [.addRes "impact_light" 11, .addRes "dead_small" 21,
    .addRes "impact_light" 12]

/-! ## The room with its sound pack

`Room::playSound` looks the cue up in the member `m_soundPack` before it calls
the sound agent, and the lookup `getRandomRes` throws a `ResourceException`
when it finds nothing.  The methods of `Room W` above are the methods of
`Room.cpp` on the path on which every such lookup returns.  Here the sound pack
is part of the state, and the methods that reach `playSound` can end in the
exception of the lookup; the state they leave is the state at the throw. -/

/-- The room with its member `m_soundPack`, a pack of sound resources.  None of
the methods embedded here changes the pack. -/
structure SoundRoom (W : Type) where
  room : Room W
  soundPack : ResourcePack Nat
  deriving DecidableEq, Repr

/-- How a call on the room with its sound pack ends: it returns a value, or the
lookup of a cue throws.  Each case carries the state of the room at that
moment (the pack is as before). -/
inductive Tried (W : Type) (α : Type) where
  | ok (value : α) (room : Room W)
  | thrown (e : PackException) (room : Room W)
  deriving DecidableEq, Repr

/-- The room at the end of a call, however it ended. -/
def Tried.room {α : Type} : Tried W α → Room W
  | .ok _ r => r
  | .thrown _ r => r

/-- Whether a call returned. -/
def Tried.returned {α : Type} : Tried W α → Bool
  | .ok _ _ => true
  | .thrown _ _ => false

/-- How `loadMove` ends on the room with its sound pack: the lookup of a cue
throws, or the call ends as `Outcome` tells. -/
inductive Ending (W : Type) (α : Type) where
  | thrown (e : PackException) (room : Room W)
  | ended (o : Outcome W α)
  deriving DecidableEq, Repr

/-- The constructor `Room::Room` with `m_soundPack = new ResSoundPack()`: the
pack starts empty. -/
def SoundRoom.create (w : W) : SoundRoom W :=
  { room := Room.create w, soundPack := ResourcePack.empty }

/-- Whether the lookup `m_soundPack->getRandomRes(name)` returns. -/
def SoundRoom.finds (randomInt : Int → Int) (name : String) (sr : SoundRoom W) : Bool :=
  !threw (sr.soundPack.getRandomRes randomInt name)

/-- The method `Room::playSound(name, volume)`: the lookup of the cue in the
sound pack, which can throw, and then the call on the sound agent. -/
def SoundRoom.playSound (x : Collab W) (randomInt : Int → Int) (name : String) (volume : Int)
    (sr : SoundRoom W) : Tried W Unit :=
  match sr.soundPack.getRandomRes randomInt name with
  | .error e => .thrown e sr.room
  | .ok _ => .ok () (sr.room.playSound x name volume)

/-- The method `Room::playImpact()`: `m_impact = Cube::NONE` comes after the
`playSound` call and is not reached when that throws. -/
def SoundRoom.playImpact (x : Collab W) (randomInt : Int → Int) (sr : SoundRoom W) :
    Tried W Unit :=
  match sr.room.impact with
  | .NONE => .ok () { sr.room with impact := .NONE }
  | .LIGHT =>
    match sr.playSound x randomInt "impact_light" 50 with
    | .ok _ r1 => .ok () { r1 with impact := .NONE }
    | .thrown e r1 => .thrown e r1
  | .HEAVY =>
    match sr.playSound x randomInt "impact_heavy" 50 with
    | .ok _ r1 => .ok () { r1 with impact := .NONE }
    | .thrown e r1 => .thrown e r1

/-- The method `Room::playDead(model)`. -/
def SoundRoom.playDead (x : Collab W) (randomInt : Int → Int) (model : Cube)
    (sr : SoundRoom W) : Tried W Unit :=
  let index := x.getIndex model sr.room.world
  let r1 := (sr.room.log (.getIndex model index)).call (.killSound index)
    (x.killSound index sr.room.world)
  let power := x.getPower model r1.world
  let r2 := r1.log (.getPower model power)
  match power with
  | .LIGHT => SoundRoom.playSound x randomInt "dead_small" x.playSoundDefault { sr with room := r2 }
  | .HEAVY => SoundRoom.playSound x randomInt "dead_big" x.playSoundDefault { sr with room := r2 }
  | .NONE =>
    .ok () ((r2.log (.getPower model (x.getPower model r2.world))).call
      (.logWarning "curious power of dead fish")
      (x.logWarning "curious power of dead fish" r2.world))

/-- The second loop of `prepareRound` over the models `ms`, from the flag
`interrupt` on: the loop ends where `playDead` throws. -/
def SoundRoom.deadLoop (x : Collab W) (randomInt : Int → Int) :
    List Cube → Bool → SoundRoom W → Tried W Bool
  | [], interrupt, sr => .ok interrupt sr.room
  | m :: ms, interrupt, sr =>
    let die := x.checkDead m sr.room.world
    let r1 := sr.room.call (.checkDead m die.1) die.2
    if die.1 then
      match SoundRoom.playDead x randomInt m { sr with room := r1 } with
      | .ok _ r2 => SoundRoom.deadLoop x randomInt ms (interrupt || die.1) { sr with room := r2 }
      | .thrown e r2 => .thrown e r2
    else
      SoundRoom.deadLoop x randomInt ms (interrupt || die.1) { sr with room := r1 }

/-- The method `Room::prepareRound()`. -/
def SoundRoom.prepareRound (x : Collab W) (randomInt : Int → Int) (sr : SoundRoom W) :
    Tried W Unit :=
  let r0 := sr.room.log (.phase .prepareRound)
  let r1 := r0.models.foldl (Room.occupyStep x) r0
  match SoundRoom.deadLoop x randomInt r0.models false { sr with room := r1 } with
  | .thrown e r2 => .thrown e r2
  | .ok interrupt r2 =>
    let r3 := r0.models.foldl (Room.stateStep x) r2
    .ok () (if interrupt then r3.interrupt x else r3)

/-- The method `Room::beginFall(interactive)`. -/
def SoundRoom.beginFall (x : Collab W) (randomInt : Int → Int) (interactive : Bool)
    (sr : SoundRoom W) : Tried W Bool :=
  match SoundRoom.prepareRound x randomInt { sr with room := { sr.room with fresh := true } } with
  | .thrown e r1 => .thrown e r1
  | .ok _ r1 =>
    let out := r1.fallout x interactive
    if out.1 then
      .ok true { out.2 with fresh := false }
    else
      let down := out.2.falldown x
      if interactive then
        match SoundRoom.playImpact x randomInt { sr with room := down.2 } with
        | .thrown e r3 => .thrown e r3
        | .ok _ r3 => .ok down.1 { r3 with fresh := !down.1 }
      else
        .ok down.1 { down.2 with fresh := !down.1 }

/-- The method `Room::nextRound(input)`. -/
def SoundRoom.nextRound (x : Collab W) (randomInt : Int → Int) (input : InputProvider)
    (sr : SoundRoom W) : Tried W Bool :=
  match sr.beginFall x randomInt x.beginFallDefault with
  | .thrown e r1 => .thrown e r1
  | .ok falling r1 =>
    let r2 := if falling then r1 else r1.call (.driving input) (x.driving input r1.world)
    let fin := r2.finishRound x x.finishRoundDefault
    .ok fin.1 fin.2

/-- The method `Room::loadMove(move)`.  Each unit of fuel pays for one turn of
the `while (falling)` loop. -/
def SoundRoom.loadMove (x : Collab W) (randomInt : Int → Int) :
    Nat → Char → SoundRoom W → Ending W Bool
  | 0, _, sr => .ended (.running sr.room)
  | fuel + 1, move, sr =>
    match sr.beginFall x randomInt false with
    | .thrown e r1 => .thrown e r1
    | .ok falling r1 =>
      match r1.makeMove x move with
      | .error e r2 => .ended (.error e r2)
      | .running r2 => .ended (.running r2)
      | .ok _ r2 =>
        let fin := r2.finishRound x false
        if fin.1 && falling then
          .ended (.error (.LoadException "load error - early finished level") fin.2)
        else if falling then
          SoundRoom.loadMove x randomInt fuel move { sr with room := fin.2 }
        else
          .ended (.ok fin.1 fin.2)

/-- The room at the end of a `loadMove`, however it ended. -/
def Ending.room {α : Type} : Ending W α → Room W
  | .thrown _ r => r
  | .ended o => o.room

/-- A sound pack with the four cues of the round engine. -/
def fullPack : ResourcePack Nat :=
  ResourcePack.empty.applyOps [.addRes "impact_light" 11, .addRes "impact_heavy" 12,
    .addRes "dead_small" 21, .addRes "dead_big" 22]

/-- A random source for the examples: always the first resource of a name. -/
def firstRes : Int → Int := fun _ => 0

/-- The room `r` with the sound pack of a new room, which is empty. -/
def Room.silent (r : Room W) : SoundRoom W :=
  { room := r, soundPack := ResourcePack.empty }

/-- The room `r` with a sound pack that has the four cues. -/
def Room.sounding (r : Room W) : SoundRoom W :=
  { room := r, soundPack := fullPack }

/-- The cue that `playImpact` looks up for the impact of the room, if any. -/
def Room.impactCue (r : Room W) : Option String :=
  match r.impact with
  | .NONE => none
  | .LIGHT => some "impact_light"
  | .HEAVY => some "impact_heavy"

/-- The room inside `playDead(model)` right before the `switch`: after the
`killSound` call and the `getPower` query. -/
def Room.deadAsked (x : Collab W) (model : Cube) (r : Room W) : Room W :=
  ((r.log (.getIndex model (x.getIndex model r.world))).call
    (.killSound (x.getIndex model r.world))
    (x.killSound (x.getIndex model r.world) r.world)).log
      (.getPower model (x.getPower model (x.killSound (x.getIndex model r.world) r.world)))

/-- The cue that `playDead(model)` looks up in the room `r`, if any. -/
def Room.deadCue (x : Collab W) (model : Cube) (r : Room W) : Option String :=
  match x.getPower model (x.killSound (x.getIndex model r.world) r.world) with
  | .NONE => none
  | .LIGHT => some "dead_small"
  | .HEAVY => some "dead_big"

/-- The room inside the second loop of `prepareRound` over `pre ++ m :: post`,
started with the flag `interrupt` in the room `r`, at the `switch` of the
`playDead` call for `m`: the models `pre` are done, the death check of `m` has
answered true. -/
def Room.deadLoopAt (x : Collab W) (pre : List Cube) (m : Cube) (interrupt : Bool)
    (r : Room W) : Room W :=
  Room.deadAsked x m
    ((pre.foldl (Room.deadStep x) (interrupt, r)).2.call (.checkDead m true)
      (x.checkDead m (pre.foldl (Room.deadStep x) (interrupt, r)).2.world).2)

/-- The room inside `prepareRound` at the `switch` of the `playDead` call for
the model `m` that stands after the models `pre`. -/
def Room.diedAt (x : Collab W) (pre : List Cube) (m : Cube) (r : Room W) : Room W :=
  Room.deadLoopAt x pre m false
    (r.models.foldl (Room.occupyStep x) (r.log (.phase .prepareRound)))

/-- An example room whose first model dies in the next round. -/
def dyingRoom : Room Nat :=
  ((Room.create 0).applyOps toyDeath [.addModel 7 none, .addModel 4 none])

/-- Whether `beginFall(false)` returns in turn `i` of the loop of `loadMove`,
counted from 0, when the turns before it were falling rounds. -/
def SoundRoom.heard (x : Collab W) (randomInt : Int → Int) (i : Nat) (sr : SoundRoom W) : Bool :=
  (SoundRoom.beginFall x randomInt false
    { sr with room := Room.replayStart x i sr.room }).returned

/-! ## Theorems -/

theorem sizeToInt_of_lt {n : Nat} (h : n < 2 ^ 31) : sizeToInt n = (n : Int) := by
  unfold sizeToInt
  omega

@[simp] theorem Room.log_models (r : Room W) (e : Event) : (r.log e).models = r.models := rfl
@[simp] theorem Room.log_impact (r : Room W) (e : Event) : (r.log e).impact = r.impact := rfl
@[simp] theorem Room.log_fresh (r : Room W) (e : Event) : (r.log e).fresh = r.fresh := rfl
@[simp] theorem Room.log_world (r : Room W) (e : Event) : (r.log e).world = r.world := rfl
@[simp] theorem Room.log_trace (r : Room W) (e : Event) : (r.log e).trace = r.trace ++ [e] := rfl
@[simp] theorem Room.call_models (r : Room W) (e : Event) (w : W) :
    (r.call e w).models = r.models := rfl
@[simp] theorem Room.call_impact (r : Room W) (e : Event) (w : W) :
    (r.call e w).impact = r.impact := rfl
@[simp] theorem Room.call_fresh (r : Room W) (e : Event) (w : W) :
    (r.call e w).fresh = r.fresh := rfl
@[simp] theorem Room.call_world (r : Room W) (e : Event) (w : W) : (r.call e w).world = w := rfl
@[simp] theorem Room.call_trace (r : Room W) (e : Event) (w : W) :
    (r.call e w).trace = r.trace ++ [e] := rfl

/-! ### The model collection is only ever appended to -/

theorem foldl_keep {β : Type} (π : Room W → β) (f : Room W → Cube → Room W)
    (hf : ∀ s m, π (f s m) = π s) (ms : List Cube) (s : Room W) :
    π (ms.foldl f s) = π s := by
  induction ms generalizing s with
  | nil => rfl
  | cons m ms ih => rw [List.foldl_cons, ih, hf]

theorem foldl_keep_pair {β : Type} (π : Room W → β) (f : Bool × Room W → Cube → Bool × Room W)
    (hf : ∀ acc m, π (f acc m).2 = π acc.2) (ms : List Cube) (acc : Bool × Room W) :
    π (ms.foldl f acc).2 = π acc.2 := by
  induction ms generalizing acc with
  | nil => rfl
  | cons m ms ih => rw [List.foldl_cons, ih, hf]

@[simp] theorem Room.playSound_models (x : Collab W) (name : String) (volume : Int) (r : Room W) :
    (r.playSound x name volume).models = r.models := rfl

@[simp] theorem Room.interrupt_models (x : Collab W) (r : Room W) :
    (r.interrupt x).models = r.models := rfl

@[simp] theorem Room.playImpact_models (x : Collab W) (r : Room W) :
    (r.playImpact x).models = r.models := by
  unfold Room.playImpact
  cases r.impact <;> rfl

@[simp] theorem Room.playDead_models (x : Collab W) (m : Cube) (r : Room W) :
    (r.playDead x m).models = r.models := by
  unfold Room.playDead
  simp only []
  split <;> rfl

theorem Room.deadStep_models (x : Collab W) (acc : Bool × Room W) (m : Cube) :
    (Room.deadStep x acc m).2.models = acc.2.models := by
  unfold Room.deadStep
  simp only []
  split <;> simp

theorem Room.outStep_models (x : Collab W) (i : Bool) (acc : Bool × Room W) (m : Cube) :
    (Room.outStep x i acc m).2.models = acc.2.models := by
  unfold Room.outStep
  simp only []
  split
  · cases i <;> simp
  · simp

theorem Room.fallStep_models (x : Collab W) (acc : Bool × Room W) (m : Cube) :
    (Room.fallStep x acc m).2.models = acc.2.models := by
  unfold Room.fallStep
  simp only []
  split
  · simp
  · split
    · split <;> simp
    · simp

theorem Room.finishStep_models (x : Collab W) (acc : Bool × Room W) (m : Cube) :
    (Room.finishStep x acc m).2.models = acc.2.models := by
  simp [Room.finishStep]

@[simp] theorem Room.prepareRound_models (x : Collab W) (r : Room W) :
    (r.prepareRound x).models = r.models := by
  have h1 : ∀ s : Room W, (r.models.foldl (Room.occupyStep x) s).models = s.models :=
    foldl_keep Room.models (Room.occupyStep x) (fun _ _ => rfl) _
  have h2 : ∀ acc : Bool × Room W,
      (r.models.foldl (Room.deadStep x) acc).2.models = acc.2.models :=
    foldl_keep_pair Room.models _ (Room.deadStep_models x) _
  have h3 : ∀ s : Room W, (r.models.foldl (Room.stateStep x) s).models = s.models :=
    foldl_keep Room.models (Room.stateStep x) (fun _ _ => rfl) _
  unfold Room.prepareRound
  simp only [Room.log_models]
  split <;> simp [h1, h2, h3]

@[simp] theorem Room.fallout_models (x : Collab W) (i : Bool) (r : Room W) :
    (r.fallout x i).2.models = r.models := by
  have h : ∀ acc : Bool × Room W,
      (r.models.foldl (Room.outStep x i) acc).2.models = acc.2.models :=
    foldl_keep_pair Room.models _ (Room.outStep_models x i) _
  unfold Room.fallout
  simp only [Room.log_models]
  split <;> simp [h]

@[simp] theorem Room.falldown_models (x : Collab W) (r : Room W) :
    (r.falldown x).2.models = r.models := by
  unfold Room.falldown
  simp only [Room.log_models]
  rw [foldl_keep_pair Room.models _ (Room.fallStep_models x)]

@[simp] theorem Room.finishRound_models (x : Collab W) (i : Bool) (r : Room W) :
    (r.finishRound x i).2.models = r.models := by
  unfold Room.finishRound
  simp only []
  rw [foldl_keep_pair Room.models _ (Room.finishStep_models x)]
  cases i <;> simp

@[simp] theorem Room.beginFall_models (x : Collab W) (i : Bool) (r : Room W) :
    (r.beginFall x i).2.models = r.models := by
  unfold Room.beginFall
  simp only []
  split
  · simp
  · cases i <;> simp

@[simp] theorem Room.nextRound_models (x : Collab W) (input : InputProvider) (r : Room W) :
    (r.nextRound x input).2.models = r.models := by
  unfold Room.nextRound
  simp only []
  split <;> simp

@[simp] theorem Room.makeMove_models (x : Collab W) (move : Char) (r : Room W) :
    (r.makeMove x move).room.models = r.models := by
  unfold Room.makeMove
  simp only []
  split
  · split <;> rfl
  · rfl

@[simp] theorem Room.loadMove_models (x : Collab W) (fuel : Nat) (move : Char) (r : Room W) :
    (r.loadMove x fuel move).room.models = r.models := by
  induction fuel generalizing r with
  | zero => rfl
  | succ n ih =>
    unfold Room.loadMove
    simp only []
    have hm := Room.makeMove_models x move (r.beginFall x false).2
    split
    · next e r2 heq => rw [heq] at hm; simpa [Outcome.room] using hm
    · next r2 heq => rw [heq] at hm; simpa [Outcome.room] using hm
    · next b r2 heq =>
      rw [heq] at hm
      simp only [Outcome.room, Room.beginFall_models] at hm
      split
      · simp [Outcome.room, hm]
      · split
        · rw [ih]; simp [hm]
        · simp [Outcome.room, hm]

theorem Room.isSolvableLoop_models (x : Collab W) (ms : List Cube) (r : Room W) :
    (Room.isSolvableLoop x ms r).2.models = r.models := by
  induction ms generalizing r with
  | nil => rfl
  | cons m ms ih =>
    unfold Room.isSolvableLoop
    simp only []
    split
    · rfl
    · rw [ih]; rfl

@[simp] theorem Room.isSolvable_models (x : Collab W) (r : Room W) :
    (r.isSolvable x).2.models = r.models :=
  Room.isSolvableLoop_models x r.models r

@[simp] theorem Room.getModel_room (r : Room W) (model_index : Int) :
    (r.getModel model_index).room = r := by
  unfold Room.getModel
  split <;> rfl

theorem Room.addModel_models (x : Collab W) (m : Cube) (u : Option DriveUnit) (r : Room W) :
    (r.addModel x m u).2.models = r.models ++ [m] := by
  unfold Room.addModel
  cases u <;> rfl

theorem Room.applyOp_models (x : Collab W) (r : Room W) (op : RoomOp) :
    (r.applyOp x op).models = r.models ++ (op.inserts).toList := by
  cases op <;> simp [Room.applyOp, RoomOp.inserts, Room.addModel_models]

theorem Room.applyOps_models (x : Collab W) (r : Room W) (ops : List RoomOp) :
    (r.applyOps x ops).models = r.models ++ inserted ops := by
  induction ops generalizing r with
  | nil => simp [Room.applyOps, inserted]
  | cons op ops ih =>
    have h : r.applyOps x (op :: ops) = (r.applyOp x op).applyOps x ops := rfl
    rw [h, ih, Room.applyOp_models]
    cases op <;> simp [RoomOp.inserts, inserted]


/-! ### Traces only grow -/

theorem Emits.refl (P : Event → Prop) (r : Room W) : Emits P r r :=
  ⟨[], by simp, by simp⟩

theorem Emits.trans {P : Event → Prop} {r s t : Room W} (h1 : Emits P r s) (h2 : Emits P s t) :
    Emits P r t := by
  obtain ⟨d1, e1, p1⟩ := h1
  obtain ⟨d2, e2, p2⟩ := h2
  refine ⟨d1 ++ d2, by rw [e2, e1, List.append_assoc], ?_⟩
  intro e he
  rcases List.mem_append.mp he with h | h
  · exact p1 e h
  · exact p2 e h

theorem Emits.mono {P Q : Event → Prop} {r s : Room W} (h : Emits P r s)
    (hPQ : ∀ e, P e → Q e) : Emits Q r s := by
  obtain ⟨d, e1, p1⟩ := h
  exact ⟨d, e1, fun e he => hPQ e (p1 e he)⟩

theorem Emits.log {P : Event → Prop} (r : Room W) (e : Event) (h : P e) : Emits P r (r.log e) :=
  ⟨[e], rfl, by simpa using h⟩

theorem Emits.call {P : Event → Prop} (r : Room W) (e : Event) (w : W) (h : P e) :
    Emits P r (r.call e w) :=
  ⟨[e], rfl, by simpa using h⟩

theorem Emits.of_trace_eq {P : Event → Prop} {r s t : Room W} (h : Emits P r s)
    (ht : t.trace = s.trace) : Emits P r t := by
  obtain ⟨d, e1, p1⟩ := h
  exact ⟨d, by rw [ht, e1], p1⟩

theorem eventsSince_append {r s : Room W} {d : List Event} (h : s.trace = r.trace ++ d) :
    eventsSince r s = d := by
  simp [eventsSince, h]

theorem Emits.since {P : Event → Prop} {r s : Room W} (h : Emits P r s) :
    ∀ e ∈ eventsSince r s, P e := by
  obtain ⟨d, e1, p1⟩ := h
  rw [eventsSince_append e1]
  exact p1

theorem Emits.trace_eq {P : Event → Prop} {r s : Room W} (h : Emits P r s) :
    s.trace = r.trace ++ eventsSince r s := by
  obtain ⟨d, e1, _⟩ := h
  rw [eventsSince_append e1, e1]

/-! ### C1: `getModel` -/

theorem Room.getModel_outside (r : Room W) (model_index : Int)
    (hsize : r.models.length < 2 ^ 31)
    (h : model_index < 0 ∨ (r.models.length : Int) ≤ model_index) :
    r.getModel model_index = .error (.LogicException "bad model index") r := by
  unfold Room.getModel
  rw [sizeToInt_of_lt hsize, if_neg]
  omega

theorem Room.getModel_inside (r : Room W) (model_index : Int)
    (hsize : r.models.length < 2 ^ 31)
    (h : 0 ≤ model_index ∧ model_index < (r.models.length : Int)) :
    ∃ m, r.models[model_index.toNat]? = some m ∧ r.getModel model_index = .ok m r := by
  unfold Room.getModel
  rw [sizeToInt_of_lt hsize, if_pos h]
  have hlt : model_index.toNat < r.models.length := by omega
  exact ⟨r.models[model_index.toNat], by simp [hlt], by simp [List.getD, hlt]⟩

/-- C1: in a room whose model count fits an `int`, `getModel(index)` throws
exactly when `index < 0` or `index` is at least the number of models, and what
it throws is the `LogicException`; otherwise it returns the model stored at that
position.  In both cases the room is left exactly as it was. -/
theorem getModel_spec (r : Room W) (model_index : Int) (hsize : r.models.length < 2 ^ 31) :
    ((∃ e s, r.getModel model_index = .error e s) ↔
        (model_index < 0 ∨ (r.models.length : Int) ≤ model_index)) ∧
    ((model_index < 0 ∨ (r.models.length : Int) ≤ model_index) →
        r.getModel model_index = .error (.LogicException "bad model index") r) ∧
    ((0 ≤ model_index ∧ model_index < (r.models.length : Int)) →
        ∃ m, r.models[model_index.toNat]? = some m ∧ r.getModel model_index = .ok m r) := by
  refine ⟨⟨?_, fun h => ⟨_, _, Room.getModel_outside r model_index hsize h⟩⟩,
    Room.getModel_outside r model_index hsize, Room.getModel_inside r model_index hsize⟩
  rintro ⟨e, s, h⟩
  by_contra hc
  obtain ⟨m, _, hm⟩ := Room.getModel_inside r model_index hsize ⟨by omega, by omega⟩
  rw [hm] at h
  cases h

/-- C1 at a room with the two models 4 and 6: index 1 yields model 6, index 2 throws. -/
theorem getModel_spec_witness :
    toyRoom.models.length < 2 ^ 31 ∧
    toyRoom.getModel 2 = .error (.LogicException "bad model index") toyRoom ∧
    (∃ m, toyRoom.models[(1 : Int).toNat]? = some m ∧ toyRoom.getModel 1 = .ok m toyRoom) :=
  ⟨by decide, (getModel_spec toyRoom 2 (by decide)).2.1 (Or.inr (by decide)),
    (getModel_spec toyRoom 1 (by decide)).2.2 ⟨by decide, by decide⟩⟩

/-! ### C2: `addModel` -/

theorem Room.addModel_spec (x : Collab W) (m : Cube) (u : Option DriveUnit) (r : Room W)
    (hsize : r.models.length < 2 ^ 31) :
    (r.addModel x m u).1 = (r.models.length : Int) ∧
    (r.addModel x m u).2.trace.getLast? = some (.setIndex m r.models.length) ∧
    (∃ w, (r.addModel x m u).2.world = x.setIndex m r.models.length w) := by
  have hidx : sizeToInt ((r.models ++ [m]).length - 1) = (r.models.length : Int) := by
    rw [List.length_append, List.length_singleton, Nat.add_sub_cancel, sizeToInt_of_lt hsize]
  unfold Room.addModel
  cases u <;> simp only [Room.call_models, Room.call_world, Room.call_trace, hidx] <;>
    exact ⟨trivial, by simp, _, rfl⟩

/-- C2: the call of `addModel` that comes after `n` earlier `addModel` calls
(and any other operations in between) on a newly created room returns `n`, its
last act is `setIndex(n)` on the added model, and the model is appended at the
end of the collection, behind the models inserted before, in insertion order.
(`n` fits an `int`.) -/
theorem addModel_assigns_insertion_index (x : Collab W) (w : W) (ops : List RoomOp)
    (new_model : Cube) (new_unit : Option DriveUnit)
    (hsize : (inserted ops).length < 2 ^ 31) :
    (((Room.create w).applyOps x ops).addModel x new_model new_unit).1
      = ((inserted ops).length : Int) ∧
    (((Room.create w).applyOps x ops).addModel x new_model new_unit).2.models
      = inserted ops ++ [new_model] ∧
    (((Room.create w).applyOps x ops).addModel x new_model new_unit).2.trace.getLast?
      = some (.setIndex new_model (inserted ops).length) ∧
    (∃ w1, (((Room.create w).applyOps x ops).addModel x new_model new_unit).2.world
      = x.setIndex new_model (inserted ops).length w1) := by
  have hm : ((Room.create w).applyOps x ops).models = inserted ops := by
    rw [Room.applyOps_models]; rfl
  have hs := Room.addModel_spec x new_model new_unit ((Room.create w).applyOps x ops)
    (by rw [hm]; exact hsize)
  rw [hm] at hs
  exact ⟨hs.1, by rw [Room.addModel_models, hm], hs.2.1, hs.2.2⟩

/-- C2 after two insertions and a round: the third insertion gets index 2. -/
theorem addModel_assigns_insertion_index_witness :
    (inserted [.addModel 4 none, .nextRound 0, .addModel 6 (some 1)]).length < 2 ^ 31 ∧
    (((Room.create 3).applyOps toy
        [.addModel 4 none, .nextRound 0, .addModel 6 (some 1)]).addModel toy 9 none).1 = 2 ∧
    (((Room.create 3).applyOps toy
        [.addModel 4 none, .nextRound 0, .addModel 6 (some 1)]).addModel toy 9 none).2.models
      = [4, 6, 9] :=
  ⟨by decide,
   (addModel_assigns_insertion_index toy 3
      [.addModel 4 none, .nextRound 0, .addModel 6 (some 1)] 9 none (by decide)).1,
   (addModel_assigns_insertion_index toy 3
      [.addModel 4 none, .nextRound 0, .addModel 6 (some 1)] 9 none (by decide)).2.1⟩


/-! ### C3: indices are stable -/

theorem inserted_append (a b : List RoomOp) : inserted (a ++ b) = inserted a ++ inserted b := by
  simp [inserted, List.filterMap_append]

/-- C3: after any sequence of room operations on a newly created room, the
collection holds exactly the models that the `addModel` calls inserted, in call
order, and `getModel(i)` returns the model of the `i`-th `addModel` call; the
index that an `addModel` call returned keeps yielding that model after every
later operation; and from any room, no operation removes or reorders a model:
the collection only grows at its end.  (The number of insertions fits an
`int`.) -/
theorem model_index_stable (x : Collab W) (w : W) (ops : List RoomOp)
    (hsize : (inserted ops).length < 2 ^ 31) :
    ((Room.create w).applyOps x ops).models = inserted ops ∧
    (∀ (i : Nat) (h : i < (inserted ops).length),
        ((Room.create w).applyOps x ops).getModel (i : Int)
          = .ok ((inserted ops)[i]) ((Room.create w).applyOps x ops)) ∧
    (∀ before after m u, ops = before ++ RoomOp.addModel m u :: after →
        ((Room.create w).applyOps x ops).getModel
            (((Room.create w).applyOps x before).addModel x m u).1
          = .ok m ((Room.create w).applyOps x ops)) ∧
    (∀ (r : Room W) (more : List RoomOp),
        (r.applyOps x more).models = r.models ++ inserted more) := by
  have hm : ((Room.create w).applyOps x ops).models = inserted ops := by
    rw [Room.applyOps_models]; rfl
  have hget : ∀ (i : Nat) (h : i < (inserted ops).length),
      ((Room.create w).applyOps x ops).getModel (i : Int)
        = .ok ((inserted ops)[i]) ((Room.create w).applyOps x ops) := by
    intro i h
    obtain ⟨m, hm1, hm2⟩ :=
      Room.getModel_inside ((Room.create w).applyOps x ops) (i : Int) (by rw [hm]; exact hsize)
        ⟨by omega, by rw [hm]; exact_mod_cast h⟩
    rw [hm2]
    simp only [hm, Int.toNat_ofNat] at hm1
    rw [List.getElem?_eq_getElem h] at hm1
    cases hm1
    rfl
  refine ⟨hm, hget, ?_, fun r more => Room.applyOps_models x r more⟩
  intro before after m u hops
  have hins : inserted ops = inserted before ++ m :: inserted after := by
    rw [hops, inserted_append]; rfl
  have hlt : (inserted before).length < (inserted ops).length := by
    rw [hins]; simp
  have hb : ((Room.create w).applyOps x before).models = inserted before := by
    rw [Room.applyOps_models]; rfl
  have hidx := (Room.addModel_spec x m u ((Room.create w).applyOps x before)
    (by rw [hb]; omega)).1
  rw [hb] at hidx
  have hel : (inserted ops)[(inserted before).length]? = some m := by
    rw [hins, List.getElem?_append_right (le_refl _)]; simp
  rw [List.getElem?_eq_getElem hlt] at hel
  rw [hidx, hget _ hlt, Option.some.inj hel]

/-- C3 on a run of eight operations with three insertions. -/
theorem model_index_stable_witness :
    (inserted [.addModel 4 none, .nextRound 0, .addModel 6 (some 1), .loadMove 9 'u',
        .isSolvable, .addModel 13 none, .makeMove 'x', .getModel 7]).length < 2 ^ 31 ∧
    ((Room.create 3).applyOps toy
        [.addModel 4 none, .nextRound 0, .addModel 6 (some 1), .loadMove 9 'u',
          .isSolvable, .addModel 13 none, .makeMove 'x', .getModel 7]).models = [4, 6, 13] :=
  ⟨by decide,
   (model_index_stable toy 3
      [.addModel 4 none, .nextRound 0, .addModel 6 (some 1), .loadMove 9 'u',
        .isSolvable, .addModel 13 none, .makeMove 'x', .getModel 7] (by decide)).1⟩

/-! ### C4: `isSolvable` -/

theorem Room.isSolvableLoop_spec (x : Collab W) (ms : List Cube) (r : Room W) :
    ((Room.isSolvableLoop x ms r).1 = false ↔ ∃ m ∈ ms, x.isWrong m r.world = true) ∧
    (Room.isSolvableLoop x ms r).2.world = r.world ∧
    (Room.isSolvableLoop x ms r).2.impact = r.impact ∧
    (Room.isSolvableLoop x ms r).2.fresh = r.fresh ∧
    Emits (fun e => ∃ m b, e = Event.isWrong m b) r (Room.isSolvableLoop x ms r).2 := by
  induction ms generalizing r with
  | nil => exact ⟨by simp [Room.isSolvableLoop], rfl, rfl, rfl, Emits.refl _ _⟩
  | cons m ms ih =>
    have hlog : Emits (fun e => ∃ m b, e = Event.isWrong m b) r
        (r.log (.isWrong m (x.isWrong m r.world))) := Emits.log _ _ ⟨_, _, rfl⟩
    unfold Room.isSolvableLoop
    simp only []
    by_cases hw : x.isWrong m r.world = true
    · rw [if_pos hw]
      exact ⟨by simp [hw], rfl, rfl, rfl, hlog⟩
    · rw [if_neg hw]
      obtain ⟨h1, h2, h3, h4, h5⟩ := ih (r.log (.isWrong m (x.isWrong m r.world)))
      refine ⟨?_, h2, h3, h4, hlog.trans h5⟩
      rw [h1]
      simp [hw]

/-- C4: `isSolvable()` returns false exactly when some model of the collection
answers `isWrong()` with true, so it is true for a room without models and false
as soon as any one model is wrong, whatever the others answer.  It only asks
`isWrong` questions and leaves the models, the impact, the fresh flag and the
world of the collaborators as they were; it has no way to throw. -/
theorem isSolvable_spec (x : Collab W) (r : Room W) :
    ((r.isSolvable x).1 = false ↔ ∃ m ∈ r.models, x.isWrong m r.world = true) ∧
    (r.models = [] → (r.isSolvable x).1 = true) ∧
    ((r.isSolvable x).2.models = r.models ∧ (r.isSolvable x).2.impact = r.impact ∧
      (r.isSolvable x).2.fresh = r.fresh ∧ (r.isSolvable x).2.world = r.world) ∧
    (∀ e ∈ eventsSince r (r.isSolvable x).2, ∃ m b, e = Event.isWrong m b) := by
  obtain ⟨h1, h2, h3, h4, h5⟩ := Room.isSolvableLoop_spec x r.models r
  refine ⟨h1, ?_, ⟨Room.isSolvable_models x r, h3, h4, h2⟩, h5.since⟩
  intro hnil
  cases hb : (r.isSolvable x).1
  · obtain ⟨m, hmem, _⟩ := h1.mp hb
    rw [hnil] at hmem
    cases hmem
  · rfl


/-- C4 in the example rooms: one wrong model makes the room unsolvable, and a
room without models is solvable. -/
theorem isSolvable_spec_witness :
    (wrongRoom.isSolvable toy).1 = false ∧ ((Room.create 3).isSolvable toy).1 = true :=
  ⟨(isSolvable_spec toy wrongRoom).1.mpr ⟨13, by decide, by decide⟩,
   (isSolvable_spec toy (Room.create 3)).2.1 rfl⟩

/-! ### What each phase writes to the trace -/

theorem Emits.then_call {P : Event → Prop} {r s : Room W} (h : Emits P r s) (e : Event) (w : W)
    (he : P e) : Emits P r (s.call e w) :=
  h.trans (Emits.call s e w he)

theorem Emits.then_log {P : Event → Prop} {r s : Room W} (h : Emits P r s) (e : Event)
    (he : P e) : Emits P r (s.log e) :=
  h.trans (Emits.log s e he)

theorem foldl_emits (P : Event → Prop) (f : Room W → Cube → Room W)
    (hf : ∀ s m, Emits P s (f s m)) (ms : List Cube) (s : Room W) :
    Emits P s (ms.foldl f s) := by
  induction ms generalizing s with
  | nil => exact Emits.refl _ _
  | cons m ms ih => exact (hf s m).trans (ih _)

theorem foldl_emits_pair (P : Event → Prop) (f : Bool × Room W → Cube → Bool × Room W)
    (hf : ∀ acc m, Emits P acc.2 (f acc m).2) (ms : List Cube) (acc : Bool × Room W) :
    Emits P acc.2 (ms.foldl f acc).2 := by
  induction ms generalizing acc with
  | nil => exact Emits.refl _ _
  | cons m ms ih => exact (hf acc m).trans (ih _)

theorem filterMap_eq_nil_of {β : Type} (g : Event → Option β) (P : Event → Prop)
    (d : List Event) (hd : ∀ e ∈ d, P e) (hg : ∀ e, P e → g e = none) :
    d.filterMap g = [] := by
  rw [List.filterMap_eq_nil_iff]
  exact fun e he => hg e (hd e he)

theorem Room.playDead_emits (x : Collab W) (m : Cube) (r : Room W) :
    Emits Event.inPrepare r (r.playDead x m) := by
  unfold Room.playDead
  simp only []
  split
  · exact ((((Emits.refl _ r).then_log _ True.intro).then_call _ _ True.intro).then_log _
      True.intro).then_call _ _ True.intro
  · exact ((((Emits.refl _ r).then_log _ True.intro).then_call _ _ True.intro).then_log _
      True.intro).then_call _ _ True.intro
  · exact (((((Emits.refl _ r).then_log _ True.intro).then_call _ _ True.intro).then_log _
      True.intro).then_log _ True.intro).then_call _ _ True.intro

theorem Room.interrupt_emits (P : Event → Prop) (hP : P .interruptPlan ∧ P .checkActive)
    (x : Collab W) (r : Room W) : Emits P r (r.interrupt x) :=
  ((Emits.refl _ r).then_call _ _ hP.1).then_call _ _ hP.2

theorem Room.deadStep_emits (x : Collab W) (acc : Bool × Room W) (m : Cube) :
    Emits Event.inPrepare acc.2 (Room.deadStep x acc m).2 := by
  unfold Room.deadStep
  simp only []
  split
  · exact (Emits.call _ _ _ True.intro).trans (Room.playDead_emits x m _)
  · exact Emits.call _ _ _ True.intro

/-- The trace of `prepareRound`: its entry, then calls of its own kind. -/
theorem Room.prepareRound_trace (x : Collab W) (r : Room W) :
    ∃ d, (r.prepareRound x).trace = r.trace ++ Event.phase .prepareRound :: d ∧
      ∀ e ∈ d, e.inPrepare := by
  have key : Emits Event.inPrepare (r.log (.phase .prepareRound)) (r.prepareRound x) := by
    have h1 := foldl_emits Event.inPrepare (Room.occupyStep x)
      (fun s m => Emits.call s _ _ True.intro) r.models (r.log (.phase .prepareRound))
    have h2 := foldl_emits_pair Event.inPrepare (Room.deadStep x) (Room.deadStep_emits x)
      r.models (false, r.models.foldl (Room.occupyStep x) (r.log (.phase .prepareRound)))
    have h3 := foldl_emits Event.inPrepare (Room.stateStep x)
      (fun s m => Emits.call s _ _ True.intro) r.models
      (r.models.foldl (Room.deadStep x)
        (false, r.models.foldl (Room.occupyStep x) (r.log (.phase .prepareRound)))).2
    unfold Room.prepareRound
    simp only [Room.log_models]
    split
    · exact ((h1.trans h2).trans h3).trans (Room.interrupt_emits _ ⟨True.intro, True.intro⟩ x _)
    · exact (h1.trans h2).trans h3
  obtain ⟨d, hd, hp⟩ := key
  exact ⟨d, by rw [hd]; simp, hp⟩

theorem Room.outLoop_trace (x : Collab W) (i : Bool) (ms : List Cube) (acc : Bool × Room W) :
    ∃ d, (ms.foldl (Room.outStep x i) acc).2.trace = acc.2.trace ++ d ∧
      (∀ e ∈ d, e.inFallout) ∧
      ((ms.foldl (Room.outStep x i) acc).1 = true ↔
        acc.1 = true ∨ ∃ m depth, Event.actionOut m depth ∈ d ∧ 0 < depth) ∧
      d.filterMap Event.outChecked = ms ∧
      (∀ e ∈ d, e ≠ .interruptPlan ∧ e ≠ .checkActive) := by
  induction ms generalizing acc with
  | nil => exact ⟨[], by simp, by simp, by simp, rfl, by simp⟩
  | cons m ms ih =>
    rw [List.foldl_cons]
    obtain ⟨d, hd, hP, hres, hout, hno⟩ := ih (Room.outStep x i acc m)
    by_cases hpos : 0 < (x.actionOut m acc.2.world).1
    · cases i
      · refine ⟨Event.actionOut m (x.actionOut m acc.2.world).1 :: d, ?_, ?_, ?_, ?_, ?_⟩
        · rw [hd]; simp [Room.outStep, hpos]
        · intro e he
          rcases List.mem_cons.mp he with rfl | h
          · exact True.intro
          · exact hP e h
        · rw [hres]
          simp only [Room.outStep, hpos, if_true, true_or, true_iff]
          exact Or.inr ⟨m, _, List.mem_cons_self _ _, hpos⟩
        · simp [Event.outChecked, hout]
        · intro e he
          rcases List.mem_cons.mp he with rfl | h
          · simp
          · exact hno e h
      · refine ⟨Event.actionOut m (x.actionOut m acc.2.world).1 :: Event.ensurePhases 3 :: d,
          ?_, ?_, ?_, ?_, ?_⟩
        · rw [hd]; simp [Room.outStep, hpos]
        · intro e he
          rcases List.mem_cons.mp he with rfl | h
          · exact True.intro
          · rcases List.mem_cons.mp h with rfl | h
            · exact True.intro
            · exact hP e h
        · rw [hres]
          simp only [Room.outStep, hpos, if_true, true_or, true_iff]
          exact Or.inr ⟨m, _, List.mem_cons_self _ _, hpos⟩
        · simp [Event.outChecked, hout]
        · intro e he
          rcases List.mem_cons.mp he with rfl | h
          · simp
          · rcases List.mem_cons.mp h with rfl | h
            · simp
            · exact hno e h
    · refine ⟨Event.actionOut m (x.actionOut m acc.2.world).1 :: d, ?_, ?_, ?_, ?_, ?_⟩
      · rw [hd]; simp [Room.outStep, hpos]
      · intro e he
        rcases List.mem_cons.mp he with rfl | h
        · exact True.intro
        · exact hP e h
      · rw [hres]
        simp only [Room.outStep, hpos, if_false]
        constructor
        · rintro (h | ⟨m1, depth, hmem, hd1⟩)
          · exact Or.inl h
          · exact Or.inr ⟨m1, depth, List.mem_cons_of_mem _ hmem, hd1⟩
        · rintro (h | ⟨m1, depth, hmem, hd1⟩)
          · exact Or.inl h
          · rcases List.mem_cons.mp hmem with heq | h
            · cases heq
              exact absurd hd1 hpos
            · exact Or.inr ⟨m1, depth, h, hd1⟩
      · simp [Event.outChecked, hout]
      · intro e he
        rcases List.mem_cons.mp he with rfl | h
        · simp
        · exact hno e h


/-- The trace of `fallout`: its entry, then calls of its own kind, among them
one exit check for each model in collection order; it returns true exactly when
some exit check answered with a positive depth. -/
theorem Room.fallout_trace (x : Collab W) (i : Bool) (r : Room W) :
    ∃ d, (r.fallout x i).2.trace = r.trace ++ Event.phase .fallout :: d ∧
      (∀ e ∈ d, e.inFallout) ∧
      ((r.fallout x i).1 = true ↔ ∃ m depth, Event.actionOut m depth ∈ d ∧ 0 < depth) ∧
      d.filterMap Event.outChecked = r.models := by
  obtain ⟨d, hd, hP, hres, hout, hno⟩ :=
    Room.outLoop_trace x i r.models (false, r.log (.phase .fallout))
  simp only [Bool.false_eq_true, false_or] at hres
  unfold Room.fallout
  simp only [Room.log_models]
  split
  · next hp =>
    refine ⟨d ++ [.interruptPlan, .checkActive], ?_, ?_, ?_, ?_⟩
    · simp [Room.interrupt, hd]
    · intro e he
      rcases List.mem_append.mp he with h | h
      · exact hP e h
      · simp only [List.mem_cons, List.mem_singleton, List.not_mem_nil, or_false] at h
        rcases h with rfl | rfl <;> exact True.intro
    · obtain ⟨m, depth, hmem, hpos⟩ := hres.mp hp
      simp only [true_iff]
      exact ⟨m, depth, List.mem_append_left _ hmem, hpos⟩
    · simp [List.filterMap_append, hout, Event.outChecked]
  · next hp =>
    refine ⟨d, by simp [hd], hP, ?_, hout⟩
    simp only [Bool.false_eq_true, false_iff]
    exact fun h => hp (hres.mpr h)

theorem Room.fallStep_trace (x : Collab W) (acc : Bool × Room W) (m : Cube) :
    ∃ d, (Room.fallStep x acc m).2.trace
        = acc.2.trace ++ Event.actionFall m (x.actionFall m acc.2.world).1 :: d ∧
      ∀ e ∈ d, ∃ weight, e = Event.getWeight m weight := by
  unfold Room.fallStep
  simp only []
  split
  · exact ⟨[], by simp, by simp⟩
  · split
    · split
      · exact ⟨[.getWeight m (x.getWeight m (x.actionFall m acc.2.world).2),
          .getWeight m (x.getWeight m (x.actionFall m acc.2.world).2)], by simp, by simp⟩
      · exact ⟨[.getWeight m (x.getWeight m (x.actionFall m acc.2.world).2)], by simp, by simp⟩
    · exact ⟨[], by simp, by simp⟩

theorem Room.fallLoop_trace (x : Collab W) (ms : List Cube) (acc : Bool × Room W) :
    ∃ d, (ms.foldl (Room.fallStep x) acc).2.trace = acc.2.trace ++ d ∧
      (∀ e ∈ d, e.inFalldown) ∧ d.filterMap Event.fallChecked = ms := by
  induction ms generalizing acc with
  | nil => exact ⟨[], by simp, by simp, rfl⟩
  | cons m ms ih =>
    rw [List.foldl_cons]
    obtain ⟨d, hd, hP, hfall⟩ := ih (Room.fallStep x acc m)
    obtain ⟨d0, hd0, hw⟩ := Room.fallStep_trace x acc m
    refine ⟨Event.actionFall m (x.actionFall m acc.2.world).1 :: d0 ++ d, ?_, ?_, ?_⟩
    · rw [hd, hd0]; simp
    · intro e he
      rcases List.mem_append.mp he with h | h
      · rcases List.mem_cons.mp h with rfl | h
        · exact True.intro
        · obtain ⟨weight, rfl⟩ := hw e h
          exact True.intro
      · exact hP e h
    · have h0 : d0.filterMap Event.fallChecked = [] :=
        filterMap_eq_nil_of _ (fun e => ∃ weight, e = Event.getWeight m weight) d0 hw
          (by rintro e ⟨weight, rfl⟩; rfl)
      simp [List.filterMap_append, Event.fallChecked, h0, hfall]

/-- The trace of `falldown`: its entry, then calls of its own kind, among them
one fall check for each model in collection order. -/
theorem Room.falldown_trace (x : Collab W) (r : Room W) :
    ∃ d, (r.falldown x).2.trace = r.trace ++ Event.phase .falldown :: d ∧
      (∀ e ∈ d, e.inFalldown) ∧ d.filterMap Event.fallChecked = r.models := by
  obtain ⟨d, hd, hP, hfall⟩ := Room.fallLoop_trace x r.models
    (false, { r.log (.phase .falldown) with impact := .NONE })
  exact ⟨d, by simpa [Room.falldown] using hd, hP, hfall⟩

theorem Room.playImpact_emits (x : Collab W) (r : Room W) :
    Emits Event.inImpact r (r.playImpact x) := by
  unfold Room.playImpact
  cases r.impact
  · exact Emits.refl _ _
  · exact ⟨[.playSound "impact_light" 50], rfl, by simp [Event.inImpact]⟩
  · exact ⟨[.playSound "impact_heavy" 50], rfl, by simp [Event.inImpact]⟩

theorem Room.finishLoop_trace (x : Collab W) (ms : List Cube) (acc : Bool × Room W) :
    ∃ d, (ms.foldl (Room.finishStep x) acc).2.trace = acc.2.trace ++ d ∧
      (∀ e ∈ d, e.inFinish) ∧
      (d.filterMap Event.satisfyReport).map Prod.fst = ms ∧
      (ms.foldl (Room.finishStep x) acc).1
        = (acc.1 && (d.filterMap Event.satisfyReport).all Prod.snd) := by
  induction ms generalizing acc with
  | nil => exact ⟨[], by simp, by simp, rfl, by simp⟩
  | cons m ms ih =>
    rw [List.foldl_cons]
    obtain ⟨d, hd, hP, hsat, hres⟩ := ih (Room.finishStep x acc m)
    refine ⟨Event.rulesFinishRound m ::
      Event.isSatisfy m (x.isSatisfy m (x.rulesFinishRound m acc.2.world)) :: d, ?_, ?_, ?_, ?_⟩
    · rw [hd]; simp [Room.finishStep]
    · intro e he
      rcases List.mem_cons.mp he with rfl | h
      · exact True.intro
      · rcases List.mem_cons.mp h with rfl | h
        · exact True.intro
        · exact hP e h
    · simp [Event.satisfyReport, hsat]
    · rw [hres]
      simp [Room.finishStep, Event.satisfyReport, Bool.and_assoc]

/-- The trace of `finishRound`: its entry, then calls of its own kind, among
them one `isSatisfy` query for each model in collection order; it returns the
conjunction of the answers. -/
theorem Room.finishRound_trace (x : Collab W) (i : Bool) (r : Room W) :
    ∃ d, (r.finishRound x i).2.trace = r.trace ++ Event.phase .finishRound :: d ∧
      (∀ e ∈ d, e.inFinish) ∧
      (d.filterMap Event.satisfyReport).map Prod.fst = r.models ∧
      (r.finishRound x i).1 = (d.filterMap Event.satisfyReport).all Prod.snd := by
  unfold Room.finishRound
  simp only []
  cases i
  · obtain ⟨d, hd, hP, hsat, hres⟩ := Room.finishLoop_trace x r.models
      (true, ((r.log (.phase .finishRound)).log
          (.getLocked (x.getLocked r.world))).call (.noteNewRound (x.getLocked r.world))
            (x.noteNewRound (x.getLocked r.world) r.world))
    refine ⟨Event.getLocked (x.getLocked r.world) ::
      Event.noteNewRound (x.getLocked r.world) :: d, ?_, ?_, ?_, ?_⟩
    · simpa using hd
    · intro e he
      rcases List.mem_cons.mp he with rfl | h
      · exact True.intro
      · rcases List.mem_cons.mp h with rfl | h
        · exact True.intro
        · exact hP e h
    · simpa [Event.satisfyReport] using hsat
    · simpa [Event.satisfyReport] using hres
  · obtain ⟨d, hd, hP, hsat, hres⟩ := Room.finishLoop_trace x r.models
      (true, (((r.log (.phase .finishRound)).call .lockPhases (x.lockPhases r.world)).log
          (.getLocked (x.getLocked (x.lockPhases r.world)))).call
            (.noteNewRound (x.getLocked (x.lockPhases r.world)))
            (x.noteNewRound (x.getLocked (x.lockPhases r.world)) (x.lockPhases r.world)))
    refine ⟨Event.lockPhases :: Event.getLocked (x.getLocked (x.lockPhases r.world)) ::
      Event.noteNewRound (x.getLocked (x.lockPhases r.world)) :: d, ?_, ?_, ?_, ?_⟩
    · simpa using hd
    · intro e he
      rcases List.mem_cons.mp he with rfl | h
      · exact True.intro
      · rcases List.mem_cons.mp h with rfl | h
        · exact True.intro
        · rcases List.mem_cons.mp h with rfl | h
          · exact True.intro
          · exact hP e h
    · simpa [Event.satisfyReport] using hsat
    · simpa [Event.satisfyReport] using hres


theorem Event.inBeginFall_outChecked (e : Event)
    (h : e = .phase .fallout ∨ e = .phase .falldown ∨ e.inPrepare ∨ e.inFalldown ∨ e.inImpact) :
    e.outChecked = none := by
  rcases h with rfl | rfl | h | h | h
  · rfl
  · rfl
  all_goals cases e <;> first | rfl | exact False.elim h

theorem Event.inBeginFall_fallChecked (e : Event)
    (h : e = .phase .fallout ∨ e.inPrepare ∨ e.inFallout) :
    e.fallChecked = none := by
  rcases h with rfl | h | h
  · rfl
  all_goals cases e <;> first | rfl | exact False.elim h

theorem Event.inImpact_fallChecked (e : Event) (h : e.inImpact) : e.fallChecked = none := by
  cases e <;> first | rfl | exact False.elim h

/-- The trace of `beginFall`: the entry of `prepareRound`, then events of the
fall phases, among them one exit check for each model; if an exit check
answered with a positive depth there is no fall check and the call returns true,
and if none did there is one fall check for each model in collection order. -/
theorem Room.beginFall_trace (x : Collab W) (i : Bool) (r : Room W) :
    ∃ d, (r.beginFall x i).2.trace = r.trace ++ Event.phase .prepareRound :: d ∧
      (∀ e ∈ d, e.inBeginFall) ∧
      d.filterMap Event.outChecked = r.models ∧
      ((∃ m depth, Event.actionOut m depth ∈ d ∧ 0 < depth) →
        d.filterMap Event.fallChecked = [] ∧ (r.beginFall x i).1 = true) ∧
      ((∀ m depth, Event.actionOut m depth ∈ d → depth ≤ 0) →
        d.filterMap Event.fallChecked = r.models) := by
  obtain ⟨d1, hd1, hP1⟩ := Room.prepareRound_trace x { r with fresh := true }
  obtain ⟨d2, hd2, hP2, hres2, hout2⟩ :=
    Room.fallout_trace x i (Room.prepareRound x { r with fresh := true })
  have hm1 : (Room.prepareRound x { r with fresh := true }).models = r.models := by simp
  rw [hm1] at hout2
  have ho1 : d1.filterMap Event.outChecked = [] :=
    filterMap_eq_nil_of _ _ d1 hP1 (fun e h => e.inBeginFall_outChecked (Or.inr (Or.inr (Or.inl h))))
  have hf1 : d1.filterMap Event.fallChecked = [] :=
    filterMap_eq_nil_of _ _ d1 hP1 (fun e h => e.inBeginFall_fallChecked (Or.inr (Or.inl h)))
  have hf2 : d2.filterMap Event.fallChecked = [] :=
    filterMap_eq_nil_of _ _ d2 hP2 (fun e h => e.inBeginFall_fallChecked (Or.inr (Or.inr h)))
  have hnot1 : ∀ m depth, Event.actionOut m depth ∉ d1 := fun m depth hmem =>
    False.elim (hP1 _ hmem)
  unfold Room.beginFall
  simp only []
  by_cases hout : ((Room.prepareRound x { r with fresh := true }).fallout x i).1 = true
  · rw [if_pos hout]
    refine ⟨d1 ++ Event.phase .fallout :: d2, ?_, ?_, ?_, ?_, ?_⟩
    · show ((Room.prepareRound x { r with fresh := true }).fallout x i).2.trace = _
      rw [hd2, hd1]; simp
    · intro e he
      rcases List.mem_append.mp he with h | h
      · exact Or.inr (Or.inr (Or.inl (hP1 e h)))
      · rcases List.mem_cons.mp h with rfl | h
        · exact Or.inl rfl
        · exact Or.inr (Or.inr (Or.inr (Or.inl (hP2 e h))))
    · simp [List.filterMap_append, ho1, hout2, Event.outChecked]
    · intro _
      exact ⟨by simp [List.filterMap_append, hf1, hf2, Event.fallChecked], rfl⟩
    · intro hall
      obtain ⟨m, depth, hmem, hpos⟩ := hres2.mp hout
      have := hall m depth (List.mem_append_right _ (List.mem_cons_of_mem _ hmem))
      omega
  · rw [if_neg hout]
    obtain ⟨d3, hd3, hP3, hfall3⟩ :=
      Room.falldown_trace x ((Room.prepareRound x { r with fresh := true }).fallout x i).2
    have hm2 : ((Room.prepareRound x { r with fresh := true }).fallout x i).2.models
        = r.models := by simp
    rw [hm2] at hfall3
    have h4 : Emits Event.inImpact
        (((Room.prepareRound x { r with fresh := true }).fallout x i).2.falldown x).2
        (if i then
          (((Room.prepareRound x { r with fresh := true }).fallout x i).2.falldown x).2.playImpact x
         else (((Room.prepareRound x { r with fresh := true }).fallout x i).2.falldown x).2) := by
      cases i
      · exact Emits.refl _ _
      · exact Room.playImpact_emits x _
    obtain ⟨d4, hd4, hP4⟩ := h4
    have ho3 : d3.filterMap Event.outChecked = [] :=
      filterMap_eq_nil_of _ _ d3 hP3
        (fun e h => e.inBeginFall_outChecked (Or.inr (Or.inr (Or.inr (Or.inl h)))))
    have ho4 : d4.filterMap Event.outChecked = [] :=
      filterMap_eq_nil_of _ _ d4 hP4
        (fun e h => e.inBeginFall_outChecked (Or.inr (Or.inr (Or.inr (Or.inr h)))))
    have hf4 : d4.filterMap Event.fallChecked = [] :=
      filterMap_eq_nil_of _ _ d4 hP4 (fun e h => e.inImpact_fallChecked h)
    refine ⟨d1 ++ Event.phase .fallout :: d2 ++ Event.phase .falldown :: d3 ++ d4,
      ?_, ?_, ?_, ?_, ?_⟩
    · show (if i then _ else _ : Room W).trace = _
      rw [hd4, hd3, hd2, hd1]; simp
    · intro e he
      simp only [List.mem_append, List.mem_cons] at he
      rcases he with ((h | h | h) | h | h) | h
      · exact Or.inr (Or.inr (Or.inl (hP1 e h)))
      · exact Or.inl h
      · exact Or.inr (Or.inr (Or.inr (Or.inl (hP2 e h))))
      · exact Or.inr (Or.inl h)
      · exact Or.inr (Or.inr (Or.inr (Or.inr (Or.inl (hP3 e h)))))
      · exact Or.inr (Or.inr (Or.inr (Or.inr (Or.inr (hP4 e h)))))
    · simp [List.filterMap_append, ho1, hout2, ho3, ho4, Event.outChecked]
    · rintro ⟨m, depth, hmem, hpos⟩
      exfalso
      simp only [List.mem_append, List.mem_cons] at hmem
      rcases hmem with ((h | h | h) | h | h) | h
      · exact hnot1 m depth h
      · cases h
      · exact hout (hres2.mpr ⟨m, depth, h, hpos⟩)
      · cases h
      · exact False.elim (hP3 _ h)
      · exact False.elim (hP4 _ h)
    · intro _
      simp [List.filterMap_append, hf1, hf2, hfall3, hf4, Event.fallChecked]

/-! ### Exit preempts gravity, when no lookup throws -/

theorem Event.inBeginFall_satisfyReport (e : Event) (h : e.inBeginFall) :
    e.satisfyReport = none := by
  rcases h with rfl | rfl | h | h | h | h
  · rfl
  · rfl
  all_goals cases e <;> first | rfl | exact False.elim h

/-- The trace of `nextRound`: events of `beginFall` and at most a `driving`
call, without any `isSatisfy` query; then the entry of `finishRound` and the
calls of `finishRound`, which ask every model in collection order; the result is
the conjunction of the answers. -/
theorem Room.nextRound_trace (x : Collab W) (input : InputProvider) (r : Room W) :
    ∃ pre post, (r.nextRound x input).2.trace
        = r.trace ++ (pre ++ Event.phase .finishRound :: post) ∧
      pre.filterMap Event.satisfyReport = [] ∧
      (∀ e ∈ post, e.inFinish) ∧
      (post.filterMap Event.satisfyReport).map Prod.fst = r.models ∧
      (r.nextRound x input).1 = (post.filterMap Event.satisfyReport).all Prod.snd := by
  obtain ⟨d, hd, hP, -, -, -⟩ := Room.beginFall_trace x x.beginFallDefault r
  have hsat : d.filterMap Event.satisfyReport = [] :=
    filterMap_eq_nil_of _ _ d hP Event.inBeginFall_satisfyReport
  unfold Room.nextRound
  simp only []
  by_cases hfall : (r.beginFall x x.beginFallDefault).1 = true
  · rw [if_pos hfall]
    obtain ⟨post, hpost, hF, hmodels, hres⟩ :=
      Room.finishRound_trace x x.finishRoundDefault (r.beginFall x x.beginFallDefault).2
    refine ⟨Event.phase .prepareRound :: d, post, ?_, ?_, hF, ?_, hres⟩
    · rw [hpost, hd]; simp
    · simpa [Event.satisfyReport] using hsat
    · simpa using hmodels
  · rw [if_neg hfall]
    obtain ⟨post, hpost, hF, hmodels, hres⟩ :=
      Room.finishRound_trace x x.finishRoundDefault
        ((r.beginFall x x.beginFallDefault).2.call (.driving input)
          (x.driving input (r.beginFall x x.beginFallDefault).2.world))
    refine ⟨Event.phase .prepareRound :: d ++ [.driving input], post, ?_, ?_, hF, ?_, hres⟩
    · rw [hpost, Room.call_trace, hd]; simp
    · simpa [List.filterMap_append, Event.satisfyReport] using hsat
    · simpa using hmodels

/-- Without a throw of a cue lookup:
`nextRound` returns true exactly when every `isSatisfy` query of the
call is answered with true; these queries are made in the finishing phase only
(none before the entry of `finishRound`), once on every model in collection
order; so a room without models yields true on every call. -/
theorem Room.nextRound_complete (x : Collab W) (input : InputProvider) (r : Room W) :
    ((r.nextRound x input).1 = true ↔
      ∀ m answer, Event.isSatisfy m answer ∈ eventsSince r (r.nextRound x input).2 →
        answer = true) ∧
    ((eventsSince r (r.nextRound x input).2).filterMap Event.satisfyReport).map Prod.fst
      = r.models ∧
    (∃ pre post, eventsSince r (r.nextRound x input).2 = pre ++ Event.phase .finishRound :: post ∧
      pre.filterMap Event.satisfyReport = [] ∧ ∀ e ∈ post, e.inFinish) ∧
    (r.models = [] → (r.nextRound x input).1 = true) := by
  obtain ⟨pre, post, htrace, hpre, hF, hmodels, hres⟩ := Room.nextRound_trace x input r
  have hev := eventsSince_append htrace
  have hrep : (eventsSince r (r.nextRound x input).2).filterMap Event.satisfyReport
      = post.filterMap Event.satisfyReport := by
    rw [hev]; simp [List.filterMap_append, hpre, Event.satisfyReport]
  have hiff : (r.nextRound x input).1 = true ↔
      ∀ m answer, Event.isSatisfy m answer ∈ eventsSince r (r.nextRound x input).2 →
        answer = true := by
    rw [hres, ← hrep, List.all_eq_true]
    constructor
    · intro h m answer hmem
      exact h (m, answer) (List.mem_filterMap.mpr ⟨_, hmem, rfl⟩)
    · rintro h ⟨m, answer⟩ hmem
      obtain ⟨e, he, hsome⟩ := List.mem_filterMap.mp hmem
      cases e with
      | isSatisfy m1 a1 =>
        simp only [Event.satisfyReport, Option.some.injEq, Prod.mk.injEq] at hsome
        obtain ⟨rfl, rfl⟩ := hsome
        exact h _ _ he
      | _ => simp [Event.satisfyReport] at hsome
  refine ⟨hiff, by rw [hrep]; exact hmodels, ⟨pre, post, hev, hpre, hF⟩, ?_⟩
  intro hnil
  rw [hres]
  rw [hnil] at hmodels
  rw [List.map_eq_nil_iff.mp hmodels]
  rfl


/-! ### C7: one move per round -/

theorem Room.makeMove_not_fresh (x : Collab W) (move : Char) (r : Room W)
    (h : r.fresh = false) : r.makeMove x move = .ok false r := by
  unfold Room.makeMove
  simp [h]

theorem Room.makeMove_accepted (x : Collab W) (move : Char) (r : Room W)
    (h : r.fresh = true) (ha : (x.controlsMakeMove move r.world).1 = true) :
    r.makeMove x move = .ok true
      { r.call (.controlsMakeMove move true) (x.controlsMakeMove move r.world).2 with
        fresh := false } := by
  unfold Room.makeMove
  simp [h, ha]

theorem Room.makeMove_rejected (x : Collab W) (move : Char) (r : Room W)
    (h : r.fresh = true) (ha : (x.controlsMakeMove move r.world).1 = false) :
    r.makeMove x move = .error (.LoadException "load error - bad move")
      (r.call (.controlsMakeMove move false) (x.controlsMakeMove move r.world).2) := by
  unfold Room.makeMove
  simp [h, ha]

theorem Room.makeMoves_not_fresh (x : Collab W) (moves : List Char) (r : Room W)
    (h : r.fresh = false) : ∀ o ∈ r.makeMoves x moves, o = .ok false r := by
  induction moves with
  | nil => simp [Room.makeMoves]
  | cons move moves ih =>
    intro o ho
    rw [Room.makeMoves, Room.makeMove_not_fresh x move r h] at ho
    rcases List.mem_cons.mp ho with rfl | ho
    · rfl
    · exact ih o ho

theorem Room.makeMoves_count (x : Collab W) (moves : List Char) (r : Room W) :
    (r.makeMoves x moves).countP Outcome.returnedTrue ≤ 1 := by
  induction moves generalizing r with
  | nil => simp [Room.makeMoves]
  | cons move moves ih =>
    rw [Room.makeMoves]
    cases hf : r.fresh
    · rw [Room.makeMove_not_fresh x move r hf, List.countP_cons_of_neg _ _ (by simp [Outcome.returnedTrue])]
      exact ih _
    · cases ha : (x.controlsMakeMove move r.world).1
      · rw [Room.makeMove_rejected x move r hf ha,
          List.countP_cons_of_neg _ _ (by simp [Outcome.returnedTrue])]
        exact ih _
      · rw [Room.makeMove_accepted x move r hf ha,
          List.countP_cons_of_pos _ _ (by simp [Outcome.returnedTrue])]
        have hzero : (Room.makeMoves x moves
            (Outcome.ok true ({ r.call (.controlsMakeMove move true)
              (x.controlsMakeMove move r.world).2 with fresh := false } : Room W)).room).countP
            Outcome.returnedTrue = 0 := by
          rw [List.countP_eq_zero]
          intro o ho
          rw [Room.makeMoves_not_fresh x moves _ rfl o ho]
          simp [Outcome.returnedTrue]
        rw [hzero]

/-- C7: when the room is fresh and the control layer accepts the code,
`makeMove` returns true, having asked the control layer, and the room is no
longer fresh; when the room is not fresh, it returns false without throwing,
asks nothing and leaves the room, trace included, exactly as it was.  Hence in
any run of `makeMove` calls with no `beginFall` in between, such as the calls
between a `beginFall` and the following `finishRound`, at most one call returns
true, and every call after a call that returned true returns false. -/
theorem makeMove_at_most_once (x : Collab W) :
    (∀ move (r : Room W), r.fresh = true → (x.controlsMakeMove move r.world).1 = true →
      ∃ s, r.makeMove x move = .ok true s ∧ s.fresh = false ∧
        s.world = (x.controlsMakeMove move r.world).2 ∧
        s.trace = r.trace ++ [.controlsMakeMove move true]) ∧
    (∀ move (r : Room W), r.fresh = false → r.makeMove x move = .ok false r) ∧
    (∀ moves (r : Room W), (r.makeMoves x moves).countP Outcome.returnedTrue ≤ 1) ∧
    (∀ moves interactive (r : Room W),
      ((r.beginFall x interactive).2.makeMoves x moves).countP Outcome.returnedTrue ≤ 1) ∧
    (∀ move (r s : Room W), r.makeMove x move = .ok true s →
      ∀ moves, ∀ o ∈ s.makeMoves x moves, o = .ok false s) := by
  refine ⟨?_, Room.makeMove_not_fresh x, fun moves r => Room.makeMoves_count x moves r,
    fun moves i r => Room.makeMoves_count x moves _, ?_⟩
  · intro move r hf ha
    exact ⟨_, Room.makeMove_accepted x move r hf ha, rfl, rfl, rfl⟩
  · intro move r s hs moves
    apply Room.makeMoves_not_fresh
    cases hf : r.fresh
    · rw [Room.makeMove_not_fresh x move r hf] at hs
      cases hs
    · cases ha : (x.controlsMakeMove move r.world).1
      · rw [Room.makeMove_rejected x move r hf ha] at hs
        cases hs
      · rw [Room.makeMove_accepted x move r hf ha] at hs
        cases hs
        rfl

/-- C7 in the example room: of three calls after a `beginFall` that found the
models at rest, the first returns true and the two others return false. -/
theorem makeMove_at_most_once_witness :
    (∃ s, ((Room.create 0).beginFall toy false).2.makeMoves toy ['u', 'd', 'x']
      = [.ok true s, .ok false s, .ok false s]) ∧
    (((Room.create 0).beginFall toy false).2.makeMoves toy ['u', 'd', 'x']).countP
      Outcome.returnedTrue ≤ 1 :=
  ⟨⟨_, rfl⟩, (makeMove_at_most_once toy).2.2.1 ['u', 'd', 'x'] _⟩


/-! ### The loop of `loadMove`, turn by turn -/

theorem Room.beginFall_fresh (x : Collab W) (i : Bool) (r : Room W) :
    (r.beginFall x i).2.fresh = !(r.beginFall x i).1 := by
  unfold Room.beginFall
  simp only []
  split <;> rfl

theorem Room.loadMove_falls (x : Collab W) (n : Nat) (move : Char) (r : Room W)
    (h : r.fallsOn x = true) :
    r.loadMove x (n + 1) move = (r.fallRound x).2.loadMove x n move := by
  simp only [Room.fallsOn, Bool.and_eq_true, Bool.not_eq_true'] at h
  have hm := Room.makeMove_not_fresh x move (r.beginFall x false).2
    (by rw [Room.beginFall_fresh, h.1]; rfl)
  have hfin : ((r.beginFall x false).2.finishRound x false).1 = false := h.2
  rw [Room.loadMove]
  simp only [hm, hfin, h.1, Room.fallRound]
  simp

theorem Room.loadMove_early (x : Collab W) (n : Nat) (move : Char) (r : Room W)
    (h : r.earlyFinishAt x = true) :
    r.loadMove x (n + 1) move
      = .error (.LoadException "load error - early finished level") (r.fallRound x).2 := by
  simp only [Room.earlyFinishAt, Bool.and_eq_true] at h
  have hm := Room.makeMove_not_fresh x move (r.beginFall x false).2
    (by rw [Room.beginFall_fresh, h.1]; rfl)
  have hfin : ((r.beginFall x false).2.finishRound x false).1 = true := h.2
  rw [Room.loadMove]
  simp only [hm, hfin, h.1, Room.fallRound]
  simp

theorem Room.loadMove_rejected (x : Collab W) (n : Nat) (move : Char) (r : Room W)
    (h : r.rejectedAt x move = true) :
    r.loadMove x (n + 1) move
      = .error (.LoadException "load error - bad move") (r.rejected x move) := by
  simp only [Room.rejectedAt, Bool.and_eq_true, Bool.not_eq_true'] at h
  have hm := Room.makeMove_rejected x move (r.beginFall x false).2
    (by rw [Room.beginFall_fresh, h.1]; rfl) h.2
  rw [Room.loadMove]
  simp only [hm, Room.rejected]

theorem Room.loadMove_accepted (x : Collab W) (n : Nat) (move : Char) (r : Room W)
    (h : r.acceptedAt x move = true) :
    r.loadMove x (n + 1) move
      = .ok ((r.committed x move).finishRound x false).1
          ((r.committed x move).finishRound x false).2 := by
  simp only [Room.acceptedAt, Bool.and_eq_true, Bool.not_eq_true'] at h
  have hm := Room.makeMove_accepted x move (r.beginFall x false).2
    (by rw [Room.beginFall_fresh, h.1]; rfl) h.2
  rw [Room.loadMove]
  simp only [hm, h.1, Room.committed]
  simp

theorem Room.turn_cases (x : Collab W) (move : Char) (r : Room W) :
    r.fallsOn x = true ∨ r.earlyFinishAt x = true ∨ r.rejectedAt x move = true ∨
      r.acceptedAt x move = true := by
  unfold Room.fallsOn Room.earlyFinishAt Room.rejectedAt Room.acceptedAt
  cases (r.beginFall x false).1 <;> cases (r.fallRound x).1 <;>
    cases (x.controlsMakeMove move (r.beginFall x false).2.world).1 <;> simp

theorem Room.fallsThrough_succ (x : Collab W) (k : Nat) (r : Room W) :
    Room.fallsThrough x (k + 1) r ↔
      r.fallsOn x = true ∧ Room.fallsThrough x k (r.fallRound x).2 := by
  constructor
  · intro h
    exact ⟨h 0 (Nat.succ_pos k), fun i hi => h (i + 1) (Nat.succ_lt_succ hi)⟩
  · rintro ⟨h0, hk⟩ i hi
    cases i with
    | zero => exact h0
    | succ i => exact hk i (Nat.lt_of_succ_lt_succ hi)

/-- Falling rounds use up one turn each and nothing else. -/
theorem Room.loadMove_skip (x : Collab W) (move : Char) (k n : Nat) (r : Room W)
    (h : Room.fallsThrough x k r) :
    r.loadMove x (k + n) move = (Room.replayStart x k r).loadMove x n move := by
  induction k generalizing r with
  | zero => simp [Room.replayStart]
  | succ k ih =>
    obtain ⟨h0, hk⟩ := (Room.fallsThrough_succ x k r).mp h
    rw [show k + 1 + n = (k + n) + 1 by omega, Room.loadMove_falls x _ move r h0, ih _ hk]
    rfl

/-- With `n` turns of fuel the loop is either still running, after `n` falling
rounds, or has been decided in a turn `j < n` that was not a falling round. -/
theorem Room.loadMove_search (x : Collab W) (move : Char) (n : Nat) (r : Room W) :
    (Room.fallsThrough x n r ∧ r.loadMove x n move = .running (Room.replayStart x n r)) ∨
    ∃ j, j < n ∧ Room.fallsThrough x j r ∧ (Room.replayStart x j r).fallsOn x = false ∧
      r.loadMove x n move = (Room.replayStart x j r).loadMove x 1 move := by
  induction n generalizing r with
  | zero => exact Or.inl ⟨fun i hi => absurd hi (Nat.not_lt_zero i), rfl⟩
  | succ n ih =>
    cases hf : r.fallsOn x
    · refine Or.inr ⟨0, Nat.succ_pos n, fun i hi => absurd hi (Nat.not_lt_zero i), hf, ?_⟩
      rcases Room.turn_cases x move r with h | h | h | h
      · rw [hf] at h; cases h
      · rw [Room.loadMove_early x n move r h]; exact (Room.loadMove_early x 0 move r h).symm
      · rw [Room.loadMove_rejected x n move r h]; exact (Room.loadMove_rejected x 0 move r h).symm
      · rw [Room.loadMove_accepted x n move r h]; exact (Room.loadMove_accepted x 0 move r h).symm
    · rw [Room.loadMove_falls x n move r hf]
      rcases ih (r.fallRound x).2 with ⟨hft, hrun⟩ | ⟨j, hj, hft, hstop, heq⟩
      · exact Or.inl ⟨(Room.fallsThrough_succ x n r).mpr ⟨hf, hft⟩, hrun⟩
      · exact Or.inr ⟨j + 1, Nat.succ_lt_succ hj,
          (Room.fallsThrough_succ x j r).mpr ⟨hf, hft⟩, hstop, heq⟩


theorem Room.loadMove_decided (x : Collab W) (move : Char) (j fuel : Nat) (r : Room W)
    (hj : j < fuel) (h : Room.fallsThrough x j r) :
    r.loadMove x fuel move = (Room.replayStart x j r).loadMove x (fuel - j - 1 + 1) move := by
  rw [← Room.loadMove_skip x move j _ r h]
  congr 1
  omega

theorem Room.loadMove_stop_cases (x : Collab W) (move : Char) (n : Nat) (r : Room W)
    (h : r.fallsOn x = false) :
    (r.earlyFinishAt x = true ∧ r.loadMove x (n + 1) move
        = .error (.LoadException "load error - early finished level") (r.fallRound x).2) ∨
    (r.rejectedAt x move = true ∧ r.loadMove x (n + 1) move
        = .error (.LoadException "load error - bad move") (r.rejected x move)) ∨
    (r.acceptedAt x move = true ∧ r.loadMove x (n + 1) move
        = .ok ((r.committed x move).finishRound x false).1
            ((r.committed x move).finishRound x false).2) := by
  rcases Room.turn_cases x move r with h1 | h1 | h1 | h1
  · rw [h] at h1; cases h1
  · exact Or.inl ⟨h1, Room.loadMove_early x n move r h1⟩
  · exact Or.inr (Or.inl ⟨h1, Room.loadMove_rejected x n move r h1⟩)
  · exact Or.inr (Or.inr ⟨h1, Room.loadMove_accepted x n move r h1⟩)

/-! ### The `LoadException`s of `loadMove`, when no lookup throws -/

/-- Without a throw of a cue lookup:
`loadMove` throws nothing but a `LoadException`, and it throws exactly
when the loop reaches (through falling rounds that do not complete the room) a
turn in which either nothing falls or leaves and the control layer rejects the
code, or `beginFall` reports falling and `finishRound` of the same turn reports
the room complete.  It returns exactly when the loop reaches a turn in which
nothing falls and the control layer accepts the code, and what it returns is
the result of `finishRound` in that turn, the one in which the move was made.
Otherwise, with the fuel spent on falling rounds only, it is still running. -/
theorem Room.loadMove_endings (x : Collab W) (move : Char) (fuel : Nat) (r : Room W) :
    (∀ e s, r.loadMove x fuel move = .error e s → ∃ info, e = .LoadException info) ∧
    ((∃ e s, r.loadMove x fuel move = .error e s) ↔
      ∃ j, j < fuel ∧ Room.fallsThrough x j r ∧
        ((Room.replayStart x j r).rejectedAt x move = true ∨
          (Room.replayStart x j r).earlyFinishAt x = true)) ∧
    (∀ b s, r.loadMove x fuel move = .ok b s ↔
      ∃ j, j < fuel ∧ Room.fallsThrough x j r ∧
        (Room.replayStart x j r).acceptedAt x move = true ∧
        ((Room.replayStart x j r).committed x move).finishRound x false = (b, s)) ∧
    (∀ s, r.loadMove x fuel move = .running s ↔
      Room.fallsThrough x fuel r ∧ s = Room.replayStart x fuel r) := by
  refine ⟨?_, ⟨?_, ?_⟩, fun b s => ⟨?_, ?_⟩, fun s => ⟨?_, ?_⟩⟩
  · intro e s he
    rcases Room.loadMove_search x move fuel r with ⟨_, hrun⟩ | ⟨j, _, _, hstop, heq⟩
    · rw [hrun] at he; cases he
    · rw [heq] at he
      rcases Room.loadMove_stop_cases x move 0 _ hstop with ⟨_, h⟩ | ⟨_, h⟩ | ⟨_, h⟩ <;>
        rw [h] at he <;> cases he <;> exact ⟨_, rfl⟩
  · rintro ⟨e, s, he⟩
    rcases Room.loadMove_search x move fuel r with ⟨_, hrun⟩ | ⟨j, hj, hft, hstop, heq⟩
    · rw [hrun] at he; cases he
    · rw [heq] at he
      rcases Room.loadMove_stop_cases x move 0 _ hstop with ⟨hc, _⟩ | ⟨hc, _⟩ | ⟨_, h⟩
      · exact ⟨j, hj, hft, Or.inr hc⟩
      · exact ⟨j, hj, hft, Or.inl hc⟩
      · rw [h] at he; cases he
  · rintro ⟨j, hj, hft, hc | hc⟩
    · exact ⟨_, _, (Room.loadMove_decided x move j fuel r hj hft).trans
        (Room.loadMove_rejected x _ move _ hc)⟩
    · exact ⟨_, _, (Room.loadMove_decided x move j fuel r hj hft).trans
        (Room.loadMove_early x _ move _ hc)⟩
  · intro hok
    rcases Room.loadMove_search x move fuel r with ⟨_, hrun⟩ | ⟨j, hj, hft, hstop, heq⟩
    · rw [hrun] at hok; cases hok
    · rw [heq] at hok
      rcases Room.loadMove_stop_cases x move 0 _ hstop with ⟨_, h⟩ | ⟨_, h⟩ | ⟨hc, h⟩
      · rw [h] at hok; cases hok
      · rw [h] at hok; cases hok
      · rw [h] at hok
        cases hok
        exact ⟨j, hj, hft, hc, rfl⟩
  · rintro ⟨j, hj, hft, hc, hfin⟩
    rw [Room.loadMove_decided x move j fuel r hj hft, Room.loadMove_accepted x _ move _ hc, hfin]
  · intro hrun
    rcases Room.loadMove_search x move fuel r with ⟨hft, hrun1⟩ | ⟨j, _, _, hstop, heq⟩
    · rw [hrun1] at hrun
      cases hrun
      exact ⟨hft, rfl⟩
    · rw [heq] at hrun
      rcases Room.loadMove_stop_cases x move 0 _ hstop with ⟨_, h⟩ | ⟨_, h⟩ | ⟨_, h⟩ <;>
        rw [h] at hrun <;> cases hrun
  · rintro ⟨hft, rfl⟩
    have := Room.loadMove_skip x move fuel 0 r hft
    rw [Nat.add_zero] at this
    rw [this]
    rfl


/-! ### C8: a rejected move -/

theorem Room.loadMove_ok_accepted (x : Collab W) (move : Char) (fuel : Nat) (r : Room W)
    (b : Bool) (s : Room W) (hok : r.loadMove x fuel move = .ok b s) :
    ∃ j, (Room.replayStart x j r).acceptedAt x move = true := by
  rcases Room.loadMove_search x move fuel r with ⟨_, hrun⟩ | ⟨j, _, _, hstop, heq⟩
  · rw [hrun] at hok; cases hok
  · rw [heq] at hok
    rcases Room.loadMove_stop_cases x move 0 _ hstop with ⟨_, h⟩ | ⟨_, h⟩ | ⟨hc, _⟩
    · rw [h] at hok; cases hok
    · rw [h] at hok; cases hok
    · exact ⟨j, hc⟩

/-- C8, as stated, fails: in the room that a replayed move has left (not fresh,
impact `HEAVY`), `loadMove('x')` with a code that the control layer rejects does
throw the `LoadException`, but it leaves the room fresh and with impact `NONE`. -/
theorem loadMove_rejected_changes_round_state :
    (toy.controlsMakeMove 'x' (landedRoom.beginFall toy false).2.world).1 = false ∧
    landedRoom.loadMove toy 9 'x'
      = .error (.LoadException "load error - bad move") (landedRoom.rejected toy 'x') ∧
    landedRoom.fresh = false ∧ (landedRoom.rejected toy 'x').fresh = true ∧
    landedRoom.impact = .HEAVY ∧ (landedRoom.rejected toy 'x').impact = .NONE := by
  decide

/-- C8, amended: when the loop of `loadMove` comes, after `k` falling rounds, to
a turn in which nothing falls or leaves and the control layer rejects the code,
`loadMove` fails with the `LoadException`.  The room is then as `beginFall` of
that turn and the call on the control layer have left it: the fresh flag is
true, the impact is the one that `beginFall` computed, and `finishRound` of the
turn has not run.  And a code that the control layer rejects in every state
never lets `loadMove` return. -/
theorem loadMove_rejected_move_fails (x : Collab W) (move : Char) (k : Nat) (r : Room W)
    (hfalls : Room.fallsThrough x k r)
    (hrest : ((Room.replayStart x k r).beginFall x false).1 = false)
    (hrej : (x.controlsMakeMove move
      ((Room.replayStart x k r).beginFall x false).2.world).1 = false) :
    (∀ fuel, k < fuel → r.loadMove x fuel move
      = .error (.LoadException "load error - bad move")
          ((Room.replayStart x k r).rejected x move)) ∧
    ((Room.replayStart x k r).rejected x move).fresh = true ∧
    ((Room.replayStart x k r).rejected x move).impact
      = ((Room.replayStart x k r).beginFall x false).2.impact ∧
    ((Room.replayStart x k r).rejected x move).trace
      = ((Room.replayStart x k r).beginFall x false).2.trace
          ++ [.controlsMakeMove move false] ∧
    ((∀ w, (x.controlsMakeMove move w).1 = false) →
      ∀ fuel b s, r.loadMove x fuel move ≠ .ok b s) := by
  have hc : (Room.replayStart x k r).rejectedAt x move = true := by
    simp [Room.rejectedAt, hrest, hrej]
  refine ⟨?_, ?_, rfl, rfl, ?_⟩
  · intro fuel hk
    rw [Room.loadMove_decided x move k fuel r hk hfalls, Room.loadMove_rejected x _ move _ hc]
  · show ((Room.replayStart x k r).beginFall x false).2.fresh = true
    rw [Room.beginFall_fresh, hrest]
    rfl
  · intro hall fuel b s hok
    obtain ⟨j, hj⟩ := Room.loadMove_ok_accepted x move fuel r b s hok
    simp [Room.acceptedAt, hall] at hj

/-- C8, amended, in the example room `toyRoom`: one falling round, then the
code `'x'` is rejected. -/
theorem loadMove_rejected_move_fails_witness :
    Room.fallsThrough toy 1 toyRoom ∧
    ((Room.replayStart toy 1 toyRoom).beginFall toy false).1 = false ∧
    (toy.controlsMakeMove 'x'
      ((Room.replayStart toy 1 toyRoom).beginFall toy false).2.world).1 = false ∧
    toyRoom.loadMove toy 3 'x'
      = .error (.LoadException "load error - bad move")
          ((Room.replayStart toy 1 toyRoom).rejected toy 'x') :=
  ⟨(Room.fallsThrough_succ toy 0 toyRoom).mpr
      ⟨by decide, fun i hi => absurd hi (Nat.not_lt_zero i)⟩,
   by decide, by decide,
   (loadMove_rejected_move_fails toy 'x' 1 toyRoom
      ((Room.fallsThrough_succ toy 0 toyRoom).mpr
        ⟨by decide, fun i hi => absurd hi (Nat.not_lt_zero i)⟩)
      (by decide) (by decide)).1 3 (by decide)⟩

/-! ### C10: falling rounds do not use up the move -/

theorem Room.entered_of_trace (p : Phase) {r s : Room W} {d : List Event}
    (h : s.trace = r.trace ++ d) :
    s.entered p = r.entered p + (d.filterMap Event.phaseEntered).count p := by
  simp [Room.entered, h, List.filterMap_append, List.count_append]

theorem Room.movesAsked_of_trace {r s : Room W} {d : List Event}
    (h : s.trace = r.trace ++ d) :
    s.movesAsked = r.movesAsked ++ d.filterMap Event.moveAsked := by
  simp [Room.movesAsked, h, List.filterMap_append]

theorem count_phase_eq_zero (p : Phase) (d : List Event)
    (h : ∀ e ∈ d, e.phaseEntered ≠ some p) : (d.filterMap Event.phaseEntered).count p = 0 := by
  rw [List.count_eq_zero]
  intro hmem
  obtain ⟨e, he, hsome⟩ := List.mem_filterMap.mp hmem
  exact h e he hsome

theorem Event.inBeginFall_phase (e : Event) (h : e.inBeginFall) :
    e.phaseEntered ≠ some .prepareRound ∧ e.phaseEntered ≠ some .finishRound ∧
      e.moveAsked = none := by
  rcases h with rfl | rfl | h | h | h | h
  · simp [Event.phaseEntered, Event.moveAsked]
  · simp [Event.phaseEntered, Event.moveAsked]
  all_goals cases e <;> first
    | exact False.elim h
    | simp [Event.phaseEntered, Event.moveAsked]

theorem Event.inFinish_phase (e : Event) (h : e.inFinish) :
    e.phaseEntered = none ∧ e.moveAsked = none := by
  cases e <;> first
    | exact False.elim h
    | simp [Event.phaseEntered, Event.moveAsked]

/-- What `beginFall` adds to the counts: one entry of `prepareRound`, no entry
of `finishRound`, no call of the control layer. -/
theorem Room.beginFall_counts (x : Collab W) (i : Bool) (r : Room W) :
    (r.beginFall x i).2.entered .prepareRound = r.entered .prepareRound + 1 ∧
    (r.beginFall x i).2.entered .finishRound = r.entered .finishRound ∧
    (r.beginFall x i).2.movesAsked = r.movesAsked := by
  obtain ⟨d, hd, hP, -, -, -⟩ := Room.beginFall_trace x i r
  have h1 := count_phase_eq_zero .prepareRound d (fun e he => (e.inBeginFall_phase (hP e he)).1)
  have h2 := count_phase_eq_zero .finishRound d (fun e he => (e.inBeginFall_phase (hP e he)).2.1)
  have h3 : d.filterMap Event.moveAsked = [] :=
    filterMap_eq_nil_of _ _ d hP (fun e h => (e.inBeginFall_phase h).2.2)
  refine ⟨?_, ?_, ?_⟩
  · rw [Room.entered_of_trace _ hd]
    simp [Event.phaseEntered, h1]
  · rw [Room.entered_of_trace _ hd]
    simp [Event.phaseEntered, h2]
  · rw [Room.movesAsked_of_trace hd]
    simp [Event.moveAsked, h3]

/-- What `finishRound` adds to the counts: one entry of `finishRound`, no entry
of `prepareRound`, no call of the control layer. -/
theorem Room.finishRound_counts (x : Collab W) (i : Bool) (r : Room W) :
    (r.finishRound x i).2.entered .prepareRound = r.entered .prepareRound ∧
    (r.finishRound x i).2.entered .finishRound = r.entered .finishRound + 1 ∧
    (r.finishRound x i).2.movesAsked = r.movesAsked := by
  obtain ⟨d, hd, hP, -, -⟩ := Room.finishRound_trace x i r
  have h1 : ∀ p, (d.filterMap Event.phaseEntered).count p = 0 := fun p =>
    count_phase_eq_zero p d (fun e he => by rw [(e.inFinish_phase (hP e he)).1]; simp)
  have h3 : d.filterMap Event.moveAsked = [] :=
    filterMap_eq_nil_of _ _ d hP (fun e h => (e.inFinish_phase h).2)
  refine ⟨?_, ?_, ?_⟩
  · rw [Room.entered_of_trace _ hd]
    simp [Event.phaseEntered, h1]
  · rw [Room.entered_of_trace _ hd]
    simp [Event.phaseEntered, h1]
  · rw [Room.movesAsked_of_trace hd]
    simp [Event.moveAsked, h3]

/-- After `k` falling rounds both phases have been entered `k` more times, and
the control layer has not been asked. -/
theorem Room.replayStart_counts (x : Collab W) (k : Nat) (r : Room W) :
    (Room.replayStart x k r).entered .prepareRound = r.entered .prepareRound + k ∧
    (Room.replayStart x k r).entered .finishRound = r.entered .finishRound + k ∧
    (Room.replayStart x k r).movesAsked = r.movesAsked := by
  induction k generalizing r with
  | zero => exact ⟨rfl, rfl, rfl⟩
  | succ k ih =>
    obtain ⟨h1, h2, h3⟩ := ih (r.fallRound x).2
    obtain ⟨b1, b2, b3⟩ := Room.beginFall_counts x false r
    obtain ⟨f1, f2, f3⟩ := Room.finishRound_counts x false (r.beginFall x false).2
    refine ⟨?_, ?_, ?_⟩
    · rw [Room.replayStart, h1, Room.fallRound, f1, b1]; omega
    · rw [Room.replayStart, h2, Room.fallRound, f2, b2]; omega
    · rw [Room.replayStart, h3, Room.fallRound, f3, b3]


theorem Room.loadMove_stop_fuel (x : Collab W) (move : Char) (n m : Nat) (r : Room W)
    (h : r.fallsOn x = false) : r.loadMove x (n + 1) move = r.loadMove x (m + 1) move := by
  rcases Room.turn_cases x move r with h1 | h1 | h1 | h1
  · rw [h] at h1; cases h1
  · rw [Room.loadMove_early x n move r h1, Room.loadMove_early x m move r h1]
  · rw [Room.loadMove_rejected x n move r h1, Room.loadMove_rejected x m move r h1]
  · rw [Room.loadMove_accepted x n move r h1, Room.loadMove_accepted x m move r h1]

/-- C10, as stated, fails: `toyRoom` falls for one round and then rests, and no
round is complete; `loadMove('x')` with a code that the control layer rejects
ends in the second turn by throwing, after two `beginFall` phases but only one
`finishRound` phase. -/
theorem loadMove_rejected_skips_finishRound :
    toyRoom.fallsOn toy = true ∧
    ((Room.replayStart toy 1 toyRoom).beginFall toy false).1 = false ∧
    toyRoom.loadMove toy 2 'x'
      = .error (.LoadException "load error - bad move")
          ((Room.replayStart toy 1 toyRoom).rejected toy 'x') ∧
    (toyRoom.loadMove toy 2 'x').room.movesAsked = toyRoom.movesAsked ++ [('x', false)] ∧
    (toyRoom.loadMove toy 2 'x').room.entered .prepareRound
      = toyRoom.entered .prepareRound + 2 ∧
    (toyRoom.loadMove toy 2 'x').room.entered .finishRound
      = toyRoom.entered .finishRound + 1 := by
  decide

/-- C10, amended: if the first `k` turns of the loop are falling rounds that do
not complete the room and `beginFall` of the next turn reports that nothing
falls, then `loadMove` is still running after `k` turns and is over after `k + 1`
turns, whatever fuel is left.  The code is passed to the control layer exactly
once, in the last turn, and not in the `k` falling rounds.  `beginFall` has then
run `k + 1` times.  If the control layer accepts the code, `finishRound` has run
`k + 1` times as well and `loadMove` returns; if it rejects the code, `loadMove`
throws the `LoadException` and `finishRound` has run only `k` times. -/
theorem loadMove_after_falling_rounds (x : Collab W) (move : Char) (k : Nat) (r : Room W)
    (hfalls : Room.fallsThrough x k r)
    (hrest : ((Room.replayStart x k r).beginFall x false).1 = false) :
    r.loadMove x k move = .running (Room.replayStart x k r) ∧
    (∀ fuel, k < fuel → r.loadMove x fuel move = r.loadMove x (k + 1) move) ∧
    (Room.replayStart x k r).movesAsked = r.movesAsked ∧
    (r.loadMove x (k + 1) move).room.movesAsked
      = r.movesAsked ++ [(move, (x.controlsMakeMove move
          ((Room.replayStart x k r).beginFall x false).2.world).1)] ∧
    (r.loadMove x (k + 1) move).room.entered .prepareRound
      = r.entered .prepareRound + (k + 1) ∧
    ((x.controlsMakeMove move ((Room.replayStart x k r).beginFall x false).2.world).1 = true →
      (∃ b s, r.loadMove x (k + 1) move = .ok b s) ∧
      (r.loadMove x (k + 1) move).room.entered .finishRound
        = r.entered .finishRound + (k + 1)) ∧
    ((x.controlsMakeMove move ((Room.replayStart x k r).beginFall x false).2.world).1 = false →
      (∃ s, r.loadMove x (k + 1) move
        = .error (.LoadException "load error - bad move") s) ∧
      (r.loadMove x (k + 1) move).room.entered .finishRound
        = r.entered .finishRound + k) := by
  have hstop : (Room.replayStart x k r).fallsOn x = false := by
    simp [Room.fallsOn, hrest]
  have hlast : r.loadMove x (k + 1) move = (Room.replayStart x k r).loadMove x 1 move :=
    Room.loadMove_skip x move k 1 r hfalls
  obtain ⟨s1, s2, s3⟩ := Room.replayStart_counts x k r
  obtain ⟨b1, b2, b3⟩ := Room.beginFall_counts x false (Room.replayStart x k r)
  refine ⟨?_, ?_, s3, ?_⟩
  · have := Room.loadMove_skip x move k 0 r hfalls
    rw [Nat.add_zero] at this
    rw [this]
    rfl
  · intro fuel hk
    rw [Room.loadMove_decided x move k fuel r hk hfalls, hlast]
    exact Room.loadMove_stop_fuel x move _ 0 _ hstop
  · cases ha : (x.controlsMakeMove move ((Room.replayStart x k r).beginFall x false).2.world).1
    · have hc : (Room.replayStart x k r).rejectedAt x move = true := by
        simp [Room.rejectedAt, hrest, ha]
      have hout := hlast.trans (Room.loadMove_rejected x 0 move _ hc)
      have htr : ((Room.replayStart x k r).rejected x move).trace
          = ((Room.replayStart x k r).beginFall x false).2.trace
              ++ [.controlsMakeMove move false] := rfl
      rw [hout]
      simp only [Outcome.room]
      refine ⟨?_, ?_, ?_, ?_⟩
      · rw [Room.movesAsked_of_trace htr, b3, s3]; rfl
      · rw [Room.entered_of_trace _ htr, b1, s1]; simp [Event.phaseEntered]; omega
      · intro h; cases h
      · intro _
        refine ⟨⟨_, rfl⟩, ?_⟩
        rw [Room.entered_of_trace _ htr, b2, s2]; simp [Event.phaseEntered]
    · have hc : (Room.replayStart x k r).acceptedAt x move = true := by
        simp [Room.acceptedAt, hrest, ha]
      have hout := hlast.trans (Room.loadMove_accepted x 0 move _ hc)
      have htr : ((Room.replayStart x k r).committed x move).trace
          = ((Room.replayStart x k r).beginFall x false).2.trace
              ++ [.controlsMakeMove move true] := rfl
      obtain ⟨f1, f2, f3⟩ :=
        Room.finishRound_counts x false ((Room.replayStart x k r).committed x move)
      rw [hout]
      simp only [Outcome.room]
      refine ⟨?_, ?_, ?_, ?_⟩
      · rw [f3, Room.movesAsked_of_trace htr, b3, s3]; rfl
      · rw [f1, Room.entered_of_trace _ htr, b1, s1]; simp [Event.phaseEntered]; omega
      · intro _
        refine ⟨⟨_, _, rfl⟩, ?_⟩
        rw [f2, Room.entered_of_trace _ htr, b2, s2]; simp [Event.phaseEntered]; omega
      · intro h; cases h

/-- C10, amended, in the example room `toyRoom`: one falling round, then the
code `'u'` is accepted in the second turn. -/
theorem loadMove_after_falling_rounds_witness :
    Room.fallsThrough toy 1 toyRoom ∧
    ((Room.replayStart toy 1 toyRoom).beginFall toy false).1 = false ∧
    toyRoom.loadMove toy 1 'u' = .running (Room.replayStart toy 1 toyRoom) ∧
    (toyRoom.loadMove toy 2 'u').room.movesAsked
      = toyRoom.movesAsked ++ [('u', (toy.controlsMakeMove 'u'
          ((Room.replayStart toy 1 toyRoom).beginFall toy false).2.world).1)] :=
  ⟨(Room.fallsThrough_succ toy 0 toyRoom).mpr
      ⟨by decide, fun i hi => absurd hi (Nat.not_lt_zero i)⟩,
   by decide,
   (loadMove_after_falling_rounds toy 'u' 1 toyRoom
      ((Room.fallsThrough_succ toy 0 toyRoom).mpr
        ⟨by decide, fun i hi => absurd hi (Nat.not_lt_zero i)⟩) (by decide)).1,
   (loadMove_after_falling_rounds toy 'u' 1 toyRoom
      ((Room.fallsThrough_succ toy 0 toyRoom).mpr
        ⟨by decide, fun i hi => absurd hi (Nat.not_lt_zero i)⟩) (by decide)).2.2.2.1⟩

/-! ### The exact trace of `prepareRound` -/

theorem Room.occupyLoop_trace (x : Collab W) (ms : List Cube) (s : Room W) :
    (ms.foldl (Room.occupyStep x) s).trace = s.trace ++ ms.map Event.occupyNewPos := by
  induction ms generalizing s with
  | nil => simp
  | cons m ms ih => rw [List.foldl_cons, ih]; simp [Room.occupyStep]

theorem Room.stateLoop_trace (x : Collab W) (ms : List Cube) (s : Room W) :
    (ms.foldl (Room.stateStep x) s).trace = s.trace ++ ms.map Event.changeState := by
  induction ms generalizing s with
  | nil => simp
  | cons m ms ih => rw [List.foldl_cons, ih]; simp [Room.stateStep]

/-- The trace of `playDead`: the `getIndex` query, the `killSound` call, the
`getPower` query, and then the cue of the power, or a second `getPower` query
and a warning when the power is neither `LIGHT` nor `HEAVY`. -/
theorem Room.playDead_trace (x : Collab W) (m : Cube) (r : Room W) :
    (r.playDead x m).trace = r.trace ++
      (Event.getIndex m (x.getIndex m r.world) :: Event.killSound (x.getIndex m r.world) ::
        Event.getPower m (x.getPower m (x.killSound (x.getIndex m r.world) r.world)) ::
        match x.getPower m (x.killSound (x.getIndex m r.world) r.world) with
        | .LIGHT => [Event.playSound "dead_small" x.playSoundDefault]
        | .HEAVY => [Event.playSound "dead_big" x.playSoundDefault]
        | .NONE => [Event.getPower m (x.getPower m (x.killSound (x.getIndex m r.world) r.world)),
            Event.logWarning "curious power of dead fish"]) := by
  unfold Room.playDead
  simp only [Room.call_world, Room.log_world]
  cases x.getPower m (x.killSound (x.getIndex m r.world) r.world) <;>
    simp [Room.playSound]

theorem Room.playDead_tail (x : Collab W) (m : Cube) (r : Room W) :
    ∃ d, (r.playDead x m).trace = r.trace ++ Event.getIndex m (x.getIndex m r.world) :: d ∧
      ∀ e ∈ d, e.inPlayDead := by
  refine ⟨_, Room.playDead_trace x m r, ?_⟩
  intro e he
  cases hp : x.getPower m (x.killSound (x.getIndex m r.world) r.world) <;>
    simp only [hp, List.mem_cons, List.mem_singleton, List.not_mem_nil, or_false] at he <;>
    rcases he with rfl | rfl | rfl | rfl <;> exact True.intro

theorem Event.inPlayDead_quiet (e : Event) (h : e.inPlayDead) :
    e.rulesCall = none ∧ e.died = none ∧ e.playDeadFor = none ∧
      e ≠ .interruptPlan ∧ e ≠ .checkActive := by
  cases e <;> first
    | exact False.elim h
    | simp [Event.rulesCall, Event.died, Event.playDeadFor]

/-- The trace of the death loop of `prepareRound`: one death check for each
model in order; `playDead` starts once for each model that died, in order; the
flag becomes true exactly when some model died; the planner is not called. -/
theorem Room.deadLoop_trace (x : Collab W) (ms : List Cube) (acc : Bool × Room W) :
    ∃ d, (ms.foldl (Room.deadStep x) acc).2.trace = acc.2.trace ++ d ∧
      d.filterMap Event.rulesCall = ms.map (fun m => (RulesOp.checkDead, m)) ∧
      ((ms.foldl (Room.deadStep x) acc).1 = true ↔
        acc.1 = true ∨ ∃ m, Event.checkDead m true ∈ d) ∧
      d.filterMap Event.playDeadFor = d.filterMap Event.died ∧
      (∀ e ∈ d, e ≠ .interruptPlan ∧ e ≠ .checkActive) := by
  induction ms generalizing acc with
  | nil => exact ⟨[], by simp, rfl, by simp, rfl, by simp⟩
  | cons m ms ih =>
    rw [List.foldl_cons]
    obtain ⟨d, hd, hcalls, hres, hplay, hno⟩ := ih (Room.deadStep x acc m)
    cases hdie : (x.checkDead m acc.2.world).1
    · have hstep : Room.deadStep x acc m
          = (acc.1, acc.2.call (.checkDead m false) (x.checkDead m acc.2.world).2) := by
        simp [Room.deadStep, hdie]
      rw [hstep] at hd hres ⊢
      refine ⟨Event.checkDead m false :: d, ?_, ?_, ?_, ?_, ?_⟩
      · rw [hd]; simp
      · simp [Event.rulesCall, hcalls]
      · rw [hres]
        constructor
        · rintro (h | ⟨m1, hm1⟩)
          · exact Or.inl h
          · exact Or.inr ⟨m1, List.mem_cons_of_mem _ hm1⟩
        · rintro (h | ⟨m1, hm1⟩)
          · exact Or.inl h
          · rcases List.mem_cons.mp hm1 with h | h
            · cases h
            · exact Or.inr ⟨m1, h⟩
      · simp [Event.playDeadFor, Event.died, hplay]
      · intro e he
        rcases List.mem_cons.mp he with rfl | h
        · simp
        · exact hno e h
    · obtain ⟨t, ht, hq⟩ := Room.playDead_tail x m
        (acc.2.call (.checkDead m true) (x.checkDead m acc.2.world).2)
      have hstep : Room.deadStep x acc m
          = (true, (acc.2.call (.checkDead m true) (x.checkDead m acc.2.world).2).playDead x m) := by
        simp [Room.deadStep, hdie]
      rw [hstep] at hd hres ⊢
      have ht1 : t.filterMap Event.rulesCall = [] :=
        filterMap_eq_nil_of _ _ t hq (fun e h => (e.inPlayDead_quiet h).1)
      have ht2 : t.filterMap Event.died = [] :=
        filterMap_eq_nil_of _ _ t hq (fun e h => (e.inPlayDead_quiet h).2.1)
      have ht3 : t.filterMap Event.playDeadFor = [] :=
        filterMap_eq_nil_of _ _ t hq (fun e h => (e.inPlayDead_quiet h).2.2.1)
      refine ⟨Event.checkDead m true ::
        Event.getIndex m (x.getIndex m (x.checkDead m acc.2.world).2) :: t ++ d, ?_, ?_, ?_, ?_, ?_⟩
      · rw [hd, ht]; simp
      · simp [List.filterMap_append, Event.rulesCall, hcalls, ht1]
      · rw [hres]
        simp only [true_or, true_iff]
        exact Or.inr ⟨m, by simp⟩
      · simp [List.filterMap_append, Event.playDeadFor, Event.died, hplay, ht2, ht3]
      · intro e he
        simp only [List.cons_append, List.mem_cons, List.mem_append] at he
        rcases he with rfl | rfl | h | h
        · simp
        · simp
        · exact (e.inPlayDead_quiet (hq e h)).2.2.2
        · exact hno e h

theorem died_ne_nil_iff (d : List Event) :
    d.filterMap Event.died ≠ [] ↔ ∃ m, Event.checkDead m true ∈ d := by
  rw [Ne, List.filterMap_eq_nil_iff]
  constructor
  · intro h
    by_contra hc
    apply h
    intro e he
    cases e with
    | checkDead m b =>
      cases b
      · rfl
      · exact False.elim (hc ⟨m, he⟩)
    | _ => rfl
  · rintro ⟨m, hm⟩ h
    have := h _ hm
    simp [Event.died] at this

/-- The trace of `prepareRound` in full: its entry, the commit calls, the events
of the death loop, the state changes, and, if a model died, the two calls that
interrupt the plan. -/
theorem Room.prepareRound_parts (x : Collab W) (r : Room W) :
    ∃ d, (r.prepareRound x).trace = r.trace ++
        (Event.phase .prepareRound :: r.models.map Event.occupyNewPos ++ d
          ++ r.models.map Event.changeState
          ++ (if d.filterMap Event.died = [] then [] else [.interruptPlan, .checkActive])) ∧
      d.filterMap Event.rulesCall = r.models.map (fun m => (RulesOp.checkDead, m)) ∧
      d.filterMap Event.playDeadFor = d.filterMap Event.died ∧
      (∀ e ∈ d, e ≠ .interruptPlan ∧ e ≠ .checkActive) := by
  obtain ⟨d, hd, hcalls, hres, hplay, hno⟩ := Room.deadLoop_trace x r.models
    (false, r.models.foldl (Room.occupyStep x) (r.log (.phase .prepareRound)))
  simp only [Bool.false_eq_true, false_or] at hres
  rw [← died_ne_nil_iff] at hres
  refine ⟨d, ?_, hcalls, hplay, hno⟩
  unfold Room.prepareRound
  simp only [Room.log_models]
  by_cases hdie : d.filterMap Event.died = []
  · rw [if_neg (fun h => (hres.mp h) hdie), if_pos hdie]
    simp [Room.stateLoop_trace, hd, Room.occupyLoop_trace]
  · rw [if_pos (hres.mpr hdie), if_neg hdie]
    simp [Room.interrupt, Room.stateLoop_trace, hd, Room.occupyLoop_trace]

theorem rulesCall_map_occupy (ms : List Cube) :
    (ms.map Event.occupyNewPos).filterMap Event.rulesCall
      = ms.map (fun m => (RulesOp.occupyNewPos, m)) := by
  induction ms with
  | nil => rfl
  | cons m ms ih => simp [Event.rulesCall, ih]

theorem rulesCall_map_state (ms : List Cube) :
    (ms.map Event.changeState).filterMap Event.rulesCall
      = ms.map (fun m => (RulesOp.changeState, m)) := by
  induction ms with
  | nil => rfl
  | cons m ms ih => simp [Event.rulesCall, ih]

theorem quiet_map_occupy {β : Type} (g : Event → Option β) (hg : ∀ m, g (.occupyNewPos m) = none)
    (ms : List Cube) : (ms.map Event.occupyNewPos).filterMap g = [] := by
  induction ms with
  | nil => rfl
  | cons m ms ih => simp [hg, ih]

theorem quiet_map_state {β : Type} (g : Event → Option β) (hg : ∀ m, g (.changeState m) = none)
    (ms : List Cube) : (ms.map Event.changeState).filterMap g = [] := by
  induction ms with
  | nil => rfl
  | cons m ms ih => simp [hg, ih]

theorem count_eq_zero_of_ne (a : Event) (d : List Event) (h : ∀ e ∈ d, e ≠ a) :
    d.count a = 0 := by
  rw [List.count_eq_zero]
  exact fun hmem => h a hmem rfl

/-! ### Phase by phase, not model by model, when no lookup throws -/

/-- Without a throw of a cue lookup:
in every `prepareRound`, the calls on the models' rules are
`occupyNewPos` on every model in collection order, then `checkDead` on every
model in collection order, then `changeState` on every model in collection
order, and nothing else: each of the three operations is called exactly once
per model, every commit call comes before every death check, and every death
check before every state change. -/
theorem Room.prepareRound_loops (x : Collab W) (r : Room W) :
    (eventsSince r (r.prepareRound x)).filterMap Event.rulesCall
      = r.models.map (fun m => (RulesOp.occupyNewPos, m))
        ++ r.models.map (fun m => (RulesOp.checkDead, m))
        ++ r.models.map (fun m => (RulesOp.changeState, m)) := by
  obtain ⟨d, hd, hcalls, -, -⟩ := Room.prepareRound_parts x r
  rw [eventsSince_append hd]
  simp only [List.filterMap_cons, List.filterMap_append, Event.rulesCall, List.cons_append,
    rulesCall_map_occupy, rulesCall_map_state, hcalls]
  split <;> simp [Event.rulesCall]

/-! ### The exact trace of `fallout` -/

theorem Room.outStep_trace (x : Collab W) (i : Bool) (acc : Bool × Room W) (m : Cube) :
    (Room.outStep x i acc m).2.trace = acc.2.trace ++
      Event.actionOut m (x.actionOut m acc.2.world).1 ::
        (if 0 < (x.actionOut m acc.2.world).1 ∧ i = true then [Event.ensurePhases 3] else []) ∧
    (Room.outStep x i acc m).1 = (acc.1 || decide (0 < (x.actionOut m acc.2.world).1)) := by
  unfold Room.outStep
  by_cases hpos : 0 < (x.actionOut m acc.2.world).1 <;> cases i <;> simp [hpos]

theorem Room.outLoop_parts (x : Collab W) (i : Bool) (ms : List Cube) (acc : Bool × Room W) :
    ∃ d, (ms.foldl (Room.outStep x i) acc).2.trace = acc.2.trace ++ d ∧
      (ms.foldl (Room.outStep x i) acc).1 = (acc.1 || !(d.filterMap Event.exited).isEmpty) ∧
      d.filterMap Event.phasesEnsured
        = (if i = true then (d.filterMap Event.exited).map (fun _ => (3 : Int)) else []) ∧
      (∀ e ∈ d, (∃ m depth, e = Event.actionOut m depth) ∨ e = Event.ensurePhases 3) := by
  induction ms generalizing acc with
  | nil => exact ⟨[], by simp, by simp, by simp, by simp⟩
  | cons m ms ih =>
    rw [List.foldl_cons]
    obtain ⟨d, hd, hres, hens, hcl⟩ := ih (Room.outStep x i acc m)
    obtain ⟨ht, hr⟩ := Room.outStep_trace x i acc m
    refine ⟨Event.actionOut m (x.actionOut m acc.2.world).1 ::
      (if 0 < (x.actionOut m acc.2.world).1 ∧ i = true then [Event.ensurePhases 3] else [])
        ++ d, ?_, ?_, ?_, ?_⟩
    · rw [hd, ht]; simp
    · rw [hres, hr]
      by_cases hpos : 0 < (x.actionOut m acc.2.world).1 <;> cases i <;>
        simp [hpos, Event.exited, List.filterMap_append]
    · by_cases hpos : 0 < (x.actionOut m acc.2.world).1 <;> cases i <;>
        simp [hpos, Event.exited, Event.phasesEnsured, List.filterMap_append, hens]
    · intro e he
      simp only [List.cons_append, List.mem_cons, List.mem_append] at he
      rcases he with rfl | h | h
      · exact Or.inl ⟨_, _, rfl⟩
      · split at h
        · exact Or.inr (List.mem_singleton.mp h)
        · cases h
      · exact hcl e h

theorem exited_ne_nil_iff (d : List Event) :
    d.filterMap Event.exited ≠ [] ↔ ∃ m depth, Event.actionOut m depth ∈ d ∧ 0 < depth := by
  rw [Ne, List.filterMap_eq_nil_iff]
  constructor
  · intro h
    by_contra hc
    apply h
    intro e he
    cases e with
    | actionOut m depth =>
      by_cases hpos : 0 < depth
      · exact False.elim (hc ⟨m, depth, he, hpos⟩)
      · simp [Event.exited, hpos]
    | _ => rfl
  · rintro ⟨m, depth, hm, hpos⟩ h
    have := h _ hm
    simp [Event.exited, hpos] at this

/-- The trace of `fallout` in full: its entry, the exit checks, each followed by
`ensurePhases(3)` when it answered with a positive depth in an interactive call,
and, if a model left, the two calls that interrupt the plan.  It returns whether
a model left. -/
theorem Room.fallout_parts (x : Collab W) (i : Bool) (r : Room W) :
    ∃ d, (r.fallout x i).2.trace = r.trace ++
        (Event.phase .fallout :: d
          ++ (if d.filterMap Event.exited = [] then [] else [.interruptPlan, .checkActive])) ∧
      (r.fallout x i).1 = !(d.filterMap Event.exited).isEmpty ∧
      d.filterMap Event.phasesEnsured
        = (if i = true then (d.filterMap Event.exited).map (fun _ => (3 : Int)) else []) ∧
      (∀ e ∈ d, (∃ m depth, e = Event.actionOut m depth) ∨ e = Event.ensurePhases 3) := by
  obtain ⟨d, hd, hres, hens, hcl⟩ :=
    Room.outLoop_parts x i r.models (false, r.log (.phase .fallout))
  simp only [Bool.false_or] at hres
  refine ⟨d, ?_, ?_, hens, hcl⟩
  · unfold Room.fallout
    simp only [Room.log_models]
    by_cases hex : d.filterMap Event.exited = []
    · have hf : (r.models.foldl (Room.outStep x i) (false, r.log (.phase .fallout))).1 = false := by
        rw [hres, hex]; rfl
      rw [hf, if_pos hex]
      simp [hd]
    · have hf : (r.models.foldl (Room.outStep x i) (false, r.log (.phase .fallout))).1 = true := by
        rw [hres]
        cases hl : d.filterMap Event.exited with
        | nil => exact absurd hl hex
        | cons a l => rfl
      rw [hf, if_neg hex]
      simp [hd, Room.interrupt]
  · unfold Room.fallout
    simp only [Room.log_models]
    split
    · next h => rw [← hres]; exact h.symm ▸ rfl
    · next h =>
      rw [← hres]
      cases hb : (r.models.foldl (Room.outStep x i) (false, r.log (.phase .fallout))).1
      · rfl
      · exact absurd hb h

/-! ### The plan is interrupted on a death and on an exit, when no lookup throws -/

theorem Room.prepareRound_interrupts (x : Collab W) (r : Room W) :
    (eventsSince r (r.prepareRound x)).filterMap Event.playDeadFor
      = (eventsSince r (r.prepareRound x)).filterMap Event.died ∧
    (eventsSince r (r.prepareRound x)).count .interruptPlan
      = (if (eventsSince r (r.prepareRound x)).filterMap Event.died = [] then 0 else 1) ∧
    (eventsSince r (r.prepareRound x)).count .checkActive
      = (if (eventsSince r (r.prepareRound x)).filterMap Event.died = [] then 0 else 1) := by
  obtain ⟨d, hd, -, hplay, hno⟩ := Room.prepareRound_parts x r
  rw [eventsSince_append hd]
  have hdied : (Event.phase .prepareRound :: r.models.map Event.occupyNewPos ++ d
      ++ r.models.map Event.changeState
      ++ (if d.filterMap Event.died = [] then [] else [Event.interruptPlan, Event.checkActive])).filterMap
        Event.died = d.filterMap Event.died := by
    simp only [List.filterMap_cons, List.filterMap_append, List.cons_append, Event.died,
      quiet_map_occupy Event.died (fun _ => rfl), quiet_map_state Event.died (fun _ => rfl)]
    split <;> simp [Event.died]
  have hfor : (Event.phase .prepareRound :: r.models.map Event.occupyNewPos ++ d
      ++ r.models.map Event.changeState
      ++ (if d.filterMap Event.died = [] then [] else [Event.interruptPlan, Event.checkActive])).filterMap
        Event.playDeadFor = d.filterMap Event.playDeadFor := by
    simp only [List.filterMap_cons, List.filterMap_append, List.cons_append, Event.playDeadFor,
      quiet_map_occupy Event.playDeadFor (fun _ => rfl),
      quiet_map_state Event.playDeadFor (fun _ => rfl)]
    split <;> simp [Event.playDeadFor]
  have hc1 : ∀ a : Event, (a = .interruptPlan ∨ a = .checkActive) →
      (r.models.map Event.occupyNewPos).count a = 0 ∧ d.count a = 0 ∧
        (r.models.map Event.changeState).count a = 0 := by
    intro a ha
    refine ⟨?_, ?_, ?_⟩
    · rw [List.count_eq_zero]
      intro hmem
      obtain ⟨m, _, hm⟩ := List.mem_map.mp hmem
      rcases ha with rfl | rfl <;> cases hm
    · apply count_eq_zero_of_ne
      intro e he
      rcases ha with rfl | rfl
      · exact (hno e he).1
      · exact (hno e he).2
    · rw [List.count_eq_zero]
      intro hmem
      obtain ⟨m, _, hm⟩ := List.mem_map.mp hmem
      rcases ha with rfl | rfl <;> cases hm
  rw [hdied, hfor]
  refine ⟨hplay, ?_, ?_⟩
  · obtain ⟨h1, h2, h3⟩ := hc1 .interruptPlan (Or.inl rfl)
    simp only [List.cons_append, List.count_cons, List.count_append, h1, h2, h3]
    split <;> simp
  · obtain ⟨h1, h2, h3⟩ := hc1 .checkActive (Or.inr rfl)
    simp only [List.cons_append, List.count_cons, List.count_append, h1, h2, h3]
    split <;> simp

theorem Room.fallout_interrupts (x : Collab W) (i : Bool) (r : Room W) :
    (eventsSince r (r.fallout x i).2).count .interruptPlan
      = (if (eventsSince r (r.fallout x i).2).filterMap Event.exited = [] then 0 else 1) := by
  obtain ⟨d, hd, -, -, hcl⟩ := Room.fallout_parts x i r
  rw [eventsSince_append hd]
  have hex : (Event.phase .fallout :: d
      ++ (if d.filterMap Event.exited = [] then [] else [Event.interruptPlan, Event.checkActive])).filterMap
        Event.exited = d.filterMap Event.exited := by
    simp only [List.filterMap_cons, List.filterMap_append, List.cons_append, Event.exited]
    split <;> simp [Event.exited]
  have hz : d.count .interruptPlan = 0 := by
    apply count_eq_zero_of_ne
    intro e he
    rcases hcl e he with ⟨m, depth, rfl⟩ | rfl <;> simp
  rw [hex]
  simp only [List.cons_append, List.count_cons, List.count_append, hz]
  split <;> simp

/-- Without a throw of a cue lookup:
`prepareRound` calls the planner's `interruptPlan` and the controls'
`checkActive` exactly once each if some death check of the call answered true,
and not at all otherwise; it starts `playDead` once for each model whose death
check answered true, in order; and `fallout` calls `interruptPlan` exactly once
if some exit check of the call answered with a positive depth, and not at all
otherwise. -/
theorem Room.interrupts_made (x : Collab W) (interactive : Bool) (r : Room W) :
    ((∃ m, Event.checkDead m true ∈ eventsSince r (r.prepareRound x)) →
      (eventsSince r (r.prepareRound x)).count .interruptPlan = 1 ∧
      (eventsSince r (r.prepareRound x)).count .checkActive = 1) ∧
    ((∀ m, Event.checkDead m true ∉ eventsSince r (r.prepareRound x)) →
      (eventsSince r (r.prepareRound x)).count .interruptPlan = 0 ∧
      (eventsSince r (r.prepareRound x)).count .checkActive = 0) ∧
    (eventsSince r (r.prepareRound x)).filterMap Event.playDeadFor
      = (eventsSince r (r.prepareRound x)).filterMap Event.died ∧
    ((∃ m depth, Event.actionOut m depth ∈ eventsSince r (r.fallout x interactive).2 ∧
        0 < depth) →
      (eventsSince r (r.fallout x interactive).2).count .interruptPlan = 1) ∧
    ((∀ m depth, Event.actionOut m depth ∈ eventsSince r (r.fallout x interactive).2 →
        depth ≤ 0) →
      (eventsSince r (r.fallout x interactive).2).count .interruptPlan = 0) := by
  obtain ⟨hplay, hi, hc⟩ := Room.prepareRound_interrupts x r
  have hf := Room.fallout_interrupts x interactive r
  refine ⟨?_, ?_, hplay, ?_, ?_⟩
  · intro h
    have hne := (died_ne_nil_iff _).mpr h
    rw [hi, hc, if_neg hne]
    exact ⟨rfl, rfl⟩
  · intro h
    have hnil : (eventsSince r (r.prepareRound x)).filterMap Event.died = [] := by
      by_contra hne
      obtain ⟨m, hm⟩ := (died_ne_nil_iff _).mp hne
      exact h m hm
    rw [hi, hc, if_pos hnil]
    exact ⟨rfl, rfl⟩
  · intro h
    rw [hf, if_neg ((exited_ne_nil_iff _).mpr h)]
  · intro h
    have hnil : (eventsSince r (r.fallout x interactive).2).filterMap Event.exited = [] := by
      by_contra hne
      obtain ⟨m, depth, hm, hpos⟩ := (exited_ne_nil_iff _).mp hne
      have := h m depth hm
      omega
    rw [hf, if_pos hnil]

/-! ### The sound cues, when no lookup throws -/

/-- Without a throw of a cue lookup:
`playImpact` requests the cue `impact_light` when the impact is `LIGHT`,
`impact_heavy` when it is `HEAVY` and nothing when it is `NONE`, so each cue
exactly for its weight class, and leaves the impact at `NONE`; `playDead`
requests `dead_small` for a model of power `LIGHT`, `dead_big` for power `HEAVY`
and no cue for another power. -/
theorem Room.cues_requested (x : Collab W) (model : Cube) (r : Room W) :
    eventsSince r (r.playImpact x)
      = (match r.impact with
        | .NONE => []
        | .LIGHT => [Event.playSound "impact_light" 50]
        | .HEAVY => [Event.playSound "impact_heavy" 50]) ∧
    ((∃ volume, Event.playSound "impact_light" volume ∈ eventsSince r (r.playImpact x))
      ↔ r.impact = .LIGHT) ∧
    ((∃ volume, Event.playSound "impact_heavy" volume ∈ eventsSince r (r.playImpact x))
      ↔ r.impact = .HEAVY) ∧
    (r.playImpact x).impact = .NONE ∧
    (eventsSince r (r.playDead x model)).filterMap Event.soundCue
      = (match x.getPower model (x.killSound (x.getIndex model r.world) r.world) with
        | .LIGHT => ["dead_small"]
        | .HEAVY => ["dead_big"]
        | .NONE => []) := by
  have himp : eventsSince r (r.playImpact x)
      = (match r.impact with
        | .NONE => []
        | .LIGHT => [Event.playSound "impact_light" 50]
        | .HEAVY => [Event.playSound "impact_heavy" 50]) := by
    unfold Room.playImpact
    cases r.impact <;> simp [eventsSince, Room.playSound]
  refine ⟨himp, ?_, ?_, ?_, ?_⟩
  · rw [himp]
    cases r.impact <;> simp
  · rw [himp]
    cases r.impact <;> simp
  · unfold Room.playImpact
    cases r.impact <;> rfl
  · rw [eventsSince_append (Room.playDead_trace x model r)]
    cases x.getPower model (x.killSound (x.getIndex model r.world) r.world) <;>
      simp [Event.soundCue]

/-! ### C13: the impact of a gravity phase -/

theorem eWeight.lt_def (a b : eWeight) : a < b ↔ a.toNat < b.toNat := Iff.rfl

theorem Room.fallStep_state (x : Collab W) (acc : Bool × Room W) (m : Cube) :
    (Room.fallStep x acc m).2.world = (x.actionFall m acc.2.world).2 ∧
    (Room.fallStep x acc m).2.impact
      = (if (x.actionFall m acc.2.world).1 = .FALL_LAST ∧
            acc.2.impact < x.getWeight m (x.actionFall m acc.2.world).2
          then x.getWeight m (x.actionFall m acc.2.world).2 else acc.2.impact) ∧
    (Room.fallStep x acc m).1
      = (acc.1 || decide ((x.actionFall m acc.2.world).1 = .FALL_NOW)) := by
  unfold Room.fallStep
  cases hf : (x.actionFall m acc.2.world).1 <;>
    by_cases hlt : acc.2.impact < x.getWeight m (x.actionFall m acc.2.world).2 <;>
    simp [hlt, hf]

theorem Room.fallLoop_impact (x : Collab W) (ms : List Cube) (acc : Bool × Room W) :
    acc.2.impact.toNat ≤ (ms.foldl (Room.fallStep x) acc).2.impact.toNat ∧
    (∀ p ∈ landed x ms acc.2.world,
      p.2.toNat ≤ (ms.foldl (Room.fallStep x) acc).2.impact.toNat) ∧
    ((ms.foldl (Room.fallStep x) acc).2.impact = acc.2.impact ∨
      ∃ p ∈ landed x ms acc.2.world, p.2 = (ms.foldl (Room.fallStep x) acc).2.impact) := by
  induction ms generalizing acc with
  | nil => exact ⟨le_refl _, by simp [landed], Or.inl rfl⟩
  | cons m ms ih =>
    rw [List.foldl_cons]
    obtain ⟨h1, h2, h3⟩ := ih (Room.fallStep x acc m)
    obtain ⟨hw, hi, -⟩ := Room.fallStep_state x acc m
    rw [hw] at h2 h3
    by_cases hlast : (x.actionFall m acc.2.world).1 = .FALL_LAST
    · have hl : landed x (m :: ms) acc.2.world
          = (m, x.getWeight m (x.actionFall m acc.2.world).2)
              :: landed x ms (x.actionFall m acc.2.world).2 := by
        simp [landed, hlast]
      rw [hl]
      by_cases hlt : acc.2.impact < x.getWeight m (x.actionFall m acc.2.world).2
      · rw [if_pos ⟨hlast, hlt⟩] at hi
        rw [hi] at h1 h3
        rw [eWeight.lt_def] at hlt
        refine ⟨by omega, ?_, ?_⟩
        · intro p hp
          rcases List.mem_cons.mp hp with rfl | hp
          · exact h1
          · exact h2 p hp
        · rcases h3 with h | ⟨p, hp, hpe⟩
          · exact Or.inr ⟨_, List.mem_cons_self _ _, h.symm⟩
          · exact Or.inr ⟨p, List.mem_cons_of_mem _ hp, hpe⟩
      · rw [if_neg (fun h => hlt h.2)] at hi
        rw [hi] at h1 h3
        rw [eWeight.lt_def] at hlt
        refine ⟨h1, ?_, ?_⟩
        · intro p hp
          rcases List.mem_cons.mp hp with rfl | hp
          · simp only; omega
          · exact h2 p hp
        · rcases h3 with h | ⟨p, hp, hpe⟩
          · exact Or.inl h
          · exact Or.inr ⟨p, List.mem_cons_of_mem _ hp, hpe⟩
    · have hl : landed x (m :: ms) acc.2.world = landed x ms (x.actionFall m acc.2.world).2 := by
        simp [landed, hlast]
      rw [hl]
      rw [if_neg (fun h => hlast h.1)] at hi
      rw [hi] at h1 h3
      exact ⟨h1, h2, h3⟩

theorem Room.fallLoop_parts (x : Collab W) (ms : List Cube) (acc : Bool × Room W) :
    ∃ d, (ms.foldl (Room.fallStep x) acc).2.trace = acc.2.trace ++ d ∧
      (ms.foldl (Room.fallStep x) acc).1 = (acc.1 || !(d.filterMap Event.fallingNow).isEmpty) ∧
      d.filterMap Event.landedModel = (landed x ms acc.2.world).map Prod.fst := by
  induction ms generalizing acc with
  | nil => exact ⟨[], by simp, by simp, rfl⟩
  | cons m ms ih =>
    rw [List.foldl_cons]
    obtain ⟨d, hd, hres, hland⟩ := ih (Room.fallStep x acc m)
    obtain ⟨d0, hd0, hw⟩ := Room.fallStep_trace x acc m
    obtain ⟨hworld, -, hflag⟩ := Room.fallStep_state x acc m
    rw [hworld] at hland
    have h0 : d0.filterMap Event.fallingNow = [] :=
      filterMap_eq_nil_of _ (fun e => ∃ weight, e = Event.getWeight m weight) d0 hw
        (by rintro e ⟨weight, rfl⟩; rfl)
    have h1 : d0.filterMap Event.landedModel = [] :=
      filterMap_eq_nil_of _ (fun e => ∃ weight, e = Event.getWeight m weight) d0 hw
        (by rintro e ⟨weight, rfl⟩; rfl)
    refine ⟨Event.actionFall m (x.actionFall m acc.2.world).1 :: d0 ++ d, ?_, ?_, ?_⟩
    · rw [hd, hd0]; simp
    · rw [hres, hflag]
      cases hf : (x.actionFall m acc.2.world).1 <;>
        simp [List.filterMap_append, Event.fallingNow, h0]
    · cases hf : (x.actionFall m acc.2.world).1 <;>
        simp [List.filterMap_append, Event.landedModel, h1, hland, landed, hf]

/-- The trace of `falldown` with what it decides: it returns whether some fall
check answered `FALL_NOW`, and the fall checks that answered `FALL_LAST` are
those of the landed models. -/
theorem Room.falldown_parts (x : Collab W) (r : Room W) :
    ∃ d, (r.falldown x).2.trace = r.trace ++ Event.phase .falldown :: d ∧
      (r.falldown x).1 = !(d.filterMap Event.fallingNow).isEmpty ∧
      d.filterMap Event.landedModel = (landed x r.models r.world).map Prod.fst := by
  obtain ⟨d, hd, hres, hland⟩ := Room.fallLoop_parts x r.models
    (false, { r.log (.phase .falldown) with impact := .NONE })
  exact ⟨d, by simpa [Room.falldown] using hd, by simpa [Room.falldown] using hres,
    by simpa using hland⟩

/-- C13: after every `falldown`, whatever the impact was before, the impact is
the greatest weight class among the landed models, the models whose fall check
answered `FALL_LAST` in this phase: it is at least the weight of each of them,
and it is `NONE` or the weight of one of them.  So it is `NONE` when no model
landed and when every landed model has weight `NONE`; models whose fall check
answered `NONE` or `FALL_NOW` are not among the landed ones. -/
theorem falldown_impact_is_max (x : Collab W) (r : Room W) :
    (∀ p ∈ landed x r.models r.world, p.2.toNat ≤ (r.falldown x).2.impact.toNat) ∧
    ((r.falldown x).2.impact = .NONE ∨
      ∃ p ∈ landed x r.models r.world, p.2 = (r.falldown x).2.impact) ∧
    (landed x r.models r.world = [] → (r.falldown x).2.impact = .NONE) ∧
    ((∀ p ∈ landed x r.models r.world, p.2 = .NONE) → (r.falldown x).2.impact = .NONE) ∧
    (eventsSince r (r.falldown x).2).filterMap Event.landedModel
      = (landed x r.models r.world).map Prod.fst := by
  obtain ⟨-, h2, h3⟩ := Room.fallLoop_impact x r.models
    (false, { r.log (.phase .falldown) with impact := .NONE })
  have h2' : ∀ p ∈ landed x r.models r.world, p.2.toNat ≤ (r.falldown x).2.impact.toNat := h2
  have h3' : (r.falldown x).2.impact = .NONE ∨
      ∃ p ∈ landed x r.models r.world, p.2 = (r.falldown x).2.impact := h3
  obtain ⟨d, hd, -, hland⟩ := Room.falldown_parts x r
  refine ⟨h2', h3', ?_, ?_, ?_⟩
  · intro hnil
    rcases h3' with h | ⟨p, hp, _⟩
    · exact h
    · rw [hnil] at hp; cases hp
  · intro hall
    rcases h3' with h | ⟨p, hp, hpe⟩
    · exact h
    · rw [← hpe]; exact hall p hp
  · rw [eventsSince_append hd]
    simpa [Event.landedModel] using hland

/-- C13 in the example room whose model lands: the model lands with weight
`HEAVY`, and the impact after the phase is at least that. -/
theorem falldown_impact_is_max_witness :
    landed toy landingRoom.models landingRoom.world = [(4, .HEAVY)] ∧
    eWeight.HEAVY.toNat ≤ (landingRoom.falldown toy).2.impact.toNat :=
  ⟨by decide, (falldown_impact_is_max toy landingRoom).1 (4, .HEAVY) (by decide)⟩

/-! ### The events of `beginFall`, phase by phase -/

theorem eventsSince_trans {a b c : Room W} {d1 d2 : List Event}
    (h1 : b.trace = a.trace ++ d1) (h2 : c.trace = b.trace ++ d2) :
    eventsSince a c = eventsSince a b ++ eventsSince b c := by
  rw [eventsSince_append h1, eventsSince_append h2,
    eventsSince_append (show c.trace = a.trace ++ (d1 ++ d2) by rw [h2, h1, List.append_assoc])]

theorem eventsSince_congr (r : Room W) {s t : Room W} (h : s.trace = t.trace) :
    eventsSince r s = eventsSince r t := by
  simp [eventsSince, h]

theorem eventsSince_self (r : Room W) : eventsSince r r = [] := by
  simp [eventsSince]

theorem filterMap_piece {β : Type} (g : Event → Option β) (P : Event → Prop) {r s : Room W}
    {p : Phase} {d : List Event} (hd : s.trace = r.trace ++ Event.phase p :: d)
    (hP : ∀ e ∈ d, P e) (hg : ∀ e, P e → g e = none) :
    (eventsSince r s).filterMap g = (g (.phase p)).toList := by
  rw [eventsSince_append hd, List.filterMap_cons]
  have := filterMap_eq_nil_of g P d hP hg
  cases hp : g (.phase p) <;> simp [this]

/-- The answer and the events of `beginFall`, split into its phases. -/
theorem Room.beginFall_events (x : Collab W) (i : Bool) (r : Room W) :
    (r.beginFall x i).1
      = (if (r.afterFallout x i).1 then true else (r.afterFalldown x i).1) ∧
    eventsSince r (r.beginFall x i).2
      = eventsSince r (r.afterPrepare x)
        ++ eventsSince (r.afterPrepare x) (r.afterFallout x i).2
        ++ (if (r.afterFallout x i).1 then [] else
            eventsSince (r.afterFallout x i).2 (r.afterFalldown x i).2
            ++ (if i then
                eventsSince (r.afterFalldown x i).2 ((r.afterFalldown x i).2.playImpact x)
              else [])) := by
  obtain ⟨dp, hp, -⟩ := Room.prepareRound_trace x { r with fresh := true }
  obtain ⟨df, hf, -⟩ := Room.fallout_trace x i (r.afterPrepare x)
  obtain ⟨dg, hg, -⟩ := Room.falldown_trace x (r.afterFallout x i).2
  obtain ⟨di, hi, -⟩ := Room.playImpact_emits x (r.afterFalldown x i).2
  have hp' : (r.afterPrepare x).trace = r.trace ++ Event.phase .prepareRound :: dp := hp
  have hf' : (r.afterFallout x i).2.trace
      = (r.afterPrepare x).trace ++ Event.phase .fallout :: df := hf
  have hg' : (r.afterFalldown x i).2.trace
      = (r.afterFallout x i).2.trace ++ Event.phase .falldown :: dg := hg
  have hpf := eventsSince_trans hp' hf'
  by_cases hout : (r.afterFallout x i).1 = true
  · have hb : r.beginFall x i = (true, { (r.afterFallout x i).2 with fresh := false }) := by
      unfold Room.beginFall
      exact if_pos hout
    rw [hb, if_pos hout, if_pos hout]
    refine ⟨rfl, ?_⟩
    rw [eventsSince_congr r (show ({ (r.afterFallout x i).2 with fresh := false } : Room W).trace
      = (r.afterFallout x i).2.trace from rfl), hpf]
    simp
  · have hb : r.beginFall x i = ((r.afterFalldown x i).1,
        { (if i then (r.afterFalldown x i).2.playImpact x else (r.afterFalldown x i).2) with
          fresh := !(r.afterFalldown x i).1 }) := by
      unfold Room.beginFall
      exact if_neg hout
    rw [hb, if_neg hout, if_neg hout]
    refine ⟨rfl, ?_⟩
    have hpg : (r.afterFalldown x i).2.trace
        = r.trace ++ (Event.phase .prepareRound :: dp ++ Event.phase .fallout :: df
            ++ Event.phase .falldown :: dg) := by
      rw [hg', hf', hp']; simp
    cases i
    · rw [eventsSince_congr r (show ({ (if false then (r.afterFalldown x false).2.playImpact x
          else (r.afterFalldown x false).2) with
          fresh := !(r.afterFalldown x false).1 } : Room W).trace
          = (r.afterFalldown x false).2.trace from rfl)]
      rw [eventsSince_trans (show (r.afterFallout x false).2.trace = r.trace ++ _ by
        rw [hf', hp', List.append_assoc]) hg', hpf]
      simp
    · rw [eventsSince_congr r (show ({ (if true then (r.afterFalldown x true).2.playImpact x
          else (r.afterFalldown x true).2) with
          fresh := !(r.afterFalldown x true).1 } : Room W).trace
          = ((r.afterFalldown x true).2.playImpact x).trace from rfl)]
      rw [eventsSince_trans hpg hi,
        eventsSince_trans (show (r.afterFallout x true).2.trace = r.trace ++ _ by
          rw [hf', hp', List.append_assoc]) hg', hpf]
      simp

theorem Event.inPrepare_quiet (e : Event) (h : e.inPrepare) :
    e.exited = none ∧ e.fallingNow = none ∧ e.phasesEnsured = none ∧
      e.phaseEntered = none ∧ e.finishCalled = none := by
  cases e <;> first
    | exact False.elim h
    | exact ⟨rfl, rfl, rfl, rfl, rfl⟩

theorem Event.inFalldown_quiet (e : Event) (h : e.inFalldown) :
    e.exited = none ∧ e.phasesEnsured = none ∧ e.phaseEntered = none ∧
      e.finishCalled = none ∧ e.soundCue = none := by
  cases e <;> first
    | exact False.elim h
    | exact ⟨rfl, rfl, rfl, rfl, rfl⟩

theorem Event.inImpact_quiet (e : Event) (h : e.inImpact) :
    e.exited = none ∧ e.fallingNow = none ∧ e.phasesEnsured = none ∧
      e.phaseEntered = none ∧ e.finishCalled = none := by
  cases e <;> first
    | exact False.elim h
    | exact ⟨rfl, rfl, rfl, rfl, rfl⟩

/-- What `fallout` decides, read off its events: it returns whether a model
left, and in an interactive call it requests three phases once for each model
that left, and none otherwise. -/
theorem Room.fallout_observed (x : Collab W) (i : Bool) (r : Room W) :
    (r.fallout x i).1 = !((eventsSince r (r.fallout x i).2).filterMap Event.exited).isEmpty ∧
    (eventsSince r (r.fallout x i).2).filterMap Event.phasesEnsured
      = (if i = true then
          ((eventsSince r (r.fallout x i).2).filterMap Event.exited).map (fun _ => (3 : Int))
        else []) ∧
    (eventsSince r (r.fallout x i).2).filterMap Event.phaseEntered = [.fallout] ∧
    (eventsSince r (r.fallout x i).2).filterMap Event.fallingNow = [] ∧
    (eventsSince r (r.fallout x i).2).filterMap Event.finishCalled = [] ∧
    (eventsSince r (r.fallout x i).2).filterMap Event.soundCue = [] := by
  obtain ⟨d, hd, hres, hens, hcl⟩ := Room.fallout_parts x i r
  have hq : ∀ {β : Type} (g : Event → Option β),
      (∀ m depth, g (.actionOut m depth) = none) → g (.ensurePhases 3) = none →
      d.filterMap g = [] := by
    intro β g h1 h2
    apply filterMap_eq_nil_of g _ d hcl
    rintro e (⟨m, depth, rfl⟩ | rfl)
    · exact h1 m depth
    · exact h2
  have hex : (Event.phase .fallout :: d
      ++ (if d.filterMap Event.exited = [] then []
          else [Event.interruptPlan, Event.checkActive])).filterMap Event.exited
        = d.filterMap Event.exited := by
    simp only [List.filterMap_cons, List.filterMap_append, List.cons_append, Event.exited]
    split <;> simp [Event.exited]
  have hen : (Event.phase .fallout :: d
      ++ (if d.filterMap Event.exited = [] then []
          else [Event.interruptPlan, Event.checkActive])).filterMap Event.phasesEnsured
        = d.filterMap Event.phasesEnsured := by
    simp only [List.filterMap_cons, List.filterMap_append, List.cons_append, Event.phasesEnsured]
    split <;> simp [Event.phasesEnsured]
  rw [eventsSince_append hd, hex, hen]
  refine ⟨hres, hens, ?_, ?_, ?_, ?_⟩
  · simp only [List.filterMap_cons, List.filterMap_append, List.cons_append, Event.phaseEntered,
      hq Event.phaseEntered (fun _ _ => rfl) rfl]
    split <;> simp [Event.phaseEntered]
  · simp only [List.filterMap_cons, List.filterMap_append, List.cons_append, Event.fallingNow,
      hq Event.fallingNow (fun _ _ => rfl) rfl]
    split <;> simp [Event.fallingNow]
  · simp only [List.filterMap_cons, List.filterMap_append, List.cons_append, Event.finishCalled,
      hq Event.finishCalled (fun _ _ => rfl) rfl]
    split <;> simp [Event.finishCalled]
  · simp only [List.filterMap_cons, List.filterMap_append, List.cons_append, Event.soundCue,
      hq Event.soundCue (fun _ _ => rfl) rfl]
    split <;> simp [Event.soundCue]

/-- What `falldown` decides, read off its events: it returns whether some fall
check answered `FALL_NOW`. -/
theorem Room.falldown_observed (x : Collab W) (r : Room W) :
    (r.falldown x).1
      = !((eventsSince r (r.falldown x).2).filterMap Event.fallingNow).isEmpty := by
  obtain ⟨d, hd, hres, -⟩ := Room.falldown_parts x r
  rw [eventsSince_append hd, hres]
  simp [Event.fallingNow]

/-- What `beginFall` decides, read off its events: it returns whether an exit
check answered with a positive depth or a fall check answered `FALL_NOW`; fall
checks are made only when no model left; three phases are requested in an
interactive call once for each model that left and never otherwise; the phases
entered are `prepareRound`, `fallout` and, when no model left, `falldown`; and
no model's rules are asked to finish the round. -/
theorem Room.beginFall_observed (x : Collab W) (i : Bool) (r : Room W) :
    (r.beginFall x i).1
      = (!((eventsSince r (r.beginFall x i).2).filterMap Event.exited).isEmpty ||
          !((eventsSince r (r.beginFall x i).2).filterMap Event.fallingNow).isEmpty) ∧
    (eventsSince r (r.beginFall x i).2).filterMap Event.phasesEnsured
      = (if i = true then
          ((eventsSince r (r.beginFall x i).2).filterMap Event.exited).map (fun _ => (3 : Int))
        else []) ∧
    (eventsSince r (r.beginFall x i).2).filterMap Event.phaseEntered
      = [.prepareRound, .fallout]
        ++ (if (eventsSince r (r.beginFall x i).2).filterMap Event.exited = [] then [.falldown]
            else []) ∧
    (eventsSince r (r.beginFall x i).2).filterMap Event.finishCalled = [] := by
  obtain ⟨hres, hev⟩ := Room.beginFall_events x i r
  obtain ⟨dp, hp, hP⟩ := Room.prepareRound_trace x { r with fresh := true }
  have hp' : (r.afterPrepare x).trace = r.trace ++ Event.phase .prepareRound :: dp := hp
  obtain ⟨dg, hg, hG, -⟩ := Room.falldown_trace x (r.afterFallout x i).2
  have hg' : (r.afterFalldown x i).2.trace
      = (r.afterFallout x i).2.trace ++ Event.phase .falldown :: dg := hg
  obtain ⟨di, hi, hI⟩ := Room.playImpact_emits x (r.afterFalldown x i).2
  obtain ⟨fo1, fo2, fo3, fo4, fo5, -⟩ := Room.fallout_observed x i (r.afterPrepare x)
  have gd := Room.falldown_observed x (r.afterFallout x i).2
  -- the pieces, observer by observer
  have p1 := filterMap_piece Event.exited _ hp' hP (fun e h => (e.inPrepare_quiet h).1)
  have p2 := filterMap_piece Event.fallingNow _ hp' hP (fun e h => (e.inPrepare_quiet h).2.1)
  have p3 := filterMap_piece Event.phasesEnsured _ hp' hP (fun e h => (e.inPrepare_quiet h).2.2.1)
  have p4 := filterMap_piece Event.phaseEntered _ hp' hP (fun e h => (e.inPrepare_quiet h).2.2.2.1)
  have p5 := filterMap_piece Event.finishCalled _ hp' hP (fun e h => (e.inPrepare_quiet h).2.2.2.2)
  have g1 := filterMap_piece Event.exited _ hg' hG (fun e h => (e.inFalldown_quiet h).1)
  have g3 := filterMap_piece Event.phasesEnsured _ hg' hG (fun e h => (e.inFalldown_quiet h).2.1)
  have g4 := filterMap_piece Event.phaseEntered _ hg' hG (fun e h => (e.inFalldown_quiet h).2.2.1)
  have g5 := filterMap_piece Event.finishCalled _ hg' hG (fun e h => (e.inFalldown_quiet h).2.2.2.1)
  have hie := eventsSince_append hi
  have i1 := filterMap_eq_nil_of Event.exited _ di hI (fun e h => (e.inImpact_quiet h).1)
  have i2 := filterMap_eq_nil_of Event.fallingNow _ di hI (fun e h => (e.inImpact_quiet h).2.1)
  have i3 := filterMap_eq_nil_of Event.phasesEnsured _ di hI (fun e h => (e.inImpact_quiet h).2.2.1)
  have i4 := filterMap_eq_nil_of Event.phaseEntered _ di hI
    (fun e h => (e.inImpact_quiet h).2.2.2.1)
  have i5 := filterMap_eq_nil_of Event.finishCalled _ di hI
    (fun e h => (e.inImpact_quiet h).2.2.2.2)
  simp only [Event.exited, Event.fallingNow, Event.phasesEnsured, Event.phaseEntered,
    Event.finishCalled, Option.toList] at p1 p2 p3 p4 p5 g1 g3 g4 g5
  have afo : (r.afterFallout x i) = (r.afterPrepare x).fallout x i := rfl
  have afd : (r.afterFalldown x i) = (r.afterFallout x i).2.falldown x := rfl
  rw [← afo] at fo1 fo2 fo3 fo4 fo5
  rw [← afd] at gd
  rw [hres, hev]
  cases hout : (r.afterFallout x i).1
  · have hnil : (eventsSince (r.afterPrepare x) (r.afterFallout x i).2).filterMap Event.exited
        = [] := by
      rw [hout] at fo1
      cases hl : (eventsSince (r.afterPrepare x) (r.afterFallout x i).2).filterMap Event.exited
      · rfl
      · rw [hl] at fo1; cases fo1
    rw [hnil] at fo2
    cases i <;>
      simp [List.filterMap_append, p1, p2, p3, p4, p5, g1, g3, g4, g5, hie, i1, i2, i3, i4, i5,
        fo2, fo3, fo4, fo5, hnil, gd]
  · have hne : (eventsSince (r.afterPrepare x) (r.afterFallout x i).2).filterMap Event.exited
        ≠ [] := by
      intro hl
      rw [hout, hl] at fo1
      cases fo1
    have hemp : ((eventsSince (r.afterPrepare x) (r.afterFallout x i).2).filterMap
        Event.exited).isEmpty = false := by
      cases hl : (eventsSince (r.afterPrepare x) (r.afterFallout x i).2).filterMap Event.exited
      · exact absurd hl hne
      · rfl
    simp [List.filterMap_append, p1, p2, p3, p4, p5, fo2, fo3, fo4, fo5, hne, hemp]

theorem Room.playDead_cues (x : Collab W) (m : Cube) (r : Room W) :
    Emits Event.deadCueOnly r (r.playDead x m) := by
  refine ⟨_, Room.playDead_trace x m r, ?_⟩
  intro e he name volume hname
  subst hname
  cases hp : x.getPower m (x.killSound (x.getIndex m r.world) r.world) <;>
    simp [hp] at he
  · exact Or.inl he.1
  · exact Or.inr he.1

theorem Room.deadStep_cues (x : Collab W) (acc : Bool × Room W) (m : Cube) :
    Emits Event.deadCueOnly acc.2 (Room.deadStep x acc m).2 := by
  unfold Room.deadStep
  simp only []
  split
  · exact (Emits.call _ _ _ (by intro _ _ h; cases h)).trans (Room.playDead_cues x m _)
  · exact Emits.call _ _ _ (by intro _ _ h; cases h)

/-- The only sound cues that `prepareRound` requests are the two death cues. -/
theorem Room.prepareRound_cues (x : Collab W) (r : Room W) :
    Emits Event.deadCueOnly r (r.prepareRound x) := by
  have h0 : Emits Event.deadCueOnly r (r.log (.phase .prepareRound)) :=
    Emits.log _ _ (by intro _ _ h; cases h)
  have h1 := foldl_emits Event.deadCueOnly (Room.occupyStep x)
    (fun s m => Emits.call s _ _ (by intro _ _ h; cases h)) r.models
    (r.log (.phase .prepareRound))
  have h2 := foldl_emits_pair Event.deadCueOnly (Room.deadStep x) (Room.deadStep_cues x)
    r.models (false, r.models.foldl (Room.occupyStep x) (r.log (.phase .prepareRound)))
  have h3 := foldl_emits Event.deadCueOnly (Room.stateStep x)
    (fun s m => Emits.call s _ _ (by intro _ _ h; cases h)) r.models
    (r.models.foldl (Room.deadStep x)
      (false, r.models.foldl (Room.occupyStep x) (r.log (.phase .prepareRound)))).2
  unfold Room.prepareRound
  simp only [Room.log_models]
  split
  · exact (((h0.trans h1).trans h2).trans h3).trans
      (Room.interrupt_emits _ ⟨(by intro _ _ h; cases h), (by intro _ _ h; cases h)⟩ x _)
  · exact ((h0.trans h1).trans h2).trans h3

theorem fallingNow_ne_nil_iff (d : List Event) :
    d.filterMap Event.fallingNow ≠ [] ↔ ∃ m, Event.actionFall m .FALL_NOW ∈ d := by
  rw [Ne, List.filterMap_eq_nil_iff]
  constructor
  · intro h
    by_contra hc
    apply h
    intro e he
    cases e with
    | actionFall m fall =>
      cases fall
      · rfl
      · exact False.elim (hc ⟨m, he⟩)
      · rfl
    | _ => rfl
  · rintro ⟨m, hm⟩ h
    have := h _ hm
    simp [Event.fallingNow] at this

theorem isEmpty_eq_false_iff {α : Type} (l : List α) : (!l.isEmpty) = true ↔ l ≠ [] := by
  cases l <;> simp

/-! ### C16: what `beginFall` returns -/

/-- C16, as stated, fails: in the example room the model lands, its fall check
answers `FALL_LAST`, and `beginFall` returns false. -/
theorem beginFall_false_on_landing :
    Event.actionFall 4 .FALL_LAST ∈ eventsSince landingRoom (landingRoom.beginFall toy false).2 ∧
    (landingRoom.beginFall toy false).1 = false := by
  decide

/-- Without a throw of a cue lookup:
`beginFall` returns true if and only if at least one exit
check answered with a positive depth or at least one fall check answered
`FALL_NOW`; it returns false exactly when no exit check answered with a positive
depth and no fall check answered `FALL_NOW`, that is, every fall check answered
`NONE` or `FALL_LAST`. -/
theorem Room.beginFall_answer (x : Collab W) (interactive : Bool) (r : Room W) :
    ((r.beginFall x interactive).1 = true ↔
      (∃ m depth, Event.actionOut m depth ∈ eventsSince r (r.beginFall x interactive).2 ∧
        0 < depth) ∨
      ∃ m, Event.actionFall m .FALL_NOW ∈ eventsSince r (r.beginFall x interactive).2) ∧
    ((r.beginFall x interactive).1 = false ↔
      (∀ m depth, Event.actionOut m depth ∈ eventsSince r (r.beginFall x interactive).2 →
        depth ≤ 0) ∧
      ∀ m fall, Event.actionFall m fall ∈ eventsSince r (r.beginFall x interactive).2 →
        fall = .NONE ∨ fall = .FALL_LAST) := by
  obtain ⟨hres, -, -, -⟩ := Room.beginFall_observed x interactive r
  have htrue : (r.beginFall x interactive).1 = true ↔
      (∃ m depth, Event.actionOut m depth ∈ eventsSince r (r.beginFall x interactive).2 ∧
        0 < depth) ∨
      ∃ m, Event.actionFall m .FALL_NOW ∈ eventsSince r (r.beginFall x interactive).2 := by
    rw [hres, Bool.or_eq_true, isEmpty_eq_false_iff, isEmpty_eq_false_iff, exited_ne_nil_iff,
      fallingNow_ne_nil_iff]
  refine ⟨htrue, ?_⟩
  rw [← Bool.not_eq_true, htrue]
  constructor
  · intro h
    refine ⟨fun m depth hm => ?_, fun m fall hm => ?_⟩
    · by_contra hc
      exact h (Or.inl ⟨m, depth, hm, by omega⟩)
    · cases fall
      · exact Or.inl rfl
      · exact False.elim (h (Or.inr ⟨m, hm⟩))
      · exact Or.inr rfl
  · rintro ⟨h1, h2⟩ (⟨m, depth, hm, hpos⟩ | ⟨m, hm⟩)
    · have := h1 m depth hm
      omega
    · rcases h2 m _ hm with h | h <;> cases h

/-! ### C17: phase-lock requests of `beginFall` -/

/-- C17, as stated, fails: in the example room the models are in mid-fall, the
interactive `beginFall` observes the fall and returns true, and no
`ensurePhases` call is made. -/
theorem beginFall_fall_requests_no_phases :
    Event.actionFall 4 .FALL_NOW ∈ eventsSince toyRoom (toyRoom.beginFall toy true).2 ∧
    (toyRoom.beginFall toy true).1 = true ∧
    (eventsSince toyRoom (toyRoom.beginFall toy true).2).filterMap Event.phasesEnsured = [] := by
  decide

theorem ensured_ne_nil_iff (d : List Event) :
    d.filterMap Event.phasesEnsured ≠ [] ↔ ∃ count, Event.ensurePhases count ∈ d := by
  rw [Ne, List.filterMap_eq_nil_iff]
  constructor
  · intro h
    by_contra hc
    apply h
    intro e he
    cases e with
    | ensurePhases count => exact False.elim (hc ⟨count, he⟩)
    | _ => rfl
  · rintro ⟨count, hm⟩ h
    have := h _ hm
    simp [Event.phasesEnsured] at this

/-- A `beginFall` that is not interactive requests no sound cue but the death cues. -/
theorem Room.beginFall_quiet_cues (x : Collab W) (r : Room W) :
    ∀ e ∈ eventsSince r (r.beginFall x false).2, e.deadCueOnly := by
  obtain ⟨-, hev⟩ := Room.beginFall_events x false r
  have hP : ∀ e ∈ eventsSince r (r.afterPrepare x), e.deadCueOnly :=
    (Room.prepareRound_cues x { r with fresh := true }).since
  obtain ⟨df, hf, hF, -⟩ := Room.fallout_trace x false (r.afterPrepare x)
  obtain ⟨dg, hg, hG, -⟩ := Room.falldown_trace x (r.afterFallout x false).2
  have hF' : ∀ e ∈ eventsSince (r.afterPrepare x) (r.afterFallout x false).2, e.deadCueOnly := by
    rw [show eventsSince (r.afterPrepare x) (r.afterFallout x false).2 = _ from
      eventsSince_append hf]
    intro e he name volume hname
    subst hname
    rcases List.mem_cons.mp he with h | h
    · cases h
    · exact False.elim (hF _ h)
  have hG' : ∀ e ∈ eventsSince (r.afterFallout x false).2 (r.afterFalldown x false).2,
      e.deadCueOnly := by
    rw [show eventsSince (r.afterFallout x false).2 (r.afterFalldown x false).2 = _ from
      eventsSince_append hg]
    intro e he name volume hname
    subst hname
    rcases List.mem_cons.mp he with h | h
    · cases h
    · exact False.elim (hG _ h)
  intro e he
  rw [hev] at he
  rcases List.mem_append.mp he with h | h
  · rcases List.mem_append.mp h with h | h
    · exact hP e h
    · exact hF' e h
  · split at h
    · cases h
    · simp only [Bool.false_eq_true, if_false, List.append_nil] at h
      exact hG' e h

/-- C17, amended: `beginFall(interactive)` calls `ensurePhases` if and only if
`interactive` is true and some exit check of the call answered with a positive
depth; it then requests three phases once for each model that left.  A fall
alone makes the room request nothing.  With `interactive` false it never calls
`ensurePhases` and never requests an impact cue. -/
theorem beginFall_phase_lock (x : Collab W) (interactive : Bool) (r : Room W) :
    ((∃ count, Event.ensurePhases count ∈ eventsSince r (r.beginFall x interactive).2) ↔
      interactive = true ∧
      ∃ m depth, Event.actionOut m depth ∈ eventsSince r (r.beginFall x interactive).2 ∧
        0 < depth) ∧
    (eventsSince r (r.beginFall x interactive).2).filterMap Event.phasesEnsured
      = (if interactive = true then
          ((eventsSince r (r.beginFall x interactive).2).filterMap Event.exited).map
            (fun _ => (3 : Int))
        else []) ∧
    ((∀ count, Event.ensurePhases count ∉ eventsSince r (r.beginFall x false).2) ∧
      ∀ volume, Event.playSound "impact_light" volume ∉ eventsSince r (r.beginFall x false).2 ∧
        Event.playSound "impact_heavy" volume ∉ eventsSince r (r.beginFall x false).2) := by
  obtain ⟨-, hens, -, -⟩ := Room.beginFall_observed x interactive r
  obtain ⟨-, hens0, -, -⟩ := Room.beginFall_observed x false r
  refine ⟨?_, hens, ?_, ?_⟩
  · rw [← ensured_ne_nil_iff, ← exited_ne_nil_iff, hens]
    cases interactive
    · simp
    · simp
  · intro count hmem
    have hne := (ensured_ne_nil_iff _).mpr ⟨count, hmem⟩
    rw [hens0] at hne
    exact hne rfl
  · intro volume
    constructor
    · intro hmem
      rcases Room.beginFall_quiet_cues x r _ hmem _ _ rfl with h | h <;> exact absurd h (by decide)
    · intro hmem
      rcases Room.beginFall_quiet_cues x r _ hmem _ _ rfl with h | h <;> exact absurd h (by decide)

/-- C17, amended, in the example room in which a model leaves: the interactive
`beginFall` requests three phases once. -/
theorem beginFall_phase_lock_witness :
    (∃ count, Event.ensurePhases count ∈ eventsSince exitRoom (exitRoom.beginFall toy true).2) ∧
    (eventsSince exitRoom (exitRoom.beginFall toy true).2).filterMap Event.phasesEnsured = [3] :=
  ⟨(beginFall_phase_lock toy true exitRoom).1.mpr ⟨rfl, 100, 1, by decide, by decide⟩,
   (beginFall_phase_lock toy true exitRoom).2.1.trans (by decide)⟩

/-! ### C20: the fresh flag between rounds -/

/-- C15 on the code: in the example room the death check of model 7 answers
true in the round that `loadMove('u')` runs, and `loadMove`, which returns,
has requested the cue `dead_small` on the way, through `prepareRound` and
`playDead`. -/
theorem loadMove_plays_dead_sound :
    (∃ b, deadRoom.loadMove toyDeath 1 'u' = .ok b (deadRoom.loadMove toyDeath 1 'u').room) ∧
    Event.checkDead 7 true ∈ eventsSince deadRoom (deadRoom.loadMove toyDeath 1 'u').room ∧
    Event.playSound "dead_small" 100
      ∈ eventsSince deadRoom (deadRoom.loadMove toyDeath 1 'u').room :=
  ⟨⟨false, by decide⟩, by decide, by decide⟩

/-! ### C11: rounds per invocation -/

theorem Room.finishCalls_of_trace {r s : Room W} {d : List Event}
    (h : s.trace = r.trace ++ d) :
    s.finishCalls = r.finishCalls ++ d.filterMap Event.finishCalled := by
  simp [Room.finishCalls, h, List.filterMap_append]

theorem Room.finishLoop_calls (x : Collab W) (ms : List Cube) (acc : Bool × Room W) :
    (ms.foldl (Room.finishStep x) acc).2.finishCalls = acc.2.finishCalls ++ ms := by
  induction ms generalizing acc with
  | nil => simp
  | cons m ms ih =>
    rw [List.foldl_cons, ih]
    simp [Room.finishStep, Room.finishCalls, List.filterMap_append, Event.finishCalled]

theorem Room.finishRound_calls (x : Collab W) (i : Bool) (r : Room W) :
    (r.finishRound x i).2.finishCalls = r.finishCalls ++ r.models := by
  unfold Room.finishRound
  simp only []
  have h : ∀ s : Room W, ({ s with fresh := false } : Room W).finishCalls = s.finishCalls :=
    fun _ => rfl
  rw [h, Room.finishLoop_calls]
  cases i <;>
    simp [Room.finishCalls, List.filterMap_append, Event.finishCalled]

theorem Room.beginFall_calls (x : Collab W) (i : Bool) (r : Room W) :
    (r.beginFall x i).2.finishCalls = r.finishCalls := by
  obtain ⟨d, hd, -⟩ := Room.beginFall_trace x i r
  obtain ⟨-, -, -, hfin⟩ := Room.beginFall_observed x i r
  rw [eventsSince_append hd] at hfin
  rw [Room.finishCalls_of_trace hd, hfin, List.append_nil]

theorem flatten_replicate_succ_right {α : Type} (k : Nat) (l : List α) :
    (List.replicate (k + 1) l).flatten = (List.replicate k l).flatten ++ l := by
  induction k with
  | zero => simp
  | succ k ih =>
    have h : l ++ (List.replicate k l).flatten = (List.replicate k l).flatten ++ l := by
      rw [← ih, List.replicate_succ, List.flatten_cons]
    rw [List.replicate_succ, List.flatten_cons, ih, ← List.append_assoc, h]

theorem Room.replayStart_calls (x : Collab W) (k : Nat) (r : Room W) :
    (Room.replayStart x k r).models = r.models ∧
    (Room.replayStart x k r).finishCalls
      = r.finishCalls ++ (List.replicate k r.models).flatten := by
  induction k generalizing r with
  | zero => simp [Room.replayStart]
  | succ k ih =>
    obtain ⟨h1, h2⟩ := ih (r.fallRound x).2
    have hm : (r.fallRound x).2.models = r.models := by simp [Room.fallRound]
    have hc : (r.fallRound x).2.finishCalls = r.finishCalls ++ r.models := by
      rw [Room.fallRound, Room.finishRound_calls, Room.beginFall_calls, Room.beginFall_models]
    refine ⟨by rw [Room.replayStart, h1, hm], ?_⟩
    rw [Room.replayStart, h2, hm, hc, List.replicate_succ, List.flatten_cons, List.append_assoc]

theorem Event.inFinish_quiet (e : Event) (h : e.inFinish) : e.exited = none := by
  cases e <;> first
    | exact False.elim h
    | rfl

/-- The events of `nextRound`: those of `beginFall`, the `driving` call when
nothing falls, and those of `finishRound`. -/
theorem Room.nextRound_events (x : Collab W) (input : InputProvider) (r : Room W) :
    eventsSince r (r.nextRound x input).2
      = eventsSince r (r.beginFall x x.beginFallDefault).2
        ++ (if (r.beginFall x x.beginFallDefault).1 then [] else [Event.driving input])
        ++ eventsSince (r.beforeFinish x input)
            ((r.beforeFinish x input).finishRound x x.finishRoundDefault).2 := by
  obtain ⟨db, hb, -⟩ := Room.beginFall_trace x x.beginFallDefault r
  obtain ⟨df, hf, -⟩ :=
    Room.finishRound_trace x x.finishRoundDefault (r.beforeFinish x input)
  have hn : r.nextRound x input = (r.beforeFinish x input).finishRound x x.finishRoundDefault := by
    unfold Room.nextRound Room.beforeFinish
    rfl
  rw [hn]
  by_cases hfall : (r.beginFall x x.beginFallDefault).1 = true
  · have hmid : r.beforeFinish x input = (r.beginFall x x.beginFallDefault).2 := by
      unfold Room.beforeFinish
      exact if_pos hfall
    rw [if_pos hfall, List.append_nil]
    rw [hmid] at hf ⊢
    exact eventsSince_trans hb hf
  · have hmid : r.beforeFinish x input
        = (r.beginFall x x.beginFallDefault).2.call (.driving input)
            (x.driving input (r.beginFall x x.beginFallDefault).2.world) := by
      unfold Room.beforeFinish
      exact if_neg hfall
    have hmt : (r.beforeFinish x input).trace
        = r.trace ++ (Event.phase .prepareRound :: db ++ [Event.driving input]) := by
      rw [hmid, Room.call_trace, hb]; simp
    rw [if_neg hfall, eventsSince_trans hmt hf, eventsSince_append hmt, eventsSince_append hb]

/-- What one `nextRound` does: the phases `prepareRound`, `fallout`, `falldown`
(unless a model left) and `finishRound` are entered once each, in this order,
and every model's rules are asked once, in collection order, to finish the
round. -/
theorem Room.nextRound_one_round (x : Collab W) (input : InputProvider) (r : Room W) :
    (eventsSince r (r.nextRound x input).2).filterMap Event.phaseEntered
      = [.prepareRound, .fallout]
        ++ (if (eventsSince r (r.nextRound x input).2).filterMap Event.exited = []
            then [.falldown] else [])
        ++ [.finishRound] ∧
    (eventsSince r (r.nextRound x input).2).filterMap Event.finishCalled = r.models := by
  obtain ⟨-, -, hph, hfc⟩ := Room.beginFall_observed x x.beginFallDefault r
  obtain ⟨df, hf, hF, -⟩ :=
    Room.finishRound_trace x x.finishRoundDefault (r.beforeFinish x input)
  have f1 := filterMap_piece Event.exited _ hf hF Event.inFinish_quiet
  have f2 := filterMap_piece Event.phaseEntered _ hf hF (fun e h => (e.inFinish_phase h).1)
  have f3 : (eventsSince (r.beforeFinish x input)
      ((r.beforeFinish x input).finishRound x x.finishRoundDefault).2).filterMap
        Event.finishCalled = r.models := by
    have hc := Room.finishRound_calls x x.finishRoundDefault (r.beforeFinish x input)
    rw [Room.finishCalls_of_trace hf] at hc
    have hm : (r.beforeFinish x input).models = r.models := by
      unfold Room.beforeFinish
      split <;> simp
    rw [eventsSince_append hf, ← hm]
    exact List.append_cancel_left hc
  simp only [Event.exited, Event.phaseEntered, Option.toList] at f1 f2
  have d1 : (if (r.beginFall x x.beginFallDefault).1 then []
      else [Event.driving input]).filterMap Event.exited = [] := by
    split <;> rfl
  have d2 : (if (r.beginFall x x.beginFallDefault).1 then []
      else [Event.driving input]).filterMap Event.phaseEntered = [] := by
    split <;> rfl
  have d3 : (if (r.beginFall x x.beginFallDefault).1 then []
      else [Event.driving input]).filterMap Event.finishCalled = [] := by
    split <;> rfl
  rw [Room.nextRound_events]
  simp only [List.filterMap_append, f1, f2, f3, hph, hfc, d1, d2, d3, List.append_nil,
    List.nil_append, and_self]

/-- A `loadMove` that returns has run `k + 1` rounds, `k` falling rounds and the
round with the move. -/
theorem Room.loadMove_ok_rounds (x : Collab W) (fuel : Nat) (move : Char) (r : Room W)
    (b : Bool) (s : Room W) (hok : r.loadMove x fuel move = .ok b s) :
    ∃ k, k < fuel ∧ Room.fallsThrough x k r ∧
      ((Room.replayStart x k r).beginFall x false).1 = false ∧
      s.finishCalls = r.finishCalls ++ (List.replicate (k + 1) r.models).flatten ∧
      s.entered .prepareRound = r.entered .prepareRound + (k + 1) ∧
      s.entered .finishRound = r.entered .finishRound + (k + 1) := by
  rcases Room.loadMove_search x move fuel r with ⟨_, hrun⟩ | ⟨k, hk, hft, hstop, heq⟩
  · rw [hrun] at hok; cases hok
  · rw [heq] at hok
    rcases Room.loadMove_stop_cases x move 0 _ hstop with ⟨_, h⟩ | ⟨_, h⟩ | ⟨hc, h⟩
    · rw [h] at hok; cases hok
    · rw [h] at hok; cases hok
    · rw [h] at hok
      cases hok
      have hrest : ((Room.replayStart x k r).beginFall x false).1 = false := by
        simp only [Room.acceptedAt, Bool.and_eq_true, Bool.not_eq_true'] at hc
        exact hc.1
      obtain ⟨s1, s2, -⟩ := Room.replayStart_counts x k r
      obtain ⟨sm, sc⟩ := Room.replayStart_calls x k r
      obtain ⟨b1, b2, -⟩ := Room.beginFall_counts x false (Room.replayStart x k r)
      obtain ⟨f1, f2, -⟩ :=
        Room.finishRound_counts x false ((Room.replayStart x k r).committed x move)
      have htr : ((Room.replayStart x k r).committed x move).trace
          = ((Room.replayStart x k r).beginFall x false).2.trace
              ++ [.controlsMakeMove move true] := rfl
      have hcm : ((Room.replayStart x k r).committed x move).models = r.models := by
        rw [← sm]
        exact Room.beginFall_models x false _
      refine ⟨k, hk, hft, hrest, ?_, ?_, ?_⟩
      · rw [Room.finishRound_calls, Room.finishCalls_of_trace htr, Room.beginFall_calls, sc, hcm,
          flatten_replicate_succ_right]
        simp [Event.finishCalled]
      · rw [f1, Room.entered_of_trace _ htr, b1, s1]; simp [Event.phaseEntered]; omega
      · rw [f2, Room.entered_of_trace _ htr, b2, s2]; simp [Event.phaseEntered]; omega

/-- C11, as stated, fails: in the example room `loadMove('u')` returns after two
rounds, a falling round and the round with the move, and has asked the rules of
each of the two models twice to finish a round. -/
theorem loadMove_runs_two_rounds :
    toyRoom.loadMove toy 2 'u' = .ok false (toyRoom.loadMove toy 2 'u').room ∧
    (toyRoom.loadMove toy 2 'u').room.finishCalls = toyRoom.finishCalls ++ [4, 6, 4, 6] ∧
    (toyRoom.loadMove toy 2 'u').room.entered .prepareRound
      = toyRoom.entered .prepareRound + 2 ∧
    (toyRoom.loadMove toy 2 'u').room.entered .finishRound
      = toyRoom.entered .finishRound + 2 := by
  decide

/-- Without a throw of a cue lookup:
every `nextRound` advances the simulation by exactly one
round: `prepareRound`, `fallout`, `falldown` (unless a model left) and
`finishRound` are entered once each, in this order, and every model's rules are
asked exactly once to finish the round.  A `loadMove` that returns has advanced
the simulation by `k + 1` rounds, where `k` is the number of falling rounds
before the round in which nothing falls and the move is made: `prepareRound` and
`finishRound` have been entered `k + 1` times and every model's rules have been
asked `k + 1` times to finish a round; it is one round only when `k = 0`. -/
theorem Room.rounds_run (x : Collab W) (r : Room W) :
    (∀ input,
      (eventsSince r (r.nextRound x input).2).filterMap Event.phaseEntered
        = [.prepareRound, .fallout]
          ++ (if (eventsSince r (r.nextRound x input).2).filterMap Event.exited = []
              then [.falldown] else [])
          ++ [.finishRound] ∧
      (eventsSince r (r.nextRound x input).2).filterMap Event.finishCalled = r.models) ∧
    (∀ fuel move b s, r.loadMove x fuel move = .ok b s →
      ∃ k, k < fuel ∧ Room.fallsThrough x k r ∧
        ((Room.replayStart x k r).beginFall x false).1 = false ∧
        s.finishCalls = r.finishCalls ++ (List.replicate (k + 1) r.models).flatten ∧
        s.entered .prepareRound = r.entered .prepareRound + (k + 1) ∧
        s.entered .finishRound = r.entered .finishRound + (k + 1)) :=
  ⟨fun input => Room.nextRound_one_round x input r,
   fun fuel move b s hok => Room.loadMove_ok_rounds x fuel move r b s hok⟩

/-! ### C12: replay -/

theorem Sim.symm {M : Type} {view : W → M} {r s : Room W} (h : Sim view r s) : Sim view s r :=
  ⟨h.1.symm, h.2.1.symm, h.2.2.symm⟩

theorem Room.playDead_impact (x : Collab W) (m : Cube) (r : Room W) :
    (r.playDead x m).impact = r.impact := by
  unfold Room.playDead
  simp only []
  split <;> rfl

theorem Room.deadStep_impact (x : Collab W) (acc : Bool × Room W) (m : Cube) :
    (Room.deadStep x acc m).2.impact = acc.2.impact := by
  unfold Room.deadStep
  simp only []
  split
  · rw [Room.playDead_impact]; rfl
  · rfl

theorem Room.outStep_impact (x : Collab W) (i : Bool) (acc : Bool × Room W) (m : Cube) :
    (Room.outStep x i acc m).2.impact = acc.2.impact := by
  unfold Room.outStep
  simp only []
  split
  · cases i <;> rfl
  · rfl

/-- The phase `prepareRound` leaves the impact alone. -/
theorem Room.prepareRound_impact (x : Collab W) (r : Room W) :
    (r.prepareRound x).impact = r.impact := by
  have h1 : ∀ s : Room W, (r.models.foldl (Room.occupyStep x) s).impact = s.impact :=
    foldl_keep Room.impact (Room.occupyStep x) (fun _ _ => rfl) _
  have h2 : ∀ acc : Bool × Room W,
      (r.models.foldl (Room.deadStep x) acc).2.impact = acc.2.impact :=
    foldl_keep_pair Room.impact _ (Room.deadStep_impact x) _
  have h3 : ∀ s : Room W, (r.models.foldl (Room.stateStep x) s).impact = s.impact :=
    foldl_keep Room.impact (Room.stateStep x) (fun _ _ => rfl) _
  unfold Room.prepareRound
  simp only [Room.log_models]
  split
  · show (List.foldl (Room.stateStep x) _ r.models).impact = r.impact
    rw [h3, h2, h1]; rfl
  · rw [h3, h2, h1]; rfl

/-- The phase `fallout` leaves the impact alone. -/
theorem Room.fallout_impact (x : Collab W) (i : Bool) (r : Room W) :
    (r.fallout x i).2.impact = r.impact := by
  have h : ∀ acc : Bool × Room W,
      (r.models.foldl (Room.outStep x i) acc).2.impact = acc.2.impact :=
    foldl_keep_pair Room.impact _ (Room.outStep_impact x i) _
  unfold Room.fallout
  simp only [Room.log_models]
  split
  · show (List.foldl (Room.outStep x i) _ r.models).2.impact = r.impact
    rw [h]; rfl
  · show (List.foldl (Room.outStep x i) _ r.models).2.impact = r.impact
    rw [h]; rfl

theorem Room.playImpact_impact (x : Collab W) (r : Room W) :
    (r.playImpact x).impact = .NONE := rfl

theorem Event.landed_quiet (e : Event) (h : e.inPrepare ∨ e.inFallout ∨ e.inImpact) :
    e.landedModel = none ∧ e.fallChecked = none := by
  cases e <;> first
    | exact ⟨rfl, rfl⟩
    | exact False.elim (by rcases h with h | h | h <;> exact h)

/-- The two ways through `beginFall`: a model left, or the gravity phase ran. -/
theorem Room.beginFall_split (x : Collab W) (i : Bool) (r : Room W) :
    ((r.afterFallout x i).1 = true ∧
      r.beginFall x i = (true, { (r.afterFallout x i).2 with fresh := false })) ∨
    ((r.afterFallout x i).1 = false ∧
      r.beginFall x i = ((r.afterFalldown x i).1,
        { (if i then (r.afterFalldown x i).2.playImpact x else (r.afterFalldown x i).2) with
          fresh := !(r.afterFalldown x i).1 })) := by
  by_cases hout : (r.afterFallout x i).1 = true
  · refine Or.inl ⟨hout, ?_⟩
    unfold Room.beginFall
    exact if_pos hout
  · refine Or.inr ⟨by simpa using hout, ?_⟩
    unfold Room.beginFall
    exact if_neg hout

/-- The exits and the fall checks among the events of `beginFall`. -/
theorem Room.beginFall_landing_events (x : Collab W) (i : Bool) (r : Room W) :
    ((r.afterFallout x i).1
      = !((eventsSince r (r.beginFall x i).2).filterMap Event.exited).isEmpty) ∧
    (eventsSince r (r.beginFall x i).2).filterMap Event.landedModel
      = (if (r.afterFallout x i).1 then []
          else (landed x r.models (r.afterFallout x i).2.world).map Prod.fst) ∧
    (eventsSince r (r.beginFall x i).2).filterMap Event.fallChecked
      = (if (r.afterFallout x i).1 then [] else r.models) := by
  obtain ⟨-, hev⟩ := Room.beginFall_events x i r
  obtain ⟨dp, hp, hP⟩ := Room.prepareRound_trace x { r with fresh := true }
  have hp' : (r.afterPrepare x).trace = r.trace ++ Event.phase .prepareRound :: dp := hp
  obtain ⟨df, hf, hF, -, -⟩ := Room.fallout_trace x i (r.afterPrepare x)
  have hf' : (r.afterFallout x i).2.trace
      = (r.afterPrepare x).trace ++ Event.phase .fallout :: df := hf
  obtain ⟨dg, hg, hG, hchecked⟩ := Room.falldown_trace x (r.afterFallout x i).2
  have hg' : (r.afterFalldown x i).2.trace
      = (r.afterFallout x i).2.trace ++ Event.phase .falldown :: dg := hg
  obtain ⟨di, hi, hI⟩ := Room.playImpact_emits x (r.afterFalldown x i).2
  obtain ⟨fo1, -⟩ := Room.fallout_observed x i (r.afterPrepare x)
  have fo1' : (r.afterFallout x i).1
      = !((eventsSince (r.afterPrepare x) (r.afterFallout x i).2).filterMap
          Event.exited).isEmpty := fo1
  obtain ⟨dl, hl, -, hland⟩ := Room.falldown_parts x (r.afterFallout x i).2
  have hl' : (r.afterFalldown x i).2.trace
      = (r.afterFallout x i).2.trace ++ Event.phase .falldown :: dl := hl
  have hmodels : (r.afterFallout x i).2.models = r.models := by
    simp [Room.afterFallout, Room.afterPrepare]
  have p1 := filterMap_piece Event.exited _ hp' hP (fun e h => (e.inPrepare_quiet h).1)
  have p2 := filterMap_piece Event.landedModel _ hp' hP
    (fun e h => (e.landed_quiet (Or.inl h)).1)
  have p3 := filterMap_piece Event.fallChecked _ hp' hP
    (fun e h => (e.landed_quiet (Or.inl h)).2)
  have o2 := filterMap_piece Event.landedModel _ hf' hF
    (fun e h => (e.landed_quiet (Or.inr (Or.inl h))).1)
  have o3 := filterMap_piece Event.fallChecked _ hf' hF
    (fun e h => (e.landed_quiet (Or.inr (Or.inl h))).2)
  have g1 := filterMap_piece Event.exited _ hg' hG (fun e h => (e.inFalldown_quiet h).1)
  have g2 : (eventsSince (r.afterFallout x i).2 (r.afterFalldown x i).2).filterMap
      Event.landedModel = (landed x r.models (r.afterFallout x i).2.world).map Prod.fst := by
    rw [eventsSince_append hl', ← hmodels, ← hland]
    rfl
  have g3 : (eventsSince (r.afterFallout x i).2 (r.afterFalldown x i).2).filterMap
      Event.fallChecked = r.models := by
    rw [eventsSince_append hg', ← hmodels, ← hchecked]
    rfl
  have i1 : (eventsSince (r.afterFalldown x i).2
      ((r.afterFalldown x i).2.playImpact x)).filterMap Event.exited = [] := by
    rw [eventsSince_append hi]
    exact filterMap_eq_nil_of _ _ di hI (fun e h => (e.inImpact_quiet h).1)
  have i2 : (eventsSince (r.afterFalldown x i).2
      ((r.afterFalldown x i).2.playImpact x)).filterMap Event.landedModel = [] := by
    rw [eventsSince_append hi]
    exact filterMap_eq_nil_of _ _ di hI (fun e h => (e.landed_quiet (Or.inr (Or.inr h))).1)
  have i3 : (eventsSince (r.afterFalldown x i).2
      ((r.afterFalldown x i).2.playImpact x)).filterMap Event.fallChecked = [] := by
    rw [eventsSince_append hi]
    exact filterMap_eq_nil_of _ _ di hI (fun e h => (e.landed_quiet (Or.inr (Or.inr h))).2)
  simp only [Event.exited, Event.landedModel, Event.fallChecked, Option.toList] at p1 p2 p3 o2 o3 g1
  rw [hev]
  cases hout : (r.afterFallout x i).1
  · cases i
    · simp only [List.filterMap_append, p1, p2, p3, o2, o3, g1, g2, g3, ← fo1', hout,
        List.append_nil, List.nil_append, if_false, Bool.false_eq_true, and_self]
    · simp only [List.filterMap_append, p1, p2, p3, o2, o3, g1, g2, g3, i1, i2, i3, ← fo1', hout,
        List.append_nil, List.nil_append, if_false, if_true, Bool.false_eq_true, and_self]
  · simp only [List.filterMap_append, p1, p2, p3, o2, o3, ← fo1', hout,
      List.append_nil, List.nil_append, if_true, List.filterMap_nil, and_self]

/-- C21, as stated, fails: `landedRoom` carries the impact `HEAVY` of the landing
in its replayed round (the room had none before).  With one more model, which
leaves the room, the next `beginFall` makes no fall check at all and still ends
with the impact `HEAVY`, interactive or not. -/
theorem beginFall_keeps_stale_impact :
    toyRoom.impact = .NONE ∧ landedRoom.impact = .HEAVY ∧
    (eventsSince staleRoom (staleRoom.beginFall toy true).2).filterMap Event.fallChecked = [] ∧
    (staleRoom.beginFall toy true).2.impact = .HEAVY ∧
    (eventsSince staleRoom (staleRoom.beginFall toy false).2).filterMap Event.fallChecked = [] ∧
    (staleRoom.beginFall toy false).2.impact = .HEAVY := by
  decide

/-- Without a throw of a cue lookup:
what the impact is after `beginFall` depends on the way the
call took.  When a model left (an exit check answered with a positive depth),
no fall check was made and the impact is what it was before the call, whatever
round it comes from.  When no model left, the gravity phase ran on all models:
after an interactive call the impact is `NONE`, since `playImpact` has reset it;
after a call that is not interactive it is the greatest weight among the models
whose fall check answered `FALL_LAST` in this call (at least the weight of each
of them, and `NONE` or the weight of one of them). -/
theorem Room.beginFall_impact_after (x : Collab W) (interactive : Bool) (r : Room W) :
    ((eventsSince r (r.beginFall x interactive).2).filterMap Event.exited ≠ [] →
      (r.beginFall x interactive).2.impact = r.impact ∧
      (eventsSince r (r.beginFall x interactive).2).filterMap Event.fallChecked = []) ∧
    ((eventsSince r (r.beginFall x interactive).2).filterMap Event.exited = [] →
      (eventsSince r (r.beginFall x interactive).2).filterMap Event.fallChecked = r.models ∧
      (eventsSince r (r.beginFall x interactive).2).filterMap Event.landedModel
        = (landed x r.models (r.afterFallout x interactive).2.world).map Prod.fst ∧
      (interactive = true → (r.beginFall x interactive).2.impact = .NONE) ∧
      (interactive = false →
        (∀ p ∈ landed x r.models (r.afterFallout x interactive).2.world,
          p.2.toNat ≤ (r.beginFall x interactive).2.impact.toNat) ∧
        ((r.beginFall x interactive).2.impact = .NONE ∨
          ∃ p ∈ landed x r.models (r.afterFallout x interactive).2.world,
            p.2 = (r.beginFall x interactive).2.impact))) := by
  obtain ⟨hex, hland, hchk⟩ := Room.beginFall_landing_events x interactive r
  have hmodels : (r.afterFallout x interactive).2.models = r.models := by
    simp [Room.afterFallout, Room.afterPrepare]
  rcases Room.beginFall_split x interactive r with ⟨hout, hb⟩ | ⟨hout, hb⟩
  · have hne : (eventsSince r (r.beginFall x interactive).2).filterMap Event.exited ≠ [] := by
      rw [hout] at hex
      intro hnil
      rw [hnil] at hex
      cases hex
    refine ⟨fun _ => ⟨?_, ?_⟩, fun hnil => absurd hnil hne⟩
    · rw [hb]
      show (r.afterFallout x interactive).2.impact = r.impact
      unfold Room.afterFallout Room.afterPrepare
      rw [Room.fallout_impact, Room.prepareRound_impact]
    · rw [hchk, hout]; rfl
  · have hnil : (eventsSince r (r.beginFall x interactive).2).filterMap Event.exited = [] := by
      rw [hout] at hex
      cases hd : (eventsSince r (r.beginFall x interactive).2).filterMap Event.exited with
      | nil => rfl
      | cons a l => rw [hd] at hex; cases hex
    refine ⟨fun hne => absurd hnil hne, fun _ => ⟨?_, ?_, ?_, ?_⟩⟩
    · rw [hchk, hout]; rfl
    · rw [hland, hout]; rfl
    · intro hi
      rw [hb, hi]
      rfl
    · intro hi
      subst hi
      obtain ⟨-, h2, h3⟩ := Room.fallLoop_impact x (r.afterFallout x false).2.models
        (false, { (r.afterFallout x false).2.log (.phase .falldown) with impact := .NONE })
      have himp : (r.beginFall x false).2.impact
          = ((r.afterFallout x false).2.models.foldl (Room.fallStep x) (false,
              { (r.afterFallout x false).2.log (.phase .falldown) with
                impact := .NONE })).2.impact := by
        rw [hb]
        rfl
      rw [himp, ← hmodels]
      exact ⟨h2, h3⟩

/-! ### The order of the phases of `nextRound`, when no lookup throws -/

/-- Among events without a `driving` call, the steps of a round are the phase
entries. -/
theorem roundStep_eq_phases (d : List Event) (h : ∀ e ∈ d, e.notDriving) :
    d.filterMap Event.roundStep = (d.filterMap Event.phaseEntered).map Event.phase := by
  induction d with
  | nil => rfl
  | cons e d ih =>
    have ih1 := ih (fun a ha => h a (List.mem_cons_of_mem _ ha))
    have he := h e (List.mem_cons_self _ _)
    cases e <;> first
      | exact False.elim he
      | simp [Event.roundStep, Event.phaseEntered, ih1]

theorem Event.inBeginFall_notDriving (e : Event) (h : e.inBeginFall) : e.notDriving := by
  rcases h with rfl | rfl | h | h | h | h
  · exact trivial
  · exact trivial
  all_goals cases e <;> first
    | exact False.elim h
    | exact trivial

theorem Event.inFinish_notDriving (e : Event) (h : e.inFinish) : e.notDriving := by
  cases e <;> first
    | exact False.elim h
    | exact trivial

/-- The exits among the events of `nextRound` are those of its `beginFall`. -/
theorem Room.nextRound_exited (x : Collab W) (input : InputProvider) (r : Room W) :
    (eventsSince r (r.nextRound x input).2).filterMap Event.exited
      = (eventsSince r (r.beginFall x x.beginFallDefault).2).filterMap Event.exited := by
  obtain ⟨df, hf, hF, -⟩ :=
    Room.finishRound_trace x x.finishRoundDefault (r.beforeFinish x input)
  have f1 := filterMap_piece Event.exited _ hf hF Event.inFinish_quiet
  simp only [Event.exited, Option.toList] at f1
  have d1 : (if (r.beginFall x x.beginFallDefault).1 then []
      else [Event.driving input]).filterMap Event.exited = [] := by
    split <;> rfl
  rw [Room.nextRound_events]
  simp only [List.filterMap_append, f1, d1, List.append_nil]

/-- Without a throw of a cue lookup:
the steps of every `nextRound`, in the order in which they are taken:
`prepareRound` is entered, then `fallout`, then `falldown` if and only if no
model left, then the control layer is asked once to drive the input if and only
if `beginFall` answered that nothing falls or leaves, and last `finishRound` is
entered; no phase is entered a second time.  The events of the round are those
of `beginFall`, then the `driving` call if it is made, then those of
`finishRound`, and the round answers what `finishRound` answers. -/
theorem Room.nextRound_steps (x : Collab W) (input : InputProvider) (r : Room W) :
    (eventsSince r (r.nextRound x input).2).filterMap Event.roundStep
      = [Event.phase .prepareRound, Event.phase .fallout]
        ++ (if (eventsSince r (r.nextRound x input).2).filterMap Event.exited = []
            then [Event.phase .falldown] else [])
        ++ (if (r.beginFall x x.beginFallDefault).1 then [] else [Event.driving input])
        ++ [Event.phase .finishRound] ∧
    eventsSince r (r.nextRound x input).2
      = eventsSince r (r.beginFall x x.beginFallDefault).2
        ++ (if (r.beginFall x x.beginFallDefault).1 then [] else [Event.driving input])
        ++ eventsSince (r.beforeFinish x input)
            ((r.beforeFinish x input).finishRound x x.finishRoundDefault).2 ∧
    (r.nextRound x input).1
      = ((r.beforeFinish x input).finishRound x x.finishRoundDefault).1 := by
  refine ⟨?_, Room.nextRound_events x input r, rfl⟩
  obtain ⟨-, -, hph, -⟩ := Room.beginFall_observed x x.beginFallDefault r
  obtain ⟨db, hb, hB, -⟩ := Room.beginFall_trace x x.beginFallDefault r
  obtain ⟨df, hf, hF, -⟩ :=
    Room.finishRound_trace x x.finishRoundDefault (r.beforeFinish x input)
  have b1 : (eventsSince r (r.beginFall x x.beginFallDefault).2).filterMap Event.roundStep
      = ((eventsSince r (r.beginFall x x.beginFallDefault).2).filterMap
          Event.phaseEntered).map Event.phase := by
    apply roundStep_eq_phases
    rw [eventsSince_append hb]
    intro e he
    rcases List.mem_cons.mp he with rfl | he
    · exact trivial
    · exact e.inBeginFall_notDriving (hB e he)
  have f1 : (eventsSince (r.beforeFinish x input)
      ((r.beforeFinish x input).finishRound x x.finishRoundDefault).2).filterMap Event.roundStep
      = [Event.phase .finishRound] := by
    rw [eventsSince_append hf, List.filterMap_cons]
    have := filterMap_eq_nil_of Event.roundStep _ df hF (fun e h => by
      cases e <;> first
        | exact False.elim h
        | rfl)
    simp [Event.roundStep, this]
  have d1 : (if (r.beginFall x x.beginFallDefault).1 then []
      else [Event.driving input]).filterMap Event.roundStep
      = (if (r.beginFall x x.beginFallDefault).1 then [] else [Event.driving input]) := by
    split <;> rfl
  rw [Room.nextRound_exited, Room.nextRound_events]
  simp only [List.filterMap_append, b1, f1, d1, hph]
  split <;> simp

/-! ### C23: the phase lock of the game agent -/

theorem GameAgent.called_state {L : Type} (counts : List Int) (g : GameAgent L) :
    (g.called counts).level = g.level ∧
    (g.called counts).lockPhases = counts.foldl max g.lockPhases ∧
    (g.called counts).trace = g.trace ++ counts.map GameEvent.ensurePhases := by
  induction counts generalizing g with
  | nil => simp [GameAgent.called]
  | cons c cs ih =>
    obtain ⟨h1, h2, h3⟩ := ih (g.ensurePhases c)
    refine ⟨?_, ?_, ?_⟩
    · exact h1
    · exact h2
    · rw [show (g.called (c :: cs)).trace = ((g.ensurePhases c).called cs).trace from rfl, h3]
      simp [GameAgent.ensurePhases, GameAgent.log]

theorem foldl_max_le (counts : List Int) (a : Int) : a ≤ counts.foldl max a := by
  induction counts generalizing a with
  | nil => exact le_refl a
  | cons c cs ih => exact le_trans (le_max_left a c) (ih (max a c))

theorem GameAgent.updated_state {L : Type} (x : GameCollab L) (l : L) (g : GameAgent L) :
    (g.updated x l).level = some (x.updateLevel l).2 ∧
    (g.updated x l).lockPhases = (x.updateLevel l).1.foldl max g.lockPhases ∧
    (g.updated x l).trace
      = g.trace ++ (GameEvent.updateLevel :: (x.updateLevel l).1.map GameEvent.ensurePhases) := by
  obtain ⟨c1, c2, c3⟩ := GameAgent.called_state (x.updateLevel l).1
    ({ g with level := some (x.updateLevel l).2 }.log .updateLevel)
  refine ⟨c1, c2, ?_⟩
  rw [show (g.updated x l).trace = _ from c3]
  simp [GameAgent.log]

theorem GameAgent.countDown_state {L : Type} (g : GameAgent L) :
    g.countDown.level = g.level ∧
    g.countDown.lockPhases = (if 0 < g.lockPhases then g.lockPhases - 1 else g.lockPhases) ∧
    g.countDown.trace = g.trace := by
  unfold GameAgent.countDown
  split <;> exact ⟨rfl, rfl, rfl⟩

theorem GameAgent.cleanLevel_state {L : Type} (x : GameCollab L) (g : GameAgent L) :
    (g.cleanLevel x).level = none ∧ (g.cleanLevel x).lockPhases = 0 ∧
    ∃ d, (g.cleanLevel x).trace = g.trace ++ d ∧ d.filterMap GameEvent.actionAnswer = [] := by
  unfold GameAgent.cleanLevel
  cases hl : g.level with
  | none =>
    refine ⟨by simp [GameAgent.log, hl], rfl,
      [.setParam "screen_width" x.worldW, .setParam "screen_height" x.worldH], ?_, rfl⟩
    simp [GameAgent.log, hl]
  | some l =>
    refine ⟨by simp [GameAgent.log, hl], rfl,
      [.deleteLevel, .setParam "screen_width" x.worldW, .setParam "screen_height" x.worldH],
      ?_, rfl⟩
    simp [GameAgent.log, hl]

/-- The method `own_update` without a level. -/
theorem GameAgent.own_update_menu {L : Type} (x : GameCollab L) (g : GameAgent L)
    (hl : g.level = none) : g.own_update x = g.log .watchCursor := by
  unfold GameAgent.own_update
  rw [hl]

/-- The method `own_update` with a level and a lock that is not 0. -/
theorem GameAgent.own_update_locked {L : Type} (x : GameCollab L) (g : GameAgent L) (l : L)
    (hl : g.level = some l) (hk : g.lockPhases ≠ 0) :
    g.own_update x = (g.updated x l).countDown := by
  unfold GameAgent.own_update
  rw [hl]
  simp only [hk, if_false]
  rfl

/-- The method `own_update` with a level and the lock at 0. -/
theorem GameAgent.own_update_free {L : Type} (x : GameCollab L) (g : GameAgent L) (l : L)
    (hl : g.level = some l) (hk : g.lockPhases = 0) :
    g.own_update x
      = (if (x.nextAction l).1 then
          GameAgent.cleanLevel x
            ((((((g.log (.nextAction (x.nextAction l).1)).called (x.nextAction l).2.1).updated x
              (x.nextAction l).2.2).countDown).log .markSolved).log
                (.logInfo "gratulation, room is complete"))
        else
          (((g.log (.nextAction (x.nextAction l).1)).called (x.nextAction l).2.1).updated x
            (x.nextAction l).2.2).countDown) := by
  unfold GameAgent.own_update
  rw [hl]
  simp only [hk, if_true]
  rfl

theorem filterMap_answer_ensure (counts : List Int) :
    (counts.map GameEvent.ensurePhases).filterMap GameEvent.actionAnswer = [] := by
  induction counts with
  | nil => rfl
  | cons c cs ih =>
    rw [List.map_cons, List.filterMap_cons]
    exact ih

theorem GameAgent.actionsIn_of_trace {L : Type} (x : GameCollab L) (g : GameAgent L)
    (d : List GameEvent) (h : (g.own_update x).trace = g.trace ++ d) :
    g.actionsIn x = d.filterMap GameEvent.actionAnswer := by
  unfold GameAgent.actionsIn
  rw [h, List.drop_left]

/-- Without a level `own_update` does not call `nextAction`. -/
theorem GameAgent.actionsIn_menu {L : Type} (x : GameCollab L) (g : GameAgent L)
    (hl : g.level = none) : g.actionsIn x = [] := by
  rw [GameAgent.actionsIn_of_trace x g [.watchCursor]
    (by rw [GameAgent.own_update_menu x g hl]; rfl)]
  rfl

/-- With a lock that is not 0 `own_update` does not call `nextAction`. -/
theorem GameAgent.actionsIn_locked {L : Type} (x : GameCollab L) (g : GameAgent L)
    (hk : g.lockPhases ≠ 0) : g.actionsIn x = [] := by
  cases hl : g.level with
  | none => exact GameAgent.actionsIn_menu x g hl
  | some l =>
    obtain ⟨-, -, u3⟩ := GameAgent.updated_state x l g
    rw [GameAgent.actionsIn_of_trace x g _
      (by rw [GameAgent.own_update_locked x g l hl hk, (GameAgent.countDown_state _).2.2, u3])]
    simp [GameEvent.actionAnswer, filterMap_answer_ensure]

/-- With a level and the lock at 0 `own_update` calls `nextAction` once. -/
theorem GameAgent.actionsIn_free {L : Type} (x : GameCollab L) (g : GameAgent L) (l : L)
    (hl : g.level = some l) (hk : g.lockPhases = 0) :
    g.actionsIn x = [(x.nextAction l).1] := by
  obtain ⟨-, -, c3⟩ := GameAgent.called_state (x.nextAction l).2.1
    (g.log (.nextAction (x.nextAction l).1))
  obtain ⟨-, -, u3⟩ := GameAgent.updated_state x (x.nextAction l).2.2
    ((g.log (.nextAction (x.nextAction l).1)).called (x.nextAction l).2.1)
  have ht : ((((g.log (.nextAction (x.nextAction l).1)).called (x.nextAction l).2.1).updated x
      (x.nextAction l).2.2).countDown).trace
      = g.trace ++ (GameEvent.nextAction (x.nextAction l).1
          :: (x.nextAction l).2.1.map GameEvent.ensurePhases
          ++ GameEvent.updateLevel
            :: (x.updateLevel (x.nextAction l).2.2).1.map GameEvent.ensurePhases) := by
    rw [(GameAgent.countDown_state _).2.2, u3, c3]
    simp [GameAgent.log]
  cases hc : (x.nextAction l).1 with
  | false =>
    rw [GameAgent.actionsIn_of_trace x g _
      (by rw [GameAgent.own_update_free x g l hl hk, if_neg (by simp [hc]), ht])]
    simp [GameEvent.actionAnswer, filterMap_answer_ensure, hc]
  | true =>
    obtain ⟨-, -, d, hd, hdq⟩ := GameAgent.cleanLevel_state x
      ((((((g.log (.nextAction (x.nextAction l).1)).called (x.nextAction l).2.1).updated x
        (x.nextAction l).2.2).countDown).log .markSolved).log
          (.logInfo "gratulation, room is complete"))
    rw [GameAgent.actionsIn_of_trace x g
      (GameEvent.nextAction (x.nextAction l).1
          :: (x.nextAction l).2.1.map GameEvent.ensurePhases
          ++ GameEvent.updateLevel
            :: (x.updateLevel (x.nextAction l).2.2).1.map GameEvent.ensurePhases
          ++ [GameEvent.markSolved, GameEvent.logInfo "gratulation, room is complete"] ++ d)
      (by rw [GameAgent.own_update_free x g l hl hk, if_pos hc, hd,
            show ∀ (a : GameAgent L) (e : GameEvent), (a.log e).trace = a.trace ++ [e] from
              fun _ _ => rfl,
            show ∀ (a : GameAgent L) (e : GameEvent), (a.log e).trace = a.trace ++ [e] from
              fun _ _ => rfl, ht]
          simp)]
    simp [GameEvent.actionAnswer, filterMap_answer_ensure, hc, hdq]

theorem GameAgent.updates_succ_right {L : Type} (x : GameCollab L) (k : Nat) (g : GameAgent L) :
    GameAgent.updates x (k + 1) g = (GameAgent.updates x k g).own_update x := by
  induction k generalizing g with
  | zero => rfl
  | succ k ih =>
    rw [show GameAgent.updates x (k + 1 + 1) g = GameAgent.updates x (k + 1) (g.own_update x)
      from rfl, ih]
    rfl

theorem GameCollab.idle_succ_right {L : Type} (x : GameCollab L) (k : Nat) (l : L) :
    x.idle (k + 1) l = (x.updateLevel (x.idle k l)).2 := by
  induction k generalizing l with
  | zero => rfl
  | succ k ih =>
    rw [show x.idle (k + 1 + 1) l = x.idle (k + 1) (x.updateLevel l).2 from rfl, ih]
    rfl

/-- The lock is not negative after `own_update` if it was not negative before. -/
theorem GameAgent.own_update_nonneg {L : Type} (x : GameCollab L) (g : GameAgent L)
    (h : 0 ≤ g.lockPhases) : 0 ≤ (g.own_update x).lockPhases := by
  have hdown : ∀ a : GameAgent L, 0 ≤ a.lockPhases → 0 ≤ a.countDown.lockPhases := by
    intro a ha
    rw [(GameAgent.countDown_state a).2.1]
    split <;> omega
  cases hl : g.level with
  | none =>
    rw [GameAgent.own_update_menu x g hl]
    exact h
  | some l =>
    by_cases hk : g.lockPhases = 0
    · rw [GameAgent.own_update_free x g l hl hk]
      split
      · rw [(GameAgent.cleanLevel_state x _).2.1]
      · apply hdown
        rw [(GameAgent.updated_state x _ _).2.1]
        refine le_trans ?_ (foldl_max_le _ _)
        rw [(GameAgent.called_state _ _).2.1]
        exact le_trans h (foldl_max_le _ _)
    · rw [GameAgent.own_update_locked x g l hl hk]
      apply hdown
      rw [(GameAgent.updated_state x _ _).2.1]
      exact le_trans h (foldl_max_le _ _)

/-- With a level and a positive lock, an `own_update` in which `updateLevel`
asks for no phases lowers the lock by one. -/
theorem GameAgent.own_update_counts_down {L : Type} (x : GameCollab L) (g : GameAgent L) (l : L)
    (hl : g.level = some l) (hk : 0 < g.lockPhases) (hq : (x.updateLevel l).1 = []) :
    (g.own_update x).level = some (x.updateLevel l).2 ∧
    (g.own_update x).lockPhases = g.lockPhases - 1 := by
  obtain ⟨u1, u2, -⟩ := GameAgent.updated_state x l g
  obtain ⟨d1, d2, -⟩ := GameAgent.countDown_state (g.updated x l)
  rw [GameAgent.own_update_locked x g l hl (by omega), d1, d2, u1, u2, hq]
  exact ⟨rfl, by simp [hk]⟩

/-- With a level and the lock at 0, an `own_update` whose `nextAction` does not
report the room complete, and in which `updateLevel` asks for no phases, leaves
the lock one below the greatest count that `nextAction` asked for. -/
theorem GameAgent.own_update_raised {L : Type} (x : GameCollab L) (g : GameAgent L) (l : L)
    (hl : g.level = some l) (hk : g.lockPhases = 0) (hc : (x.nextAction l).1 = false)
    (hq : (x.updateLevel (x.nextAction l).2.2).1 = []) :
    (g.own_update x).level = some (x.updateLevel (x.nextAction l).2.2).2 ∧
    (g.own_update x).lockPhases
      = (if 0 < (x.nextAction l).2.1.foldl max 0 then (x.nextAction l).2.1.foldl max 0 - 1
          else (x.nextAction l).2.1.foldl max 0) := by
  obtain ⟨-, c2, -⟩ := GameAgent.called_state (x.nextAction l).2.1
    (g.log (.nextAction (x.nextAction l).1))
  obtain ⟨u1, u2, -⟩ := GameAgent.updated_state x (x.nextAction l).2.2
    ((g.log (.nextAction (x.nextAction l).1)).called (x.nextAction l).2.1)
  obtain ⟨d1, d2, -⟩ := GameAgent.countDown_state
    (((g.log (.nextAction (x.nextAction l).1)).called (x.nextAction l).2.1).updated x
      (x.nextAction l).2.2)
  have hg : (g.log (.nextAction (x.nextAction l).1)).lockPhases = 0 := hk
  rw [GameAgent.own_update_free x g l hl hk, if_neg (by simp [hc]), d1, d2, u1, u2, hq, c2, hg]
  exact ⟨rfl, rfl⟩

/-- With a level and the lock at 0, an `own_update` whose `nextAction` reports
the room complete ends without a level and with the lock at 0. -/
theorem GameAgent.own_update_complete {L : Type} (x : GameCollab L) (g : GameAgent L) (l : L)
    (hl : g.level = some l) (hk : g.lockPhases = 0) (hc : (x.nextAction l).1 = true) :
    (g.own_update x).level = none ∧ (g.own_update x).lockPhases = 0 := by
  rw [GameAgent.own_update_free x g l hl hk, if_pos hc]
  exact ⟨(GameAgent.cleanLevel_state x _).1, (GameAgent.cleanLevel_state x _).2.1⟩

/-- The updates after a `nextAction` that raised the lock from 0 to `n`. -/
theorem GameAgent.locked_stretch {L : Type} (x : GameCollab L) (g : GameAgent L) (l : L)
    (n : Nat) (hl : g.level = some l) (hk : g.lockPhases = 0)
    (hc : (x.nextAction l).1 = false)
    (hn : (x.nextAction l).2.1.foldl max 0 = (n : Int)) (hpos : 1 ≤ n)
    (hq : ∀ k, k < n → (x.updateLevel (x.idle k (x.nextAction l).2.2)).1 = []) :
    ∀ k, 1 ≤ k → k ≤ n →
      (GameAgent.updates x k g).level = some (x.idle k (x.nextAction l).2.2) ∧
      (GameAgent.updates x k g).lockPhases = (n : Int) - k := by
  intro k
  induction k with
  | zero => intro h; omega
  | succ k ih =>
    intro _ hkn
    rcases Nat.eq_zero_or_pos k with rfl | hk1
    · obtain ⟨h1, h2⟩ := GameAgent.own_update_raised x g l hl hk hc (hq 0 (by omega))
      refine ⟨h1, ?_⟩
      rw [show GameAgent.updates x (0 + 1) g = g.own_update x from rfl, h2, hn]
      have : (0 : Int) < n := by omega
      simp [this]
    · obtain ⟨i1, i2⟩ := ih hk1 (by omega)
      obtain ⟨h1, h2⟩ := GameAgent.own_update_counts_down x (GameAgent.updates x k g) _ i1
        (by rw [i2]; omega) (hq k (by omega))
      rw [GameAgent.updates_succ_right, GameCollab.idle_succ_right]
      refine ⟨h1, ?_⟩
      rw [h2, i2]
      push_cast
      omega

/-- The lock is not negative after `newLevel` if it was not negative before. -/
theorem GameAgent.newLevel_nonneg {L : Type} (x : GameCollab L) (g : GameAgent L)
    (h : 0 ≤ g.lockPhases) : 0 ≤ (g.newLevel x).lockPhases := by
  unfold GameAgent.newLevel
  cases g.level with
  | some l => exact h
  | none =>
    cases x.createSelected with
    | none => exact h
    | some l =>
      show 0 ≤ (GameAgent.called _ _).lockPhases
      rw [(GameAgent.called_state _ _).2.1]
      exact le_trans h (foldl_max_le _ _)

/-- C23, as stated, fails.  In the example game the fourth update starts with
the level loaded and the lock at 0; its `nextAction` asks for three phases, so
it raises the lock from 0 to 3, and reports the room complete.  After this
update the lock is 0, not 2, and the level is gone: none of the next three
updates calls `nextAction`.  And without a level `own_update` does not lower a
positive lock. -/
theorem lock_reset_on_complete :
    (GameAgent.updates arcade 3 arcadeStart).level = some 1 ∧
    (GameAgent.updates arcade 3 arcadeStart).lockPhases = 0 ∧
    arcade.nextAction 1 = (true, [3], 0) ∧
    (GameAgent.updates arcade 3 arcadeStart).actionsIn arcade = [true] ∧
    (GameAgent.updates arcade 3 arcadeStart).ensuredIn arcade = [3] ∧
    (GameAgent.updates arcade 4 arcadeStart).lockPhases = 0 ∧
    (GameAgent.updates arcade 4 arcadeStart).level = none ∧
    (GameAgent.updates arcade 4 arcadeStart).actionsIn arcade = [] ∧
    (GameAgent.updates arcade 5 arcadeStart).actionsIn arcade = [] ∧
    (GameAgent.updates arcade 6 arcadeStart).actionsIn arcade = [] ∧
    ((GameAgent.own_init arcade).ensurePhases 5).lockPhases = 5 ∧
    (((GameAgent.own_init arcade).ensurePhases 5).own_update arcade).lockPhases = 5 := by
  decide

/-- C23, amended.  `ensurePhases(count)` sets the lock to the greater of the old
lock and `count`, so it never lowers it.  `own_update` calls the level's
`nextAction`, once, exactly when a level is loaded and the lock is 0 at the
start of the update.  With a level loaded, an update that starts with a positive
lock and in which `updateLevel` asks for no phases lowers the lock by exactly
one; without a level the update leaves the lock alone; an update whose
`nextAction` reports the room complete ends with the lock at 0 and without a
level.  The lock is never negative: it is 0 after `own_init` and after
`cleanLevel`, and `ensurePhases`, `newLevel` and `own_update` keep it at least 0.
If `nextAction` raises the lock from 0 to `n >= 1` and does not report the room
complete, and `updateLevel` asks for no phases in this update and the next
`n - 1`, then the lock is `n - 1` after this update, exactly the next `n - 1`
updates skip `nextAction`, the lock going down by one in each, and the update
after them calls it again. -/
theorem phase_lock {L : Type} (x : GameCollab L) (g : GameAgent L) :
    (∀ count, (g.ensurePhases count).lockPhases = max g.lockPhases count ∧
      g.lockPhases ≤ (g.ensurePhases count).lockPhases ∧
      (g.ensurePhases count).level = g.level) ∧
    (∀ l, g.level = some l → g.lockPhases = 0 → g.actionsIn x = [(x.nextAction l).1]) ∧
    (g.lockPhases ≠ 0 → g.actionsIn x = []) ∧
    (g.level = none → g.actionsIn x = [] ∧ (g.own_update x).lockPhases = g.lockPhases) ∧
    (∀ l, g.level = some l → 0 < g.lockPhases → (x.updateLevel l).1 = [] →
      (g.own_update x).lockPhases = g.lockPhases - 1 ∧
      (g.own_update x).level = some (x.updateLevel l).2) ∧
    (∀ l, g.level = some l → g.lockPhases = 0 → (x.nextAction l).1 = true →
      (g.own_update x).lockPhases = 0 ∧ (g.own_update x).level = none) ∧
    ((GameAgent.own_init x).lockPhases = 0 ∧ (g.cleanLevel x).lockPhases = 0 ∧
      (0 ≤ g.lockPhases →
        (∀ count, 0 ≤ (g.ensurePhases count).lockPhases) ∧
        0 ≤ (g.newLevel x).lockPhases ∧ 0 ≤ (g.own_update x).lockPhases)) ∧
    (∀ l (n : Nat), g.level = some l → g.lockPhases = 0 → (x.nextAction l).1 = false →
      (x.nextAction l).2.1.foldl max 0 = (n : Int) → 1 ≤ n →
      (∀ k, k < n → (x.updateLevel (x.idle k (x.nextAction l).2.2)).1 = []) →
      g.actionsIn x = [false] ∧
      (g.own_update x).lockPhases = (n : Int) - 1 ∧
      (∀ k, 1 ≤ k → k < n →
        (GameAgent.updates x k g).actionsIn x = [] ∧
        (GameAgent.updates x k g).lockPhases = (n : Int) - k) ∧
      (GameAgent.updates x n g).lockPhases = 0 ∧
      (GameAgent.updates x n g).actionsIn x
        = [(x.nextAction (x.idle n (x.nextAction l).2.2)).1]) := by
  refine ⟨?_, ?_, ?_, ?_, ?_, ?_, ?_, ?_⟩
  · intro count
    exact ⟨rfl, le_max_left _ _, rfl⟩
  · exact fun l hl hk => GameAgent.actionsIn_free x g l hl hk
  · exact GameAgent.actionsIn_locked x g
  · intro hl
    refine ⟨GameAgent.actionsIn_menu x g hl, ?_⟩
    rw [GameAgent.own_update_menu x g hl]
    rfl
  · intro l hl hk hq
    obtain ⟨h1, h2⟩ := GameAgent.own_update_counts_down x g l hl hk hq
    exact ⟨h2, h1⟩
  · intro l hl hk hc
    obtain ⟨h1, h2⟩ := GameAgent.own_update_complete x g l hl hk hc
    exact ⟨h2, h1⟩
  · refine ⟨(GameAgent.cleanLevel_state x _).2.1, (GameAgent.cleanLevel_state x g).2.1, ?_⟩
    intro h
    refine ⟨fun count => ?_, GameAgent.newLevel_nonneg x g h, GameAgent.own_update_nonneg x g h⟩
    exact le_trans h (le_max_left _ _)
  · intro l n hl hk hc hn hpos hq
    have hst := GameAgent.locked_stretch x g l n hl hk hc hn hpos hq
    refine ⟨?_, ?_, ?_, ?_, ?_⟩
    · rw [GameAgent.actionsIn_free x g l hl hk, hc]
    · have := (hst 1 (le_refl 1) hpos).2
      rw [show GameAgent.updates x 1 g = g.own_update x from rfl] at this
      rw [this]
      rfl
    · intro k hk1 hkn
      obtain ⟨-, h2⟩ := hst k hk1 (by omega)
      refine ⟨GameAgent.actionsIn_locked x _ ?_, h2⟩
      rw [h2]
      omega
    · rw [(hst n hpos (le_refl n)).2]
      omega
    · obtain ⟨h1, h2⟩ := hst n hpos (le_refl n)
      exact GameAgent.actionsIn_free x _ _ h1 (by rw [h2]; omega)

/-- C23, amended, in the example game: the first update of the started level
raises the lock from 0 to 3 and leaves it at 2, the next two updates skip
`nextAction`, and the update after them calls it again. -/
theorem phase_lock_witness :
    arcadeStart.level = some 2 ∧ arcadeStart.lockPhases = 0 ∧
    arcadeStart.actionsIn arcade = [false] ∧
    (arcadeStart.own_update arcade).lockPhases = 2 ∧
    (GameAgent.updates arcade 1 arcadeStart).actionsIn arcade = [] ∧
    (GameAgent.updates arcade 2 arcadeStart).actionsIn arcade = [] ∧
    (GameAgent.updates arcade 3 arcadeStart).actionsIn arcade = [true] :=
  have h := (phase_lock arcade arcadeStart).2.2.2.2.2.2.2 2 3 (by decide) (by decide)
    (by decide) (by decide) (by decide) (by decide)
  ⟨by decide, by decide, h.1, h.2.1, (h.2.2.1 1 (by decide) (by decide)).1,
    (h.2.2.1 2 (by decide) (by decide)).1, h.2.2.2.2⟩

/-! ### C24: the parameter store -/

/-- The loop of `setParam` from any state of its accumulator: the values stay,
and the messages sent are those of the entries of `name`, in order. -/
theorem Environ.noticeLoop_state {V : Type} (x : EnvCollab V) (name : String)
    (entries : List (String × Msg)) (acc : Environ V) :
    (entries.foldl (Environ.noticeStep x name) acc).values = acc.values ∧
    ∃ d, (entries.foldl (Environ.noticeStep x name) acc).trace = acc.trace ++ d ∧
      d.filterMap EnvEvent.sentTo
        = (entries.filter (fun entry => entry.1 = name)).map Prod.snd := by
  induction entries generalizing acc with
  | nil => exact ⟨rfl, [], by simp, rfl⟩
  | cons entry entries ih =>
    obtain ⟨h1, d, hd, hs⟩ := ih (Environ.noticeStep x name acc entry)
    rw [List.foldl_cons]
    by_cases hn : entry.1 = name
    · cases hsend : x.sendClone entry.2 acc.world with
      | mk answer w =>
        cases answer with
        | none =>
          have hstep : Environ.noticeStep x name acc entry
              = { acc with world := w, watchers := acc.watchers ++ [entry],
                           trace := acc.trace ++ [.sendClone entry.2 false] } := by
            simp [Environ.noticeStep, hn, hsend]
          rw [hstep] at h1 hd
          rw [hstep]
          refine ⟨h1, EnvEvent.sendClone entry.2 false :: d, ?_, ?_⟩
          · rw [hd]; simp
          · simp [EnvEvent.sentTo, hs, hn]
        | some info =>
          have hstep : Environ.noticeStep x name acc entry
              = { acc with world := w,
                           trace := acc.trace ++ [.sendClone entry.2 true, .logWarning info,
                             .deleteMsg entry.2] } := by
            simp [Environ.noticeStep, hn, hsend]
          rw [hstep] at h1 hd
          rw [hstep]
          refine ⟨h1, EnvEvent.sendClone entry.2 true :: EnvEvent.logWarning info
            :: EnvEvent.deleteMsg entry.2 :: d, ?_, ?_⟩
          · rw [hd]; simp
          · simp [EnvEvent.sentTo, hs, hn]
    · have hstep : Environ.noticeStep x name acc entry
          = { acc with watchers := acc.watchers ++ [entry] } := by
        simp [Environ.noticeStep, hn]
      rw [hstep] at h1 hd
      rw [hstep]
      refine ⟨h1, d, hd, ?_⟩
      simp [hs, hn]

/-- The loop of `setParam`: the values stay, and the messages sent are the
watchers of `name`, in order. -/
theorem Environ.notice_state {V : Type} (x : EnvCollab V) (name : String) (env : Environ V) :
    (Environ.notice x name env).values = env.values ∧
    ∃ d, (Environ.notice x name env).trace = env.trace ++ d ∧
      d.filterMap EnvEvent.sentTo = env.watching name :=
  Environ.noticeLoop_state x name env.watchers { env with watchers := [] }

/-- What `setParam` leaves: the value is stored under the name, the other names
keep what they had, and the messages sent are the watchers of the name if the
value read before differs, and none otherwise. -/
theorem Environ.setParam_state {V : Type} (x : EnvCollab V) (name value : String)
    (env : Environ V) :
    (env.setParam x name value).values = Function.update env.values name (some value) ∧
    ∃ d, (env.setParam x name value).trace = env.trace ++ EnvEvent.logDebug "setParam" :: d ∧
      d.filterMap EnvEvent.sentTo
        = (if env.getParam name "" = value then [] else env.watching name) := by
  cases hv : env.values name with
  | none =>
    have hget : env.getParam name "" = "" := by simp [Environ.getParam, hv]
    by_cases hval : "" = value
    · have hs : env.setParam x name value
          = { env.log (.logDebug "setParam") with
              values := Function.update env.values name (some "") } := by
        simp [Environ.setParam, Environ.index, Environ.log, hv, hval]
      rw [hs, hget, if_pos hval]
      refine ⟨by rw [← hval], [], ?_, rfl⟩
      simp [Environ.log]
    · have hs : env.setParam x name value
          = Environ.notice x name
              { env.log (.logDebug "setParam") with
                values := Function.update (Function.update env.values name (some "")) name
                  (some value) } := by
        simp [Environ.setParam, Environ.index, Environ.log, hv, hval]
      obtain ⟨h1, d, hd, hsent⟩ := Environ.notice_state x name
        { env.log (.logDebug "setParam") with
          values := Function.update (Function.update env.values name (some "")) name
            (some value) }
      rw [hs, hget, if_neg hval]
      refine ⟨?_, d, ?_, hsent⟩
      · rw [h1]
        simp
      · rw [hd]
        simp [Environ.log]
  | some old =>
    have hget : env.getParam name "" = old := by simp [Environ.getParam, hv]
    by_cases hval : old = value
    · have hs : env.setParam x name value = env.log (.logDebug "setParam") := by
        simp [Environ.setParam, Environ.index, Environ.log, hv, hval]
      rw [hs, hget, if_pos hval]
      refine ⟨?_, [], ?_, rfl⟩
      · rw [← hval, ← hv]
        simp [Environ.log]
      · simp [Environ.log]
    · have hs : env.setParam x name value
          = Environ.notice x name
              { env.log (.logDebug "setParam") with
                values := Function.update env.values name (some value) } := by
        simp [Environ.setParam, Environ.index, Environ.log, hv, hval]
      obtain ⟨h1, d, hd, hsent⟩ := Environ.notice_state x name
        { env.log (.logDebug "setParam") with
          values := Function.update env.values name (some value) }
      rw [hs, hget, if_neg hval]
      refine ⟨h1, d, ?_, hsent⟩
      rw [hd]
      simp [Environ.log]

/-- A name that no call sets stays without a value. -/
theorem Environ.applyOps_unset {V : Type} (x : EnvCollab V) (name : String) (ops : List EnvOp)
    (env : Environ V) (h : env.values name = none)
    (hops : ∀ op ∈ ops, op.sets ≠ some name) :
    (env.applyOps x ops).values name = none := by
  induction ops generalizing env with
  | nil => exact h
  | cons op ops ih =>
    have hop := hops op (List.mem_cons_self _ _)
    apply ih (env.applyOp x op) ?_ (fun o ho => hops o (List.mem_cons_of_mem _ ho))
    cases op with
    | setParam other value =>
      have hne : name ≠ other := fun hc => hop (by rw [hc]; rfl)
      rw [show (env.applyOp x (.setParam other value)) = env.setParam x other value from rfl,
        (Environ.setParam_state x other value env).1, Function.update_noteq hne]
      exact h
    | addWatcher other msg => exact h

theorem Environ.sentSince_setParam {V : Type} (x : EnvCollab V) (name value : String)
    (env : Environ V) :
    Environ.sentSince env (env.setParam x name value)
      = (if env.getParam name "" = value then [] else env.watching name) := by
  obtain ⟨-, d, hd, hsent⟩ := Environ.setParam_state x name value env
  unfold Environ.sentSince
  rw [hd, List.drop_left, List.filterMap_cons]
  exact hsent

/-- C24: the round trip of the parameter store.  After `setParam(name, value)`,
`getParam(name, d)` returns `value`, whatever `d` and also for the empty value;
`getParam` of every other name returns what it returned before; in a store that
starts empty, `getParam(name, d)` returns `d` for a name that no `setParam` was
called with.  The messages that `setParam` sends are the watchers of the name,
each once and in order, when the value read before the call (the empty string
for a name without a value) differs from `value`, and none otherwise: nobody is
notified when the value is the one already stored or when an unset name is set
to the empty string, and whenever somebody is notified the stored value has
changed. -/
theorem environ_round_trip {V : Type} (x : EnvCollab V) (env : Environ V)
    (name value d : String) :
    (env.setParam x name value).getParam name d = value ∧
    (∀ other, other ≠ name →
      (env.setParam x name value).getParam other d = env.getParam other d) ∧
    (∀ (ops : List EnvOp) (w : V), (∀ op ∈ ops, op.sets ≠ some name) →
      ((Environ.create w).applyOps x ops).getParam name d = d) ∧
    Environ.sentSince env (env.setParam x name value)
      = (if env.getParam name "" = value then [] else env.watching name) ∧
    (env.values name = some value → Environ.sentSince env (env.setParam x name value) = []) ∧
    (env.values name = none → value = "" →
      Environ.sentSince env (env.setParam x name value) = []) ∧
    (Environ.sentSince env (env.setParam x name value) ≠ [] →
      env.values name ≠ some value ∧ (env.setParam x name value).values name = some value) := by
  obtain ⟨hvals, -⟩ := Environ.setParam_state x name value env
  have hsent := Environ.sentSince_setParam x name value env
  refine ⟨?_, ?_, ?_, hsent, ?_, ?_, ?_⟩
  · simp [Environ.getParam, hvals]
  · intro other hne
    simp [Environ.getParam, hvals, Function.update_noteq hne]
  · intro ops w hops
    have := Environ.applyOps_unset x name ops (Environ.create w) rfl hops
    simp [Environ.getParam, this]
  · intro hv
    rw [hsent, if_pos (by simp [Environ.getParam, hv])]
  · intro hv hval
    rw [hsent, if_pos (by simp [Environ.getParam, hv, hval])]
  · intro hne
    refine ⟨fun hv => hne ?_, by simp [hvals]⟩
    rw [hsent, if_pos (by simp [Environ.getParam, hv])]

/-- C24 in the example store: setting the volume to a new value notifies the two
watchers of the volume and not the watcher of the language; setting it to the
value it has notifies nobody; the language, never set, reads as the default. -/
theorem environ_round_trip_witness :
    (optionsExample.setParam postman "volume" "80").getParam "volume" "0" = "80" ∧
    Environ.sentSince optionsExample (optionsExample.setParam postman "volume" "80") = [7, 13] ∧
    Environ.sentSince optionsExample (optionsExample.setParam postman "volume" "50") = [] ∧
    Environ.sentSince optionsExample (optionsExample.setParam postman "sound" "") = [] ∧
    (optionsExample.setParam postman "sound" "").getParam "sound" "on" = "" ∧
    (optionsExample.setParam postman "volume" "80").getParam "lang" "cs" = "cs" :=
  ⟨(environ_round_trip postman optionsExample "volume" "80" "0").1,
    (environ_round_trip postman optionsExample "volume" "80" "0").2.2.2.1.trans (by decide),
    (environ_round_trip postman optionsExample "volume" "50" "0").2.2.2.2.1 (by decide),
    (environ_round_trip postman optionsExample "sound" "" "0").2.2.2.2.2.1 (by decide) rfl,
    (environ_round_trip postman optionsExample "sound" "" "on").1,
    ((environ_round_trip postman optionsExample "volume" "80" "cs").2.1 "lang"
      (by decide)).trans (by decide)⟩

/-! ### C25: lookup in the resource pack -/

/-- The loop of `getRes` steps over `rank - i` entries, or to the end. -/
theorem ResourcePack.skip_eq_drop {T : Type} (rank : Int) (l : List T) (i : Int) :
    ResourcePack.skip rank i l = l.drop (rank - i).toNat := by
  induction l generalizing i with
  | nil => simp [ResourcePack.skip]
  | cons t ts ih =>
    unfold ResourcePack.skip
    by_cases h : i < rank
    · rw [if_pos h, ih]
      have : (rank - i).toNat = (rank - (i + 1)).toNat + 1 := by omega
      rw [this, List.drop_succ_cons]
    · rw [if_neg h]
      have : (rank - i).toNat = 0 := by omega
      rw [this, List.drop_zero]

/-- What `getRes` returns: it throws when the rank, or 0 for a negative rank,
is not below the length of the range, and returns the entry at that place
otherwise. -/
theorem ResourcePack.getRes_cases {T : Type} (p : ResourcePack T) (name : String) (rank : Int) :
    ((p.equalRange name).length ≤ rank.toNat ∧
      p.getRes name rank = .error (.ResourceException "no such resource at index")) ∨
    (∃ t, (p.equalRange name)[rank.toNat]? = some t ∧ p.getRes name rank = .ok t) := by
  unfold ResourcePack.getRes
  rw [ResourcePack.skip_eq_drop, sub_zero]
  cases hd : (p.equalRange name).drop rank.toNat with
  | nil => exact Or.inl ⟨List.drop_eq_nil_iff.mp hd, rfl⟩
  | cons t ts =>
    refine Or.inr ⟨t, ?_, rfl⟩
    have := List.getElem?_drop (p.equalRange name) rank.toNat 0
    rw [hd] at this
    simpa using this.symm

theorem ResourcePack.equalRange_addRes {T : Type} (p : ResourcePack T) (name other : String)
    (res : T) :
    (p.addRes other res).equalRange name
      = (if other = name then p.equalRange name ++ [res] else p.equalRange name) := by
  unfold ResourcePack.equalRange ResourcePack.addRes
  by_cases h : other = name <;> simp [List.filter_append, h]

theorem ResourcePack.equalRange_removeRes {T : Type} (p : ResourcePack T) (name other : String) :
    (p.removeRes other).equalRange name
      = (if other = name then [] else p.equalRange name) := by
  unfold ResourcePack.equalRange ResourcePack.removeRes
  by_cases h : other = name
  · subst h
    simp [List.filter_filter]
  · rw [if_neg h]
    simp only [List.filter_filter]
    congr 1
    apply List.filter_congr
    intro entry _
    by_cases he : entry.1 = name
    · have h2 : ¬ name = other := fun hc => h hc.symm
      subst he
      simp [h2]
    · simp [he]

/-- The range of a name after a sequence of calls. -/
theorem ResourcePack.equalRange_applyOps {T : Type} (name : String) (ops : List (PackOp T))
    (p : ResourcePack T) :
    (p.applyOps ops).equalRange name = addedUnder name ops (p.equalRange name) := by
  induction ops generalizing p with
  | nil => rfl
  | cons op ops ih =>
    rw [show p.applyOps (op :: ops) = (p.applyOp op).applyOps ops from rfl, ih]
    cases op with
    | addRes other res =>
      rw [show p.applyOp (.addRes other res) = p.addRes other res from rfl,
        ResourcePack.equalRange_addRes]
      rfl
    | removeRes other =>
      rw [show p.applyOp (.removeRes other) = p.removeRes other from rfl,
        ResourcePack.equalRange_removeRes]
      rfl

/-- C25, as stated, fails: for a name without resources and the rank `-1`,
`getRes` throws although the rank is below `countRes(name)`, which is 0; the
same holds in the example pack for a name that no resource has. -/
theorem getRes_throws_below_count :
    threw ((ResourcePack.empty : ResourcePack Nat).getRes "impact_light" (-1)) = true ∧
    (ResourcePack.empty : ResourcePack Nat).countRes "impact_light" = 0 ∧
    ¬ ((-1 : Int) ≥ (ResourcePack.empty : ResourcePack Nat).countRes "impact_light") ∧
    threw (soundPack.getRes "dead_big" (-1)) = true ∧
    ¬ ((-1 : Int) ≥ soundPack.countRes "dead_big") := by
  decide

/-- C25, amended: for every pack whose range of `name` is short enough for the
`int` that `countRes` returns, `getRes(name, rank)` throws the
`ResourceException` if and only if `max(rank, 0) >= countRes(name)`, in
particular whenever no resource has that name, whatever the rank; otherwise it
returns the element of `getRange(name)` at the place `max(rank, 0)`.
`getRange(name)` has `countRes(name)` elements; after a sequence of calls on an
empty pack it lists the resources added under the name and not removed since,
in the order in which they were added.  `removeRes(name)` unloads the resources
of the range, empties it, and leaves the range of every other name as it is. -/
theorem getRes_spec {T : Type} (p : ResourcePack T) (name : String) (rank : Int)
    (hsize : (p.getRange name).length < 2 ^ 31) :
    (threw (p.getRes name rank) = true ↔ max rank 0 ≥ p.countRes name) ∧
    (max rank 0 ≥ p.countRes name →
      p.getRes name rank = .error (.ResourceException "no such resource at index")) ∧
    (p.getRange name = [] → threw (p.getRes name rank) = true) ∧
    (max rank 0 < p.countRes name →
      ∃ t, (p.getRange name)[(max rank 0).toNat]? = some t ∧ p.getRes name rank = .ok t) ∧
    p.countRes name = ((p.getRange name).length : Int) ∧
    (∀ ops : List (PackOp T),
      (ResourcePack.empty.applyOps ops).getRange name = addedUnder name ops []) ∧
    (p.removeRes name).getRange name = [] ∧
    (∀ other, other ≠ name → (p.removeRes name).getRange other = p.getRange other) ∧
    (p.removeRes name).unloaded = p.unloaded ++ p.getRange name := by
  have hcount : p.countRes name = ((p.getRange name).length : Int) :=
    sizeToInt_of_lt hsize
  have hplace : (max rank 0).toNat = rank.toNat := by
    rcases le_total rank 0 with h | h
    · rw [max_eq_right h]; omega
    · rw [max_eq_left h]
  have hthrow : max rank 0 ≥ p.countRes name →
      p.getRes name rank = .error (.ResourceException "no such resource at index") := by
    intro h
    rcases ResourcePack.getRes_cases p name rank with ⟨-, he⟩ | ⟨t, ht, -⟩
    · exact he
    · have hlt : rank.toNat < (p.equalRange name).length := by
        by_contra hc
        rw [List.getElem?_eq_none (by omega)] at ht
        cases ht
      rw [hcount] at h
      have : ((p.equalRange name).length : Int) ≤ max rank 0 := h
      omega
  have hreturn : max rank 0 < p.countRes name →
      ∃ t, (p.getRange name)[(max rank 0).toNat]? = some t ∧ p.getRes name rank = .ok t := by
    intro h
    rcases ResourcePack.getRes_cases p name rank with ⟨hle, -⟩ | ⟨t, ht, hok⟩
    · rw [hcount] at h
      have : max rank 0 < ((p.equalRange name).length : Int) := h
      omega
    · exact ⟨t, by rw [hplace]; exact ht, hok⟩
  refine ⟨?_, hthrow, ?_, hreturn, hcount, ?_, ?_, ?_, rfl⟩
  · constructor
    · intro ht
      by_contra hc
      obtain ⟨t, -, hok⟩ := hreturn (by omega)
      rw [hok] at ht
      cases ht
    · intro h
      rw [hthrow h]
      rfl
  · intro hnil
    rw [hthrow]
    · rfl
    · rw [hcount, hnil]
      exact le_max_right rank 0
  · intro ops
    exact ResourcePack.equalRange_applyOps name ops ResourcePack.empty
  · show (p.removeRes name).equalRange name = []
    rw [ResourcePack.equalRange_removeRes, if_pos rfl]
  · intro other hne
    show (p.removeRes name).equalRange other = p.equalRange other
    rw [ResourcePack.equalRange_removeRes, if_neg (fun hc => hne hc.symm)]

/-- C25, amended, in the example pack: the second of the two sounds of a name is
at rank 1, rank 2 is past the end, and a negative rank reads the first. -/
theorem getRes_spec_witness :
    (soundPack.getRange "impact_light").length < 2 ^ 31 ∧
    soundPack.getRange "impact_light" = [11, 12] ∧
    soundPack.getRes "impact_light" 1 = .ok 12 ∧
    soundPack.getRes "impact_light" (-3) = .ok 11 ∧
    threw (soundPack.getRes "impact_light" 2) = true :=
  ⟨by decide, by decide, rfl, rfl,
    (getRes_spec soundPack "impact_light" 2 (by decide)).1.mpr (by decide)⟩

/-! ## The room with its sound pack: where a call can throw -/

theorem SoundRoom.playSound_cases (x : Collab W) (randomInt : Int → Int) (name : String)
    (volume : Int) (sr : SoundRoom W) :
    (sr.finds randomInt name = true ∧
      sr.playSound x randomInt name volume = .ok () (sr.room.playSound x name volume)) ∨
    (sr.finds randomInt name = false ∧
      ∃ e, sr.playSound x randomInt name volume = .thrown e sr.room) := by
  unfold SoundRoom.playSound SoundRoom.finds
  cases h : sr.soundPack.getRandomRes randomInt name with
  | error e => exact Or.inr ⟨rfl, e, rfl⟩
  | ok res => exact Or.inl ⟨rfl, rfl⟩

/-- The method `playImpact` returns what it does on the path without a throw
when its cue is found, and throws in the room as it is otherwise. -/
theorem SoundRoom.playImpact_cases (x : Collab W) (randomInt : Int → Int) (sr : SoundRoom W) :
    ((∀ name, sr.room.impactCue = some name → sr.finds randomInt name = true) ∧
      sr.playImpact x randomInt = .ok () (sr.room.playImpact x)) ∨
    (∃ name e, sr.room.impactCue = some name ∧ sr.finds randomInt name = false ∧
      sr.playImpact x randomInt = .thrown e sr.room) := by
  unfold SoundRoom.playImpact Room.playImpact Room.impactCue
  cases himp : sr.room.impact with
  | NONE => exact Or.inl ⟨(by intro name h; cases h), rfl⟩
  | LIGHT =>
    rcases SoundRoom.playSound_cases x randomInt "impact_light" 50 sr with ⟨hf, hp⟩ | ⟨hf, e, hp⟩
    · refine Or.inl ⟨?_, by simp only [hp]⟩
      intro name h
      cases h
      exact hf
    · exact Or.inr ⟨"impact_light", e, rfl, hf, by simp only [hp]⟩
  | HEAVY =>
    rcases SoundRoom.playSound_cases x randomInt "impact_heavy" 50 sr with ⟨hf, hp⟩ | ⟨hf, e, hp⟩
    · refine Or.inl ⟨?_, by simp only [hp]⟩
      intro name h
      cases h
      exact hf
    · exact Or.inr ⟨"impact_heavy", e, rfl, hf, by simp only [hp]⟩

/-- The method `playDead` returns what it does on the path without a throw when
its cue is found, and throws at its `switch` otherwise. -/
theorem SoundRoom.playDead_cases (x : Collab W) (randomInt : Int → Int) (m : Cube)
    (sr : SoundRoom W) :
    ((∀ name, sr.room.deadCue x m = some name → sr.finds randomInt name = true) ∧
      sr.playDead x randomInt m = .ok () (sr.room.playDead x m)) ∨
    (∃ name e, sr.room.deadCue x m = some name ∧ sr.finds randomInt name = false ∧
      sr.playDead x randomInt m = .thrown e (sr.room.deadAsked x m)) := by
  unfold SoundRoom.playDead Room.playDead Room.deadCue Room.deadAsked
  simp only [Room.call_world, Room.log_world]
  cases hp : x.getPower m (x.killSound (x.getIndex m sr.room.world) sr.room.world) with
  | NONE => exact Or.inl ⟨(by intro name h; cases h), rfl⟩
  | LIGHT =>
    rcases SoundRoom.playSound_cases x randomInt "dead_small" x.playSoundDefault
      { sr with room := ((sr.room.log (.getIndex m (x.getIndex m sr.room.world))).call
        (.killSound (x.getIndex m sr.room.world))
        (x.killSound (x.getIndex m sr.room.world) sr.room.world)).log (.getPower m .LIGHT) }
      with ⟨hf, hs⟩ | ⟨hf, e, hs⟩
    · refine Or.inl ⟨?_, hs⟩
      intro name h
      cases h
      exact hf
    · exact Or.inr ⟨"dead_small", e, rfl, hf, hs⟩
  | HEAVY =>
    rcases SoundRoom.playSound_cases x randomInt "dead_big" x.playSoundDefault
      { sr with room := ((sr.room.log (.getIndex m (x.getIndex m sr.room.world))).call
        (.killSound (x.getIndex m sr.room.world))
        (x.killSound (x.getIndex m sr.room.world) sr.room.world)).log (.getPower m .HEAVY) }
      with ⟨hf, hs⟩ | ⟨hf, e, hs⟩
    · refine Or.inl ⟨?_, hs⟩
      intro name h
      cases h
      exact hf
    · exact Or.inr ⟨"dead_big", e, rfl, hf, hs⟩

theorem Room.deadCue_names (x : Collab W) (m : Cube) (r : Room W) (name : String)
    (h : r.deadCue x m = some name) : name = "dead_small" ∨ name = "dead_big" := by
  unfold Room.deadCue at h
  split at h
  · cases h
  · cases h; exact Or.inl rfl
  · cases h; exact Or.inr rfl

theorem Room.impactCue_names (r : Room W) (name : String)
    (h : r.impactCue = some name) : name = "impact_light" ∨ name = "impact_heavy" := by
  unfold Room.impactCue at h
  split at h
  · cases h
  · cases h; exact Or.inl rfl
  · cases h; exact Or.inr rfl

theorem Room.deadStep_eq (x : Collab W) (b : Bool) (r : Room W) (m : Cube) :
    Room.deadStep x (b, r) m
      = (b || (x.checkDead m r.world).1,
          if (x.checkDead m r.world).1
          then (r.call (.checkDead m (x.checkDead m r.world).1) (x.checkDead m r.world).2).playDead
            x m
          else r.call (.checkDead m (x.checkDead m r.world).1) (x.checkDead m r.world).2) :=
  rfl

/-- The second loop of `prepareRound`: it returns what the loop does on the path
without a throw, or it throws at the `switch` of the `playDead` call of a model
whose death check answered true and whose cue is not found. -/
theorem SoundRoom.deadLoop_cases (x : Collab W) (randomInt : Int → Int) (ms : List Cube)
    (b : Bool) (sr : SoundRoom W) :
    SoundRoom.deadLoop x randomInt ms b sr
      = .ok (ms.foldl (Room.deadStep x) (b, sr.room)).1
          (ms.foldl (Room.deadStep x) (b, sr.room)).2 ∨
    ∃ e pre m post name, ms = pre ++ m :: post ∧
      (x.checkDead m (pre.foldl (Room.deadStep x) (b, sr.room)).2.world).1 = true ∧
      (name = "dead_small" ∨ name = "dead_big") ∧ sr.finds randomInt name = false ∧
      SoundRoom.deadLoop x randomInt ms b sr = .thrown e (Room.deadLoopAt x pre m b sr.room) := by
  induction ms generalizing b sr with
  | nil => exact Or.inl rfl
  | cons m ms ih =>
    rw [List.foldl_cons, Room.deadStep_eq]
    unfold SoundRoom.deadLoop
    simp only []
    cases hdie : (x.checkDead m sr.room.world).1 with
    | false =>
      simp only [Bool.false_eq_true, if_false]
      rcases ih (b || false)
        { sr with room := sr.room.call (.checkDead m false) (x.checkDead m sr.room.world).2 }
        with hok | ⟨e, pre, m1, post, name, hms, hd, hn, hf, hthrow⟩
      · exact Or.inl hok
      · refine Or.inr ⟨e, m :: pre, m1, post, name, by rw [hms]; rfl, ?_, hn, hf, ?_⟩
        · rw [List.foldl_cons, Room.deadStep_eq, hdie]
          exact hd
        · rw [hthrow]
          unfold Room.deadLoopAt
          rw [List.foldl_cons, Room.deadStep_eq, hdie]
          rfl
    | true =>
      simp only [if_true]
      rcases SoundRoom.playDead_cases x randomInt m
        { sr with room := sr.room.call (.checkDead m true) (x.checkDead m sr.room.world).2 }
        with ⟨-, hp⟩ | ⟨name, e, hcue, hf, hp⟩
      · simp only [hp]
        rcases ih (b || true)
          { sr with room := (sr.room.call (.checkDead m true)
            (x.checkDead m sr.room.world).2).playDead x m }
          with hok | ⟨e, pre, m1, post, name, hms, hd, hn, hf, hthrow⟩
        · exact Or.inl hok
        · refine Or.inr ⟨e, m :: pre, m1, post, name, by rw [hms]; rfl, ?_, hn, hf, ?_⟩
          · rw [List.foldl_cons, Room.deadStep_eq, hdie]
            exact hd
          · rw [hthrow]
            unfold Room.deadLoopAt
            rw [List.foldl_cons, Room.deadStep_eq, hdie]
            rfl
      · simp only [hp]
        refine Or.inr ⟨e, [], m, ms, name, rfl, hdie, Room.deadCue_names x m _ name hcue, hf, ?_⟩
        unfold Room.deadLoopAt
        simp only [List.foldl_nil, hdie]

/-- The method `prepareRound` returns what it does on the path without a throw,
or it throws at the `switch` of the `playDead` call of a model whose death
check answered true and whose cue is not found. -/
theorem SoundRoom.prepareRound_cases (x : Collab W) (randomInt : Int → Int)
    (sr : SoundRoom W) :
    sr.prepareRound x randomInt = .ok () (sr.room.prepareRound x) ∨
    ∃ e pre m post name, sr.room.models = pre ++ m :: post ∧
      (name = "dead_small" ∨ name = "dead_big") ∧ sr.finds randomInt name = false ∧
      sr.prepareRound x randomInt = .thrown e (Room.diedAt x pre m sr.room) := by
  unfold SoundRoom.prepareRound Room.prepareRound Room.diedAt
  simp only [Room.log_models]
  rcases SoundRoom.deadLoop_cases x randomInt sr.room.models false
    { sr with room := (sr.room.models.foldl (Room.occupyStep x)
        (sr.room.log (.phase .prepareRound))) }
    with hok | ⟨e, pre, m, post, name, hms, -, hn, hf, hthrow⟩
  · refine Or.inl ?_
    simp only [hok]
  · refine Or.inr ⟨e, pre, m, post, name, hms, hn, hf, ?_⟩
    simp only [hthrow]

/-- The method `beginFall` returns what it does on the path without a throw, or
it throws inside `prepareRound` at the death cue of a model, or, in an
interactive call in which no model left, at the impact cue after the gravity
phase. -/
theorem SoundRoom.beginFall_cases (x : Collab W) (randomInt : Int → Int) (i : Bool)
    (sr : SoundRoom W) :
    sr.beginFall x randomInt i = .ok (sr.room.beginFall x i).1 (sr.room.beginFall x i).2 ∨
    (∃ e pre m post name, sr.room.models = pre ++ m :: post ∧
      (name = "dead_small" ∨ name = "dead_big") ∧ sr.finds randomInt name = false ∧
      sr.beginFall x randomInt i
        = .thrown e (Room.diedAt x pre m { sr.room with fresh := true })) ∨
    (i = true ∧ (sr.room.afterFallout x i).1 = false ∧
      ∃ name e, (sr.room.afterFalldown x i).2.impactCue = some name ∧
        sr.finds randomInt name = false ∧
        sr.beginFall x randomInt i = .thrown e (sr.room.afterFalldown x i).2) := by
  rcases SoundRoom.prepareRound_cases x randomInt
    { sr with room := { sr.room with fresh := true } }
    with hok | ⟨e, pre, m, post, name, hms, hn, hf, hthrow⟩
  · have hprep : SoundRoom.prepareRound x randomInt
        { sr with room := { sr.room with fresh := true } } = .ok () (sr.room.afterPrepare x) := hok
    rcases Room.beginFall_split x i sr.room with ⟨hout, hb⟩ | ⟨hout, hb⟩
    · refine Or.inl ?_
      rw [hb]
      unfold SoundRoom.beginFall
      simp only [hprep]
      exact if_pos hout
    · cases i with
      | false =>
        refine Or.inl ?_
        rw [hb]
        unfold SoundRoom.beginFall
        simp only [hprep]
        rw [if_neg (by rw [show (sr.room.afterPrepare x).fallout x false
          = sr.room.afterFallout x false from rfl, hout]; simp)]
        rfl
      | true =>
        rcases SoundRoom.playImpact_cases x randomInt
          { sr with room := (sr.room.afterFalldown x true).2 }
          with ⟨-, hp⟩ | ⟨name, e, hcue, hf, hp⟩
        · refine Or.inl ?_
          rw [hb]
          unfold SoundRoom.beginFall
          simp only [hprep]
          rw [if_neg (by rw [show (sr.room.afterPrepare x).fallout x true
            = sr.room.afterFallout x true from rfl, hout]; simp)]
          simp only [if_true]
          rw [show SoundRoom.playImpact x randomInt
            { sr with room := (((sr.room.afterPrepare x).fallout x true).2.falldown x).2 }
            = _ from hp]
          rfl
        · refine Or.inr (Or.inr ⟨rfl, hout, name, e, hcue, hf, ?_⟩)
          unfold SoundRoom.beginFall
          simp only [hprep]
          rw [if_neg (by rw [show (sr.room.afterPrepare x).fallout x true
            = sr.room.afterFallout x true from rfl, hout]; simp)]
          simp only [if_true]
          rw [show SoundRoom.playImpact x randomInt
            { sr with room := (((sr.room.afterPrepare x).fallout x true).2.falldown x).2 }
            = _ from hp]
  · refine Or.inr (Or.inl ⟨e, pre, m, post, name, hms, hn, hf, ?_⟩)
    unfold SoundRoom.beginFall
    simp only [hthrow]

/-- The method `nextRound` returns what it does on the path without a throw, or
it throws where its `beginFall` throws. -/
theorem SoundRoom.nextRound_cases (x : Collab W) (randomInt : Int → Int)
    (input : InputProvider) (sr : SoundRoom W) :
    sr.nextRound x randomInt input
      = .ok (sr.room.nextRound x input).1 (sr.room.nextRound x input).2 ∨
    (∃ e pre m post name, sr.room.models = pre ++ m :: post ∧
      (name = "dead_small" ∨ name = "dead_big") ∧ sr.finds randomInt name = false ∧
      sr.nextRound x randomInt input
        = .thrown e (Room.diedAt x pre m { sr.room with fresh := true })) ∨
    (x.beginFallDefault = true ∧ (sr.room.afterFallout x x.beginFallDefault).1 = false ∧
      ∃ name e, (sr.room.afterFalldown x x.beginFallDefault).2.impactCue = some name ∧
        sr.finds randomInt name = false ∧
        sr.nextRound x randomInt input
          = .thrown e (sr.room.afterFalldown x x.beginFallDefault).2) := by
  rcases SoundRoom.beginFall_cases x randomInt x.beginFallDefault sr
    with hok | ⟨e, pre, m, post, name, hms, hn, hf, hthrow⟩ | ⟨hi, hout, name, e, hcue, hf, hthrow⟩
  · refine Or.inl ?_
    unfold SoundRoom.nextRound
    simp only [hok]
    rfl
  · refine Or.inr (Or.inl ⟨e, pre, m, post, name, hms, hn, hf, ?_⟩)
    unfold SoundRoom.nextRound
    simp only [hthrow]
  · refine Or.inr (Or.inr ⟨hi, hout, name, e, hcue, hf, ?_⟩)
    unfold SoundRoom.nextRound
    simp only [hthrow]

/-- A turn of the loop of `loadMove` whose `beginFall` returns. -/
theorem SoundRoom.loadMove_turn (x : Collab W) (randomInt : Int → Int) (n : Nat) (move : Char)
    (sr : SoundRoom W)
    (hok : sr.beginFall x randomInt false
      = .ok (sr.room.beginFall x false).1 (sr.room.beginFall x false).2) :
    (sr.room.fallsOn x = true →
      SoundRoom.loadMove x randomInt (n + 1) move sr
        = SoundRoom.loadMove x randomInt n move { sr with room := (sr.room.fallRound x).2 }) ∧
    (sr.room.fallsOn x = false →
      SoundRoom.loadMove x randomInt (n + 1) move sr
        = .ended (sr.room.loadMove x (n + 1) move)) := by
  constructor
  · intro h
    simp only [Room.fallsOn, Bool.and_eq_true, Bool.not_eq_true'] at h
    have hm := Room.makeMove_not_fresh x move (sr.room.beginFall x false).2
      (by rw [Room.beginFall_fresh, h.1]; rfl)
    have hfin : ((sr.room.beginFall x false).2.finishRound x false).1 = false := h.2
    rw [SoundRoom.loadMove]
    simp only [hok, hm, hfin, h.1, Room.fallRound]
    simp
  · intro h
    rw [SoundRoom.loadMove, Room.loadMove]
    simp only [hok]
    cases hm : (sr.room.beginFall x false).2.makeMove x move with
    | error e r2 => rfl
    | running r2 => rfl
    | ok b r2 =>
      simp only []
      by_cases h1 : ((r2.finishRound x false).1 && (sr.room.beginFall x false).1) = true
      · rw [if_pos h1, if_pos h1]
      · rw [if_neg h1, if_neg h1]
        by_cases h2 : (sr.room.beginFall x false).1 = true
        · exfalso
          have hmm := Room.makeMove_not_fresh x move (sr.room.beginFall x false).2
            (by rw [Room.beginFall_fresh, h2]; rfl)
          rw [hmm] at hm
          cases hm
          rw [h2, Bool.and_true] at h1
          have : sr.room.fallsOn x = true := by
            simp only [Room.fallsOn, Room.fallRound, Bool.and_eq_true, Bool.not_eq_true']
            exact ⟨h2, by simpa using h1⟩
          rw [this] at h
          cases h
        · rw [if_neg h2, if_neg h2]

/-- The method `loadMove` ends as it does on the path without a throw, or it
throws in the `prepareRound` of a turn that follows on falling rounds, at the
death cue of a model. -/
theorem SoundRoom.loadMove_cases (x : Collab W) (randomInt : Int → Int) (fuel : Nat)
    (move : Char) (sr : SoundRoom W) :
    SoundRoom.loadMove x randomInt fuel move sr = .ended (sr.room.loadMove x fuel move) ∨
    ∃ k, k < fuel ∧ Room.fallsThrough x k sr.room ∧
      ∃ e pre m post name, (Room.replayStart x k sr.room).models = pre ++ m :: post ∧
        (name = "dead_small" ∨ name = "dead_big") ∧ sr.finds randomInt name = false ∧
        SoundRoom.loadMove x randomInt fuel move sr
          = .thrown e (Room.diedAt x pre m
              { Room.replayStart x k sr.room with fresh := true }) := by
  induction fuel generalizing sr with
  | zero => exact Or.inl rfl
  | succ n ih =>
    rcases SoundRoom.beginFall_cases x randomInt false sr
      with hok | ⟨e, pre, m, post, name, hms, hn, hf, hthrow⟩ | ⟨hi, -⟩
    · obtain ⟨hfall, hstop⟩ := SoundRoom.loadMove_turn x randomInt n move sr hok
      cases hon : sr.room.fallsOn x with
      | false => exact Or.inl (hstop hon)
      | true =>
        rw [hfall hon, Room.loadMove_falls x n move sr.room hon]
        rcases ih { sr with room := (sr.room.fallRound x).2 }
          with h | ⟨k, hk, hft, e, pre, m, post, name, hms, hn, hf, hthrow⟩
        · exact Or.inl h
        · exact Or.inr ⟨k + 1, Nat.succ_lt_succ hk,
            (Room.fallsThrough_succ x k sr.room).mpr ⟨hon, hft⟩,
            e, pre, m, post, name, hms, hn, hf, hthrow⟩
    · refine Or.inr ⟨0, Nat.succ_pos n, fun i hi => absurd hi (Nat.not_lt_zero i),
        e, pre, m, post, name, hms, hn, hf, ?_⟩
      rw [SoundRoom.loadMove]
      simp only [hthrow]
      rfl
    · cases hi

theorem Room.playDead_fresh (x : Collab W) (m : Cube) (r : Room W) :
    (r.playDead x m).fresh = r.fresh := by
  unfold Room.playDead
  simp only []
  split <;> rfl

theorem Room.deadStep_fresh (x : Collab W) (acc : Bool × Room W) (m : Cube) :
    (Room.deadStep x acc m).2.fresh = acc.2.fresh := by
  unfold Room.deadStep
  simp only []
  split
  · rw [Room.playDead_fresh]; rfl
  · rfl

/-- The room in which `prepareRound` throws: the commit calls are made on all
models, the death checks on the models up to the one whose cue is looked up,
and nothing else of the round; the members of the room are as before. -/
theorem Room.diedAt_state (x : Collab W) (pre : List Cube) (m : Cube) (r : Room W) :
    (Room.diedAt x pre m r).models = r.models ∧
    (Room.diedAt x pre m r).impact = r.impact ∧
    (Room.diedAt x pre m r).fresh = r.fresh ∧
    ∃ d, (Room.diedAt x pre m r).trace
        = r.trace ++ Event.phase .prepareRound :: (r.models.map Event.occupyNewPos ++ d) ∧
      d.filterMap Event.rulesCall = (pre ++ [m]).map (fun c => (RulesOp.checkDead, c)) ∧
      Event.checkDead m true ∈ d ∧
      (∀ e ∈ d, e.inPrepare) ∧
      (∀ e ∈ d, e ≠ .interruptPlan ∧ e ≠ .checkActive) := by
  have hbase : (r.models.foldl (Room.occupyStep x) (r.log (.phase .prepareRound))).trace
      = r.trace ++ Event.phase .prepareRound :: r.models.map Event.occupyNewPos := by
    rw [Room.occupyLoop_trace]
    simp [Room.log]
  obtain ⟨d, hd, hcalls, -, -, hno⟩ := Room.deadLoop_trace x pre
    (false, r.models.foldl (Room.occupyStep x) (r.log (.phase .prepareRound)))
  obtain ⟨d1, hd1, hin⟩ := foldl_emits_pair Event.inPrepare (Room.deadStep x)
    (Room.deadStep_emits x) pre
    (false, r.models.foldl (Room.occupyStep x) (r.log (.phase .prepareRound)))
  have hdd : d1 = d := List.append_cancel_left (hd1.symm.trans hd)
  rw [hdd] at hin
  have hm1 : ∀ s : Room W, (r.models.foldl (Room.occupyStep x) s).models = s.models :=
    foldl_keep Room.models (Room.occupyStep x) (fun _ _ => rfl) _
  have hi1 : ∀ s : Room W, (r.models.foldl (Room.occupyStep x) s).impact = s.impact :=
    foldl_keep Room.impact (Room.occupyStep x) (fun _ _ => rfl) _
  have hf1 : ∀ s : Room W, (r.models.foldl (Room.occupyStep x) s).fresh = s.fresh :=
    foldl_keep Room.fresh (Room.occupyStep x) (fun _ _ => rfl) _
  have hm2 : ∀ acc : Bool × Room W,
      (pre.foldl (Room.deadStep x) acc).2.models = acc.2.models :=
    foldl_keep_pair Room.models _ (Room.deadStep_models x) _
  have hi2 : ∀ acc : Bool × Room W,
      (pre.foldl (Room.deadStep x) acc).2.impact = acc.2.impact :=
    foldl_keep_pair Room.impact _ (Room.deadStep_impact x) _
  have hf2 : ∀ acc : Bool × Room W,
      (pre.foldl (Room.deadStep x) acc).2.fresh = acc.2.fresh :=
    foldl_keep_pair Room.fresh _ (Room.deadStep_fresh x) _
  refine ⟨?_, ?_, ?_, ?_⟩
  · show (pre.foldl (Room.deadStep x) _).2.models = r.models
    rw [hm2, hm1]; rfl
  · show (pre.foldl (Room.deadStep x) _).2.impact = r.impact
    rw [hi2, hi1]; rfl
  · show (pre.foldl (Room.deadStep x) _).2.fresh = r.fresh
    rw [hf2, hf1]; rfl
  · obtain ⟨s0, hs0⟩ : ∃ s0, s0 = (pre.foldl (Room.deadStep x)
        (false, r.models.foldl (Room.occupyStep x) (r.log (.phase .prepareRound)))).2 :=
      ⟨_, rfl⟩
    have htrace : (Room.diedAt x pre m r).trace
        = s0.trace ++ [Event.checkDead m true,
            Event.getIndex m (x.getIndex m (x.checkDead m s0.world).2),
            Event.killSound (x.getIndex m (x.checkDead m s0.world).2),
            Event.getPower m (x.getPower m
              (x.killSound (x.getIndex m (x.checkDead m s0.world).2)
                (x.checkDead m s0.world).2))] := by
      rw [hs0]
      simp [Room.diedAt, Room.deadLoopAt, Room.deadAsked, Room.log, Room.call]
    refine ⟨d ++ [Event.checkDead m true,
      Event.getIndex m (x.getIndex m (x.checkDead m s0.world).2),
      Event.killSound (x.getIndex m (x.checkDead m s0.world).2),
      Event.getPower m (x.getPower m
        (x.killSound (x.getIndex m (x.checkDead m s0.world).2)
          (x.checkDead m s0.world).2))], ?_, ?_, ?_, ?_, ?_⟩
    · rw [htrace, hs0, hd, hbase]
      simp
    · simp [List.filterMap_append, hcalls, Event.rulesCall]
    · simp
    · intro e he
      rcases List.mem_append.mp he with h | h
      · exact hin e h
      · simp only [List.mem_cons, List.mem_singleton, List.not_mem_nil, or_false] at h
        rcases h with rfl | rfl | rfl | rfl <;> exact True.intro
    · intro e he
      rcases List.mem_append.mp he with h | h
      · exact hno e h
      · simp only [List.mem_cons, List.mem_singleton, List.not_mem_nil, or_false] at h
        rcases h with rfl | rfl | rfl | rfl <;> exact ⟨(by intro hc; cases hc), (by intro hc; cases hc)⟩

/-- The events up to a throw inside `prepareRound`. -/
theorem Room.diedAt_events (x : Collab W) (pre : List Cube) (m : Cube) (r : Room W) (b : Bool) :
    ∃ d, eventsSince r (Room.diedAt x pre m { r with fresh := b })
        = Event.phase .prepareRound :: (r.models.map Event.occupyNewPos ++ d) ∧
      d.filterMap Event.rulesCall = (pre ++ [m]).map (fun c => (RulesOp.checkDead, c)) ∧
      Event.checkDead m true ∈ d ∧
      (∀ e ∈ d, e.inPrepare) ∧
      (∀ e ∈ d, e ≠ .interruptPlan ∧ e ≠ .checkActive) := by
  obtain ⟨-, -, -, d, hd, h1, h2, h3, h4⟩ := Room.diedAt_state x pre m { r with fresh := b }
  exact ⟨d, eventsSince_append hd, h1, h2, h3, h4⟩

/-- An interactive `beginFall` in which no model left and a model landed ends,
on the path without a throw, with the impact cue after the events of the
gravity phase. -/
theorem Room.beginFall_impact_last (x : Collab W) (r : Room W) (name : String)
    (hout : (r.afterFallout x true).1 = false)
    (hcue : (r.afterFalldown x true).2.impactCue = some name) :
    eventsSince r (r.beginFall x true).2
      = eventsSince r (r.afterFalldown x true).2 ++ [Event.playSound name 50] ∧
    (r.beginFall x true).1 = (r.afterFalldown x true).1 := by
  obtain ⟨dp, hp, -⟩ := Room.prepareRound_trace x { r with fresh := true }
  obtain ⟨df, hf, -⟩ := Room.fallout_trace x true (r.afterPrepare x)
  obtain ⟨dg, hg, -⟩ := Room.falldown_trace x (r.afterFallout x true).2
  have hall : (r.afterFalldown x true).2.trace
      = r.trace ++ (Event.phase .prepareRound :: dp ++ Event.phase .fallout :: df
          ++ Event.phase .falldown :: dg) := by
    rw [show (r.afterFalldown x true).2.trace = _ from hg,
      show (r.afterFallout x true).2.trace = _ from hf,
      show (r.afterPrepare x).trace = _ from hp]
    simp
  rcases Room.beginFall_split x true r with ⟨h, -⟩ | ⟨-, hb⟩
  · rw [hout] at h
    cases h
  · rw [hb]
    refine ⟨?_, rfl⟩
    have htr : ({ (if true = true then (r.afterFalldown x true).2.playImpact x
          else (r.afterFalldown x true).2) with
        fresh := !(r.afterFalldown x true).1 } : Room W).trace
        = (r.afterFalldown x true).2.trace ++ [Event.playSound name 50] := by
      show ((r.afterFalldown x true).2.playImpact x).trace = _
      unfold Room.impactCue at hcue
      unfold Room.playImpact
      cases himp : (r.afterFalldown x true).2.impact with
      | NONE => rw [himp] at hcue; cases hcue
      | LIGHT => rw [himp] at hcue; cases hcue; rfl
      | HEAVY => rw [himp] at hcue; cases hcue; rfl
    have htot : ({ (if true = true then (r.afterFalldown x true).2.playImpact x
          else (r.afterFalldown x true).2) with
        fresh := !(r.afterFalldown x true).1 } : Room W).trace
        = r.trace ++ ((Event.phase .prepareRound :: dp ++ Event.phase .fallout :: df
          ++ Event.phase .falldown :: dg) ++ [Event.playSound name 50]) := by
      rw [htr, hall, List.append_assoc]
    rw [eventsSince_append htot, eventsSince_append hall]

/-- The events of a `beginFall` on the room with its sound pack, by the way it
ends: the events of the path without a throw; or the events up to the throw in
`prepareRound`; or all events of the path without a throw but the last, the
impact cue. -/
theorem SoundRoom.beginFall_ways (x : Collab W) (randomInt : Int → Int) (i : Bool)
    (sr : SoundRoom W) :
    (sr.beginFall x randomInt i = .ok (sr.room.beginFall x i).1 (sr.room.beginFall x i).2 ∧
      eventsSince sr.room (sr.beginFall x randomInt i).room
        = eventsSince sr.room (sr.room.beginFall x i).2) ∨
    (∃ e pre m post d, sr.room.models = pre ++ m :: post ∧
      sr.beginFall x randomInt i
        = .thrown e (Room.diedAt x pre m { sr.room with fresh := true }) ∧
      eventsSince sr.room (sr.beginFall x randomInt i).room
        = Event.phase .prepareRound :: (sr.room.models.map Event.occupyNewPos ++ d) ∧
      d.filterMap Event.rulesCall = (pre ++ [m]).map (fun c => (RulesOp.checkDead, c)) ∧
      Event.checkDead m true ∈ d ∧
      (∀ e ∈ d, e.inPrepare) ∧
      (∀ e ∈ d, e ≠ .interruptPlan ∧ e ≠ .checkActive)) ∨
    (∃ e name, i = true ∧ (sr.room.afterFallout x true).1 = false ∧
      (sr.room.afterFalldown x true).2.impactCue = some name ∧
      sr.beginFall x randomInt i = .thrown e (sr.room.afterFalldown x true).2 ∧
      eventsSince sr.room (sr.room.beginFall x true).2
        = eventsSince sr.room (sr.beginFall x randomInt i).room
          ++ [Event.playSound name 50]) := by
  rcases SoundRoom.beginFall_cases x randomInt i sr
    with hok | ⟨e, pre, m, post, name, hms, -, -, hthrow⟩ | ⟨hi, hout, name, e, hcue, -, hthrow⟩
  · refine Or.inl ⟨hok, ?_⟩
    rw [hok]
    rfl
  · obtain ⟨d, hd, h1, h2, h3, h4⟩ := Room.diedAt_events x pre m sr.room true
    refine Or.inr (Or.inl ⟨e, pre, m, post, d, hms, hthrow, ?_, h1, h2, h3, h4⟩)
    rw [hthrow]
    exact hd
  · subst hi
    refine Or.inr (Or.inr ⟨e, name, rfl, hout, hcue, hthrow, ?_⟩)
    rw [hthrow]
    exact (Room.beginFall_impact_last x sr.room name hout hcue).1

/-- Up to a throw inside `prepareRound`, every event is the entry of the phase
or a call of `prepareRound`. -/
theorem prepare_events (ms : List Cube) (d : List Event) (hd : ∀ e ∈ d, e.inPrepare) :
    ∀ e ∈ Event.phase .prepareRound :: (ms.map Event.occupyNewPos ++ d),
      e = Event.phase .prepareRound ∨ e.inPrepare := by
  intro e he
  rcases List.mem_cons.mp he with h | h
  · exact Or.inl h
  · rcases List.mem_append.mp h with h | h
    · obtain ⟨m, -, rfl⟩ := List.mem_map.mp h
      exact Or.inr True.intro
    · exact Or.inr (hd e h)

theorem Event.inPrepare_checks (e : Event) (h : e = Event.phase .prepareRound ∨ e.inPrepare) :
    e.outChecked = none ∧ e.fallChecked = none ∧ e.satisfyReport = none ∧
      e.exited = none ∧ e.fallingNow = none ∧ e.landedModel = none := by
  rcases h with rfl | h
  · exact ⟨rfl, rfl, rfl, rfl, rfl, rfl⟩
  · cases e <;> first
      | exact False.elim h
      | exact ⟨rfl, rfl, rfl, rfl, rfl, rfl⟩

/-! ### C5: exit preempts gravity -/

/-- The method `nextRound` throws exactly where its `beginFall` throws. -/
theorem SoundRoom.nextRound_thrown (x : Collab W) (randomInt : Int → Int)
    (input : InputProvider) (sr : SoundRoom W) (e : PackException) (s : Room W)
    (h : sr.beginFall x randomInt x.beginFallDefault = .thrown e s) :
    sr.nextRound x randomInt input = .thrown e s := by
  unfold SoundRoom.nextRound
  simp only [h]

/-- The events of a `nextRound` on the room with its sound pack, by the way it
ends. -/
theorem SoundRoom.nextRound_ways (x : Collab W) (randomInt : Int → Int)
    (input : InputProvider) (sr : SoundRoom W) :
    (sr.nextRound x randomInt input
        = .ok (sr.room.nextRound x input).1 (sr.room.nextRound x input).2 ∧
      eventsSince sr.room (sr.nextRound x randomInt input).room
        = eventsSince sr.room (sr.room.nextRound x input).2) ∨
    (∃ e pre m post d, sr.room.models = pre ++ m :: post ∧
      sr.nextRound x randomInt input
        = .thrown e (Room.diedAt x pre m { sr.room with fresh := true }) ∧
      eventsSince sr.room (sr.nextRound x randomInt input).room
        = Event.phase .prepareRound :: (sr.room.models.map Event.occupyNewPos ++ d) ∧
      d.filterMap Event.rulesCall = (pre ++ [m]).map (fun c => (RulesOp.checkDead, c)) ∧
      Event.checkDead m true ∈ d ∧
      (∀ e ∈ d, e.inPrepare) ∧
      (∀ e ∈ d, e ≠ .interruptPlan ∧ e ≠ .checkActive)) ∨
    (∃ e name, x.beginFallDefault = true ∧ (sr.room.afterFallout x true).1 = false ∧
      (sr.room.afterFalldown x true).2.impactCue = some name ∧
      sr.nextRound x randomInt input = .thrown e (sr.room.afterFalldown x true).2 ∧
      eventsSince sr.room (sr.room.beginFall x true).2
        = eventsSince sr.room (sr.nextRound x randomInt input).room
          ++ [Event.playSound name 50]) := by
  rcases SoundRoom.beginFall_ways x randomInt x.beginFallDefault sr
    with ⟨hok, -⟩ | ⟨e, pre, m, post, d, hms, hthrow, hev, h1, h2, h3, h4⟩
      | ⟨e, name, hi, hout, hcue, hthrow, hev⟩
  · have hn : sr.nextRound x randomInt input
        = .ok (sr.room.nextRound x input).1 (sr.room.nextRound x input).2 := by
      unfold SoundRoom.nextRound
      simp only [hok]
      rfl
    refine Or.inl ⟨hn, ?_⟩
    rw [hn]
    rfl
  · have hn := SoundRoom.nextRound_thrown x randomInt input sr e _ hthrow
    refine Or.inr (Or.inl ⟨e, pre, m, post, d, hms, hn, ?_, h1, h2, h3, h4⟩)
    rw [hn]
    rw [hthrow] at hev
    exact hev
  · have hn := SoundRoom.nextRound_thrown x randomInt input sr e _ hthrow
    refine Or.inr (Or.inr ⟨e, name, hi, hout, hcue, hn, ?_⟩)
    rw [hn]
    rw [hthrow] at hev
    exact hev

/-- When the two death cues are found, and the two impact cues too if the call
is interactive, `beginFall` returns. -/
theorem SoundRoom.beginFall_returns (x : Collab W) (randomInt : Int → Int) (i : Bool)
    (sr : SoundRoom W)
    (hdead : sr.finds randomInt "dead_small" = true ∧ sr.finds randomInt "dead_big" = true)
    (himpact : i = false ∨
      (sr.finds randomInt "impact_light" = true ∧ sr.finds randomInt "impact_heavy" = true)) :
    sr.beginFall x randomInt i = .ok (sr.room.beginFall x i).1 (sr.room.beginFall x i).2 := by
  rcases SoundRoom.beginFall_cases x randomInt i sr
    with hok | ⟨e, pre, m, post, name, -, hn, hf, -⟩ | ⟨hi, -, name, e, hcue, hf, -⟩
  · exact hok
  · rcases hn with rfl | rfl
    · rw [hdead.1] at hf; cases hf
    · rw [hdead.2] at hf; cases hf
  · rcases himpact with h | h
    · rw [h] at hi; cases hi
    · rcases Room.impactCue_names _ name hcue with rfl | rfl
      · rw [h.1] at hf; cases hf
      · rw [h.2] at hf; cases hf

/-- When the two death cues are found, and the two impact cues too if the
default of `beginFall` is interactive, `nextRound` returns. -/
theorem SoundRoom.nextRound_returns (x : Collab W) (randomInt : Int → Int)
    (input : InputProvider) (sr : SoundRoom W)
    (hdead : sr.finds randomInt "dead_small" = true ∧ sr.finds randomInt "dead_big" = true)
    (himpact : x.beginFallDefault = false ∨
      (sr.finds randomInt "impact_light" = true ∧ sr.finds randomInt "impact_heavy" = true)) :
    sr.nextRound x randomInt input
      = .ok (sr.room.nextRound x input).1 (sr.room.nextRound x input).2 := by
  unfold SoundRoom.nextRound
  simp only [SoundRoom.beginFall_returns x randomInt x.beginFallDefault sr hdead himpact]
  rfl

/-- When the two death cues are found, `loadMove` ends as on the path without a
throw. -/
theorem SoundRoom.loadMove_returns (x : Collab W) (randomInt : Int → Int) (fuel : Nat)
    (move : Char) (sr : SoundRoom W)
    (hdead : sr.finds randomInt "dead_small" = true ∧ sr.finds randomInt "dead_big" = true) :
    SoundRoom.loadMove x randomInt fuel move sr = .ended (sr.room.loadMove x fuel move) := by
  rcases SoundRoom.loadMove_cases x randomInt fuel move sr
    with hok | ⟨k, -, -, e, pre, m, post, name, -, hn, hf, -⟩
  · exact hok
  · rcases hn with rfl | rfl
    · rw [hdead.1] at hf; cases hf
    · rw [hdead.2] at hf; cases hf

/-- When the two death cues are found, `prepareRound` returns. -/
theorem SoundRoom.prepareRound_returns (x : Collab W) (randomInt : Int → Int)
    (sr : SoundRoom W)
    (hdead : sr.finds randomInt "dead_small" = true ∧ sr.finds randomInt "dead_big" = true) :
    sr.prepareRound x randomInt = .ok () (sr.room.prepareRound x) := by
  rcases SoundRoom.prepareRound_cases x randomInt sr
    with hok | ⟨e, pre, m, post, name, -, hn, hf, -⟩
  · exact hok
  · rcases hn with rfl | rfl
    · rw [hdead.1] at hf; cases hf
    · rw [hdead.2] at hf; cases hf

/-- Reports of all models in order, all true: the list of the models, each with
the answer true. -/
theorem reports_all_true (l : List (Cube × Bool)) (ms : List Cube) :
    (l.map Prod.fst = ms ∧ l.all Prod.snd = true) ↔ l = ms.map (fun m => (m, true)) := by
  induction l generalizing ms with
  | nil =>
    constructor
    · rintro ⟨h, -⟩
      rw [← h]; rfl
    · intro h
      cases ms with
      | nil => exact ⟨rfl, rfl⟩
      | cons m ms => cases h
  | cons p l ih =>
    cases ms with
    | nil =>
      constructor
      · rintro ⟨h, -⟩; cases h
      · intro h; cases h
    | cons m ms =>
      obtain ⟨a, b⟩ := p
      simp only [List.map_cons, List.cons.injEq, List.all_cons, Bool.and_eq_true, Prod.mk.injEq]
      constructor
      · rintro ⟨⟨h1, h2⟩, h3, h4⟩
        exact ⟨⟨h1, h3⟩, (ih ms).mp ⟨h2, h4⟩⟩
      · rintro ⟨⟨h1, h3⟩, h⟩
        obtain ⟨h2, h4⟩ := (ih ms).mpr h
        exact ⟨⟨h1, h2⟩, h3, h4⟩

/-- A room without models has no impact after the gravity phase. -/
theorem Room.afterFalldown_empty (x : Collab W) (i : Bool) (r : Room W)
    (h : r.models = []) : (r.afterFalldown x i).2.impact = .NONE := by
  have hm : (r.afterFallout x i).2.models = [] := by
    rw [← h]
    simp [Room.afterFallout, Room.afterPrepare]
  unfold Room.afterFalldown Room.falldown
  simp only [Room.log_models, hm, List.foldl_nil]

theorem Room.impactCue_none (r : Room W) (h : r.impact = .NONE) : r.impactCue = none := by
  unfold Room.impactCue
  rw [h]

/-- No goal is queried during `beginFall`. -/
theorem Room.beginFall_no_reports (x : Collab W) (i : Bool) (r : Room W) :
    (eventsSince r (r.beginFall x i).2).filterMap Event.satisfyReport = [] := by
  obtain ⟨d, hd, hin, -⟩ := Room.beginFall_trace x i r
  rw [eventsSince_append hd, List.filterMap_cons]
  have := filterMap_eq_nil_of Event.satisfyReport _ d hin Event.inBeginFall_satisfyReport
  simp [Event.satisfyReport, this]

/-- C6: `nextRound` returns true if and only if every model is asked in the
finishing phase of the round whether its goal is satisfied and every model
answers true: the `isSatisfy` queries of the call are one for each model, in
collection order, each answered true.  A call that returns has made these
queries in the finishing phase only, once on every model in collection order,
and returns whether all answers are true; a call that a cue lookup throws out
of is in a room with a model and has not asked any.  So a room without models
yields true on every call. -/
theorem nextRound_complete_iff (x : Collab W) (randomInt : Int → Int) (input : InputProvider)
    (sr : SoundRoom W) :
    ((∃ s, sr.nextRound x randomInt input = .ok true s) ↔
      (eventsSince sr.room (sr.nextRound x randomInt input).room).filterMap Event.satisfyReport
        = sr.room.models.map (fun m => (m, true))) ∧
    (∀ b s, sr.nextRound x randomInt input = .ok b s →
      ((eventsSince sr.room s).filterMap Event.satisfyReport).map Prod.fst = sr.room.models ∧
      b = ((eventsSince sr.room s).filterMap Event.satisfyReport).all Prod.snd ∧
      ∃ pre post, eventsSince sr.room s = pre ++ Event.phase .finishRound :: post ∧
        pre.filterMap Event.satisfyReport = [] ∧ ∀ e ∈ post, e.inFinish) ∧
    ((sr.nextRound x randomInt input).returned = false →
      (eventsSince sr.room (sr.nextRound x randomInt input).room).filterMap Event.satisfyReport
        = [] ∧ sr.room.models ≠ []) ∧
    (sr.room.models = [] → ∃ s, sr.nextRound x randomInt input = .ok true s) := by
  obtain ⟨pre, post, htrace, hpre, hF, hmodels, hres⟩ := Room.nextRound_trace x input sr.room
  have hev := eventsSince_append htrace
  have hrep : (eventsSince sr.room (sr.room.nextRound x input).2).filterMap Event.satisfyReport
      = post.filterMap Event.satisfyReport := by
    rw [hev]; simp [List.filterMap_append, hpre, Event.satisfyReport]
  have hthrown : ∀ e s, sr.nextRound x randomInt input = .thrown e s →
      (eventsSince sr.room s).filterMap Event.satisfyReport = [] ∧ sr.room.models ≠ [] := by
    intro e0 s0 h0
    rcases SoundRoom.nextRound_ways x randomInt input sr
      with ⟨hok, -⟩ | ⟨e, pre1, m, post1, d, hms, hthrow, hT, -, -, hin, -⟩
        | ⟨e, name, hi, hout, hcue, hthrow, hT⟩
    · rw [hok] at h0; cases h0
    · rw [h0] at hT
      refine ⟨?_, by rw [hms]; cases pre1 <;> simp⟩
      rw [show eventsSince sr.room s0 = _ from hT, List.filterMap_eq_nil_iff]
      exact fun a ha =>
        (Event.inPrepare_checks a (prepare_events sr.room.models d hin a ha)).2.2.1
    · rw [h0] at hT
      have hnil := Room.beginFall_no_reports x true sr.room
      rw [hT, List.filterMap_append, List.append_eq_nil] at hnil
      refine ⟨hnil.1, ?_⟩
      intro hm
      rw [Room.impactCue_none _ (Room.afterFalldown_empty x true sr.room hm)] at hcue
      cases hcue
  rcases SoundRoom.nextRound_ways x randomInt input sr
    with ⟨hok, hT⟩ | ⟨e, pre1, m, post1, d, hms, hthrow, -⟩ | ⟨e, name, hi, hout, hcue, hthrow, -⟩
  · rw [hT, hrep]
    refine ⟨?_, ?_, ?_, ?_⟩
    · rw [← reports_all_true, hok]
      constructor
      · rintro ⟨s, hs⟩
        exact ⟨hmodels, by rw [← hres]; exact (Tried.ok.inj hs).1⟩
      · rintro ⟨-, h⟩
        exact ⟨(sr.room.nextRound x input).2, by rw [hres, h]⟩
    · intro b s hbs
      rw [hok] at hbs
      obtain ⟨hb, hs⟩ := Tried.ok.inj hbs
      subst hb hs
      rw [hrep]
      exact ⟨hmodels, hres, pre, post, hev, hpre, hF⟩
    · intro h
      rw [hok] at h
      cases h
    · intro hnil
      refine ⟨(sr.room.nextRound x input).2, ?_⟩
      have htrue : (sr.room.nextRound x input).1 = true := by
        rw [hres]
        rw [hnil] at hmodels
        rw [List.map_eq_nil_iff.mp hmodels]
        rfl
      rw [hok, htrue]
  all_goals
    obtain ⟨hrepT, hne⟩ := hthrown _ _ hthrow
    refine ⟨?_, ?_, ?_, fun h => absurd h hne⟩
    · constructor
      · rintro ⟨s, hs⟩
        rw [hthrow] at hs
        cases hs
      · intro h
        rw [hthrow] at h
        have h2 := hrepT.symm.trans h
        exfalso
        cases hm : sr.room.models with
        | nil => exact hne hm
        | cons a l => rw [hm] at h2; cases h2
    · intro b s hbs
      rw [hthrow] at hbs
      cases hbs
    · intro _
      rw [hthrow]
      exact ⟨hrepT, hne⟩

/-- C6 in the example rooms: a room without models is complete; a room with an
unsatisfied model is not; and the call that the missing death cue throws out of
has asked no model. -/
theorem nextRound_complete_iff_witness :
    (∃ s, (SoundRoom.create 3).nextRound toy firstRes 0 = .ok true s) ∧
    (¬ ∃ s, toyRoom.sounding.nextRound toy firstRes 0 = .ok true s) ∧
    (dyingRoom.silent.nextRound toyDeath firstRes 0).returned = false ∧
    (eventsSince dyingRoom (dyingRoom.silent.nextRound toyDeath firstRes 0).room).filterMap
      Event.satisfyReport = [] :=
  ⟨(nextRound_complete_iff toy firstRes 0 (SoundRoom.create 3)).2.2.2 rfl,
   fun h => absurd ((nextRound_complete_iff toy firstRes 0 toyRoom.sounding).1.mp h) (by decide),
   by decide,
   ((nextRound_complete_iff toyDeath firstRes 0 dyingRoom.silent).2.2.1 (by decide)).1⟩

/-! ### C9: how `loadMove` ends -/

/-- A `beginFall` that returns, returns what it does on the path without a throw. -/
theorem SoundRoom.beginFall_of_returned (x : Collab W) (randomInt : Int → Int) (i : Bool)
    (sr : SoundRoom W) (h : (sr.beginFall x randomInt i).returned = true) :
    sr.beginFall x randomInt i = .ok (sr.room.beginFall x i).1 (sr.room.beginFall x i).2 := by
  rcases SoundRoom.beginFall_cases x randomInt i sr
    with hok | ⟨e, pre, m, post, name, -, -, -, hthrow⟩ | ⟨-, -, name, e, -, -, hthrow⟩
  · exact hok
  · rw [hthrow] at h; cases h
  · rw [hthrow] at h; cases h

/-- A `beginFall` that does not return throws, at a death cue that is not found
if the call is not interactive. -/
theorem SoundRoom.beginFall_of_thrown (x : Collab W) (randomInt : Int → Int)
    (sr : SoundRoom W) (h : (sr.beginFall x randomInt false).returned = false) :
    ∃ e s name, sr.beginFall x randomInt false = .thrown e s ∧
      (name = "dead_small" ∨ name = "dead_big") ∧ sr.finds randomInt name = false := by
  rcases SoundRoom.beginFall_cases x randomInt false sr
    with hok | ⟨e, pre, m, post, name, -, hn, hf, hthrow⟩ | ⟨hi, -⟩
  · rw [hok] at h; cases h
  · exact ⟨e, _, name, hthrow, hn, hf⟩
  · cases hi

/-- With `n` turns of fuel the loop of `loadMove` is still running after `n`
falling rounds, or a cue lookup has thrown in a turn `j < n`, or the loop has
been decided in a turn `j < n` that was not a falling round. -/
theorem SoundRoom.loadMove_find (x : Collab W) (randomInt : Int → Int) (move : Char)
    (n : Nat) (sr : SoundRoom W) :
    (Room.fallsThrough x n sr.room ∧ (∀ i, i < n → sr.heard x randomInt i = true) ∧
      SoundRoom.loadMove x randomInt n move sr
        = .ended (.running (Room.replayStart x n sr.room))) ∨
    (∃ j, j < n ∧ Room.fallsThrough x j sr.room ∧
      (∀ i, i < j → sr.heard x randomInt i = true) ∧ sr.heard x randomInt j = false ∧
      ∃ e s, SoundRoom.beginFall x randomInt false
          { sr with room := Room.replayStart x j sr.room } = .thrown e s ∧
        SoundRoom.loadMove x randomInt n move sr = .thrown e s) ∨
    (∃ j, j < n ∧ Room.fallsThrough x j sr.room ∧
      (∀ i, i ≤ j → sr.heard x randomInt i = true) ∧
      (Room.replayStart x j sr.room).fallsOn x = false ∧
      SoundRoom.loadMove x randomInt n move sr
        = .ended ((Room.replayStart x j sr.room).loadMove x 1 move)) := by
  induction n generalizing sr with
  | zero =>
    exact Or.inl ⟨fun i hi => absurd hi (Nat.not_lt_zero i),
      fun i hi => absurd hi (Nat.not_lt_zero i), rfl⟩
  | succ n ih =>
    cases hret : sr.heard x randomInt 0 with
    | false =>
      obtain ⟨e, s, name, hthrow, -, -⟩ := SoundRoom.beginFall_of_thrown x randomInt sr hret
      refine Or.inr (Or.inl ⟨0, Nat.succ_pos n, fun i hi => absurd hi (Nat.not_lt_zero i),
        fun i hi => absurd hi (Nat.not_lt_zero i), hret, e, s, hthrow, ?_⟩)
      rw [SoundRoom.loadMove]
      simp only [hthrow]
    | true =>
      have hok := SoundRoom.beginFall_of_returned x randomInt false sr hret
      obtain ⟨hfall, hstop⟩ := SoundRoom.loadMove_turn x randomInt n move sr hok
      cases hf : sr.room.fallsOn x with
      | false =>
        refine Or.inr (Or.inr ⟨0, Nat.succ_pos n, fun i hi => absurd hi (Nat.not_lt_zero i),
          ?_, hf, ?_⟩)
        · intro i hi
          rw [Nat.le_zero.mp hi]
          exact hret
        · rw [hstop hf, Room.loadMove_stop_fuel x move n 0 sr.room hf]
          rfl
      | true =>
        rw [hfall hf]
        rcases ih { sr with room := (sr.room.fallRound x).2 }
          with ⟨hft, hh, hrun⟩ | ⟨j, hj, hft, hh, hnot, e, s, hthrow, hl⟩
            | ⟨j, hj, hft, hh, hnf, hl⟩
        · refine Or.inl ⟨(Room.fallsThrough_succ x n sr.room).mpr ⟨hf, hft⟩, ?_, hrun⟩
          intro i hi
          cases i with
          | zero => exact hret
          | succ i => exact hh i (Nat.lt_of_succ_lt_succ hi)
        · refine Or.inr (Or.inl ⟨j + 1, Nat.succ_lt_succ hj,
            (Room.fallsThrough_succ x j sr.room).mpr ⟨hf, hft⟩, ?_, hnot, e, s, hthrow, hl⟩)
          intro i hi
          cases i with
          | zero => exact hret
          | succ i => exact hh i (Nat.lt_of_succ_lt_succ hi)
        · refine Or.inr (Or.inr ⟨j + 1, Nat.succ_lt_succ hj,
            (Room.fallsThrough_succ x j sr.room).mpr ⟨hf, hft⟩, ?_, hnf, hl⟩)
          intro i hi
          cases i with
          | zero => exact hret
          | succ i => exact hh i (Nat.le_of_succ_le_succ hi)

theorem SoundRoom.prepareRound_ok (x : Collab W) (randomInt : Int → Int) (sr : SoundRoom W)
    (s : Room W) (h : sr.prepareRound x randomInt = .ok () s) : s = sr.room.prepareRound x := by
  rcases SoundRoom.prepareRound_cases x randomInt sr with hok | ⟨e, pre, m, post, name, -, -, -, ht⟩
  · rw [hok] at h
    exact (Tried.ok.inj h).2.symm
  · rw [ht] at h
    exact Tried.noConfusion h

theorem SoundRoom.beginFall_ok (x : Collab W) (randomInt : Int → Int) (i : Bool)
    (sr : SoundRoom W) (b : Bool) (s : Room W) (h : sr.beginFall x randomInt i = .ok b s) :
    b = (sr.room.beginFall x i).1 ∧ s = (sr.room.beginFall x i).2 := by
  rcases SoundRoom.beginFall_cases x randomInt i sr
    with hok | ⟨e, pre, m, post, name, -, -, -, ht⟩ | ⟨-, -, name, e, -, -, ht⟩
  · rw [hok] at h
    exact ⟨(Tried.ok.inj h).1.symm, (Tried.ok.inj h).2.symm⟩
  · rw [ht] at h
    exact Tried.noConfusion h
  · rw [ht] at h
    exact Tried.noConfusion h

theorem SoundRoom.nextRound_ok (x : Collab W) (randomInt : Int → Int) (input : InputProvider)
    (sr : SoundRoom W) (b : Bool) (s : Room W) (h : sr.nextRound x randomInt input = .ok b s) :
    b = (sr.room.nextRound x input).1 ∧ s = (sr.room.nextRound x input).2 ∧
      sr.beginFall x randomInt x.beginFallDefault
        = .ok (sr.room.beginFall x x.beginFallDefault).1
            (sr.room.beginFall x x.beginFallDefault).2 := by
  rcases SoundRoom.beginFall_cases x randomInt x.beginFallDefault sr
    with hok | ⟨e, pre, m, post, name, -, -, -, ht⟩ | ⟨-, -, name, e, -, -, ht⟩
  · rcases SoundRoom.nextRound_ways x randomInt input sr
      with ⟨hn, -⟩ | ⟨e, pre, m, post, d, -, ht, -⟩ | ⟨e, name, -, -, -, ht, -⟩
    · rw [hn] at h
      exact ⟨(Tried.ok.inj h).1.symm, (Tried.ok.inj h).2.symm, hok⟩
    · rw [ht] at h
      exact Tried.noConfusion h
    · rw [ht] at h
      exact Tried.noConfusion h
  · rw [SoundRoom.nextRound_thrown x randomInt input sr e _ ht] at h
    exact Tried.noConfusion h
  · rw [SoundRoom.nextRound_thrown x randomInt input sr e _ ht] at h
    exact Tried.noConfusion h

/-- The state and the events of a `beginFall` that a cue lookup throws out of:
either the throw is in `prepareRound`, at the death cue of a model `m`, or the
call is interactive, no model left, and the throw is at the impact cue. -/
theorem SoundRoom.beginFall_thrown_cases (x : Collab W) (randomInt : Int → Int) (i : Bool)
    (sr : SoundRoom W) (e : PackException) (s : Room W)
    (h : sr.beginFall x randomInt i = .thrown e s) :
    (∃ pre m post d, sr.room.models = pre ++ m :: post ∧
      s = Room.diedAt x pre m { sr.room with fresh := true } ∧
      eventsSince sr.room s
        = Event.phase .prepareRound :: (sr.room.models.map Event.occupyNewPos ++ d) ∧
      d.filterMap Event.rulesCall = (pre ++ [m]).map (fun c => (RulesOp.checkDead, c)) ∧
      Event.checkDead m true ∈ d ∧
      (∀ e ∈ d, e.inPrepare) ∧
      (∀ e ∈ d, e ≠ .interruptPlan ∧ e ≠ .checkActive)) ∨
    (∃ name, i = true ∧ (sr.room.afterFallout x true).1 = false ∧
      (sr.room.afterFalldown x true).2.impactCue = some name ∧
      s = (sr.room.afterFalldown x true).2 ∧
      eventsSince sr.room (sr.room.beginFall x true).2
        = eventsSince sr.room s ++ [Event.playSound name 50]) := by
  rcases SoundRoom.beginFall_ways x randomInt i sr
    with ⟨hok, -⟩ | ⟨e1, pre, m, post, d, hms, ht, hev, h1, h2, h3, h4⟩
      | ⟨e1, name, hi, hout, hcue, ht, hev⟩
  · rw [hok] at h
    exact Tried.noConfusion h
  · rw [h] at ht hev
    exact Or.inl ⟨pre, m, post, d, hms, (Tried.thrown.inj ht).2, hev, h1, h2, h3, h4⟩
  · rw [h] at ht hev
    exact Or.inr ⟨name, hi, hout, hcue, (Tried.thrown.inj ht).2, hev⟩

/-- The state and the events of a `nextRound` that a cue lookup throws out of. -/
theorem SoundRoom.nextRound_thrown_cases (x : Collab W) (randomInt : Int → Int)
    (input : InputProvider) (sr : SoundRoom W) (e : PackException) (s : Room W)
    (h : sr.nextRound x randomInt input = .thrown e s) :
    (∃ pre m post d, sr.room.models = pre ++ m :: post ∧
      s = Room.diedAt x pre m { sr.room with fresh := true } ∧
      eventsSince sr.room s
        = Event.phase .prepareRound :: (sr.room.models.map Event.occupyNewPos ++ d) ∧
      d.filterMap Event.rulesCall = (pre ++ [m]).map (fun c => (RulesOp.checkDead, c)) ∧
      Event.checkDead m true ∈ d ∧
      (∀ e ∈ d, e.inPrepare) ∧
      (∀ e ∈ d, e ≠ .interruptPlan ∧ e ≠ .checkActive)) ∨
    (∃ name, x.beginFallDefault = true ∧ (sr.room.afterFallout x true).1 = false ∧
      (sr.room.afterFalldown x true).2.impactCue = some name ∧
      s = (sr.room.afterFalldown x true).2 ∧
      eventsSince sr.room (sr.room.beginFall x true).2
        = eventsSince sr.room s ++ [Event.playSound name 50]) := by
  rcases SoundRoom.nextRound_ways x randomInt input sr
    with ⟨hok, -⟩ | ⟨e1, pre, m, post, d, hms, ht, hev, h1, h2, h3, h4⟩
      | ⟨e1, name, hi, hout, hcue, ht, hev⟩
  · rw [hok] at h
    exact Tried.noConfusion h
  · rw [h] at ht hev
    exact Or.inl ⟨pre, m, post, d, hms, (Tried.thrown.inj ht).2, hev, h1, h2, h3, h4⟩
  · rw [h] at ht hev
    exact Or.inr ⟨name, hi, hout, hcue, (Tried.thrown.inj ht).2, hev⟩

/-- The steps of a round among the events of a call that a cue lookup throws
out of: `prepareRound` alone when the throw is at a death cue; `prepareRound`,
`fallout` and `falldown` when it is at the impact cue.  No `driving` call, no
entry of `finishRound`, no model asked to finish the round. -/
theorem thrown_steps (x : Collab W) (r s : Room W)
    (h : (∃ (ms : List Cube) (d : List Event), eventsSince r s
          = Event.phase .prepareRound :: (ms.map Event.occupyNewPos ++ d) ∧
        (∀ e ∈ d, e.inPrepare)) ∨
      (∃ name, (r.afterFallout x true).1 = false ∧
        eventsSince r (r.beginFall x true).2 = eventsSince r s ++ [Event.playSound name 50])) :
    ((eventsSince r s).filterMap Event.roundStep = [Event.phase .prepareRound] ∨
      (eventsSince r s).filterMap Event.roundStep
        = [Event.phase .prepareRound, Event.phase .fallout, Event.phase .falldown]) ∧
    (eventsSince r s).filterMap Event.finishCalled = [] ∧
    (eventsSince r s).filterMap Event.phaseEntered ≠ [] ∧
    Phase.finishRound ∉ (eventsSince r s).filterMap Event.phaseEntered := by
  rcases h with ⟨ms, d, hev, hd⟩ | ⟨name, hout, hev⟩
  · have hall := prepare_events ms d hd
    rw [← hev] at hall
    have hstep : (ms.map Event.occupyNewPos ++ d).filterMap Event.roundStep = [] := by
      rw [List.filterMap_eq_nil_iff]
      intro e he
      rcases List.mem_append.mp he with he | he
      · obtain ⟨m, -, rfl⟩ := List.mem_map.mp he
        rfl
      · have := hd e he
        cases e <;> first
          | exact False.elim this
          | rfl
    have hph : (ms.map Event.occupyNewPos ++ d).filterMap Event.phaseEntered = [] := by
      rw [List.filterMap_eq_nil_iff]
      intro e he
      rcases List.mem_append.mp he with he | he
      · obtain ⟨m, -, rfl⟩ := List.mem_map.mp he
        rfl
      · have := hd e he
        cases e <;> first
          | exact False.elim this
          | rfl
    have hfin : (ms.map Event.occupyNewPos ++ d).filterMap Event.finishCalled = [] := by
      rw [List.filterMap_eq_nil_iff]
      intro e he
      rcases List.mem_append.mp he with he | he
      · obtain ⟨m, -, rfl⟩ := List.mem_map.mp he
        rfl
      · have := hd e he
        cases e <;> first
          | exact False.elim this
          | rfl
    rw [hev]
    simp [List.filterMap_cons, Event.roundStep, Event.finishCalled, Event.phaseEntered,
      hstep, hph, hfin]
  · obtain ⟨hres, -, hph, hfc⟩ := Room.beginFall_observed x true r
    obtain ⟨db, hb, hB, -⟩ := Room.beginFall_trace x true r
    obtain ⟨hex, -, -⟩ := Room.beginFall_landing_events x true r
    have hnil : (eventsSince r (r.beginFall x true).2).filterMap Event.exited = [] := by
      rw [hout] at hex
      cases hd : (eventsSince r (r.beginFall x true).2).filterMap Event.exited with
      | nil => rfl
      | cons a l => rw [hd] at hex; cases hex
    rw [if_pos hnil] at hph
    have b1 : (eventsSince r (r.beginFall x true).2).filterMap Event.roundStep
        = ((eventsSince r (r.beginFall x true).2).filterMap Event.phaseEntered).map
            Event.phase := by
      apply roundStep_eq_phases
      rw [eventsSince_append hb]
      intro e he
      rcases List.mem_cons.mp he with rfl | he
      · exact trivial
      · exact e.inBeginFall_notDriving (hB e he)
    rw [hph] at b1
    rw [hev] at b1 hph hfc
    simp only [List.filterMap_append, List.filterMap_cons, List.filterMap_nil, Event.roundStep,
      Event.phaseEntered, Event.finishCalled, List.append_nil] at b1 hph hfc
    refine ⟨Or.inr b1, hfc, ?_, ?_⟩
    · rw [hph]; simp
    · rw [hph]; simp

/-! ### C11: rounds per invocation, on the room with its sound pack -/

/-- C11, amended: every `nextRound` that returns has advanced the simulation by
exactly one round: `prepareRound`, `fallout`, `falldown` (unless a model left)
and `finishRound` were entered once each, in this order, and every model's rules
were asked exactly once to finish the round.  A `nextRound` that a cue lookup
throws out of has not finished a round: `finishRound` was not entered and no
model's rules were asked to finish.  A `loadMove` that returns has advanced the
simulation by `k + 1` rounds, where `k` is the number of falling rounds before
the round in which nothing falls and the move is made: `prepareRound` and
`finishRound` have been entered `k + 1` times and every model's rules have been
asked `k + 1` times to finish a round; it is one round only when `k = 0`. -/
theorem rounds_per_invocation (x : Collab W) (randomInt : Int → Int) (sr : SoundRoom W) :
    (∀ input b s, sr.nextRound x randomInt input = .ok b s →
      (eventsSince sr.room s).filterMap Event.phaseEntered
        = [.prepareRound, .fallout]
          ++ (if (eventsSince sr.room s).filterMap Event.exited = [] then [.falldown] else [])
          ++ [.finishRound] ∧
      (eventsSince sr.room s).filterMap Event.finishCalled = sr.room.models) ∧
    (∀ input e s, sr.nextRound x randomInt input = .thrown e s →
      Phase.finishRound ∉ (eventsSince sr.room s).filterMap Event.phaseEntered ∧
      (eventsSince sr.room s).filterMap Event.finishCalled = []) ∧
    (∀ fuel move b s, SoundRoom.loadMove x randomInt fuel move sr = .ended (.ok b s) →
      ∃ k, k < fuel ∧ Room.fallsThrough x k sr.room ∧
        (∀ i, i ≤ k → sr.heard x randomInt i = true) ∧
        ((Room.replayStart x k sr.room).beginFall x false).1 = false ∧
        s.finishCalls = sr.room.finishCalls ++ (List.replicate (k + 1) sr.room.models).flatten ∧
        s.entered .prepareRound = sr.room.entered .prepareRound + (k + 1) ∧
        s.entered .finishRound = sr.room.entered .finishRound + (k + 1)) := by
  refine ⟨?_, ?_, ?_⟩
  · intro input b s h
    obtain ⟨-, hs, -⟩ := SoundRoom.nextRound_ok x randomInt input sr b s h
    rw [hs]
    exact Room.nextRound_one_round x input sr.room
  · intro input e s h
    have hsteps : _ := thrown_steps x sr.room s
      (by
        rcases SoundRoom.nextRound_thrown_cases x randomInt input sr e s h
          with ⟨pre, m, post, d, -, -, hev, -, -, hd, -⟩ | ⟨name, -, hout, -, -, hev⟩
        · exact Or.inl ⟨_, d, hev, hd⟩
        · exact Or.inr ⟨name, hout, hev⟩)
    exact ⟨hsteps.2.2.2, hsteps.2.1⟩
  · intro fuel move b s h
    rcases SoundRoom.loadMove_find x randomInt move fuel sr
      with ⟨-, -, hrun⟩ | ⟨j, -, -, -, -, e1, s1, -, hl⟩ | ⟨j, hj, hft, hh, hstop, hl⟩
    · rw [hrun] at h; cases h
    · rw [hl] at h; cases h
    · have htotal : sr.room.loadMove x fuel move = .ok b s := by
        rcases SoundRoom.loadMove_cases x randomInt fuel move sr
          with hok | ⟨k, -, -, e, pre, m, post, name, -, -, -, ht⟩
        · rw [hok] at h
          exact Ending.ended.inj h
        · rw [ht] at h; cases h
      obtain ⟨k, hk, hftk, hstopk, h1, h2, h3⟩ :=
        Room.loadMove_ok_rounds x fuel move sr.room b s htotal
      have hjk : j = k := by
        rw [hl] at h
        have htot1 := Ending.ended.inj h
        obtain ⟨k1, hk1, -, -, -, g2, -⟩ :=
          Room.loadMove_ok_rounds x 1 move (Room.replayStart x j sr.room) b s htot1
        have hk10 : k1 = 0 := by omega
        subst hk10
        have hent := (Room.replayStart_counts x j sr.room).1
        rw [hent] at g2
        omega
      subst hjk
      exact ⟨j, hj, hft, hh, hstopk, h1, h2, h3⟩

theorem rounds_per_invocation_witness :
    toyRoom.sounding.nextRound toy firstRes 0
      = .ok (toyRoom.nextRound toy 0).1 (toyRoom.nextRound toy 0).2 ∧
    (eventsSince toyRoom (toyRoom.nextRound toy 0).2).filterMap Event.finishCalled = [4, 6] ∧
    (eventsSince toyRoom (toyRoom.nextRound toy 0).2).filterMap Event.phaseEntered
      = [.prepareRound, .fallout, .falldown, .finishRound] ∧
    dyingRoom.silent.nextRound toyDeath firstRes 0
      = .thrown (.ResourceException "no such resource")
          (dyingRoom.silent.nextRound toyDeath firstRes 0).room ∧
    (eventsSince dyingRoom (dyingRoom.silent.nextRound toyDeath firstRes 0).room).filterMap
      Event.finishCalled = [] :=
  ⟨by decide,
   ((rounds_per_invocation toy firstRes toyRoom.sounding).1 0 _ _
      (show toyRoom.sounding.nextRound toy firstRes 0
        = .ok (toyRoom.nextRound toy 0).1 (toyRoom.nextRound toy 0).2 by decide)).2,
   ((rounds_per_invocation toy firstRes toyRoom.sounding).1 0 _ _
      (show toyRoom.sounding.nextRound toy firstRes 0
        = .ok (toyRoom.nextRound toy 0).1 (toyRoom.nextRound toy 0).2 by decide)).1.trans
      (by decide),
   by decide,
   ((rounds_per_invocation toyDeath firstRes dyingRoom.silent).2.1 0 _ _
      (show dyingRoom.silent.nextRound toyDeath firstRes 0
        = .thrown (.ResourceException "no such resource")
            (dyingRoom.silent.nextRound toyDeath firstRes 0).room by decide)).2⟩

/-! ### C14: the sound cues, on the room with its sound pack -/

/-- C14, as stated, fails: `landedRoom` carries the impact `HEAVY`, and with the
sound pack of a new room, which has no cue, `playImpact` is thrown out of by the
lookup of `impact_heavy`: the sound agent is not called and the impact is left
at `HEAVY`, not at `NONE`. -/
theorem playImpact_throw_keeps_impact :
    landedRoom.impact = .HEAVY ∧
    landedRoom.silent.playImpact toy firstRes
      = .thrown (.ResourceException "no such resource") landedRoom ∧
    eventsSince landedRoom (landedRoom.silent.playImpact toy firstRes).room = [] ∧
    (landedRoom.silent.playImpact toy firstRes).room.impact = .HEAVY := by
  decide

/-- C14, amended: `playImpact` looks up the cue `impact_light` when the impact
is `LIGHT`, `impact_heavy` when it is `HEAVY` and nothing when it is `NONE`.
When the cue is in the sound pack (or none is looked up) the call returns: it
has requested from the sound agent exactly the cue of the weight class, at
volume 50, and has left the impact at `NONE`.  When the cue is not in the pack
the lookup throws: no cue is requested and the room, with its impact, is left as
it was.  `playDead` looks up `dead_small` for a model of power `LIGHT`,
`dead_big` for power `HEAVY` and no cue for another power; when it returns it
has requested exactly that cue, and when the cue is not in the pack it is thrown
out of after the `killSound` call and the `getPower` query, with no cue
requested. -/
theorem sound_cues (x : Collab W) (randomInt : Int → Int) (model : Cube) (sr : SoundRoom W) :
    (∀ s, sr.playImpact x randomInt = .ok () s →
      eventsSince sr.room s
        = (match sr.room.impact with
          | .NONE => []
          | .LIGHT => [Event.playSound "impact_light" 50]
          | .HEAVY => [Event.playSound "impact_heavy" 50]) ∧
      ((∃ volume, Event.playSound "impact_light" volume ∈ eventsSince sr.room s)
        ↔ sr.room.impact = .LIGHT) ∧
      ((∃ volume, Event.playSound "impact_heavy" volume ∈ eventsSince sr.room s)
        ↔ sr.room.impact = .HEAVY) ∧
      s.impact = .NONE) ∧
    (∀ e s, sr.playImpact x randomInt = .thrown e s →
      s = sr.room ∧
      ((sr.room.impact = .LIGHT ∧ sr.finds randomInt "impact_light" = false) ∨
        (sr.room.impact = .HEAVY ∧ sr.finds randomInt "impact_heavy" = false))) ∧
    ((sr.playImpact x randomInt).returned = true ↔
      (sr.room.impact = .LIGHT → sr.finds randomInt "impact_light" = true) ∧
      (sr.room.impact = .HEAVY → sr.finds randomInt "impact_heavy" = true)) ∧
    (∀ s, sr.playDead x randomInt model = .ok () s →
      (eventsSince sr.room s).filterMap Event.soundCue
        = (match x.getPower model
              (x.killSound (x.getIndex model sr.room.world) sr.room.world) with
          | .LIGHT => ["dead_small"]
          | .HEAVY => ["dead_big"]
          | .NONE => [])) ∧
    (∀ e s, sr.playDead x randomInt model = .thrown e s →
      s = sr.room.deadAsked x model ∧
      (eventsSince sr.room s).filterMap Event.soundCue = [] ∧
      ((x.getPower model (x.killSound (x.getIndex model sr.room.world) sr.room.world) = .LIGHT ∧
          sr.finds randomInt "dead_small" = false) ∨
        (x.getPower model (x.killSound (x.getIndex model sr.room.world) sr.room.world) = .HEAVY ∧
          sr.finds randomInt "dead_big" = false))) ∧
    ((sr.playDead x randomInt model).returned = true ↔
      (x.getPower model (x.killSound (x.getIndex model sr.room.world) sr.room.world) = .LIGHT →
        sr.finds randomInt "dead_small" = true) ∧
      (x.getPower model (x.killSound (x.getIndex model sr.room.world) sr.room.world) = .HEAVY →
        sr.finds randomInt "dead_big" = true)) := by
  have hcueI : ∀ name, sr.room.impactCue = some name →
      (sr.room.impact = .LIGHT ∧ name = "impact_light") ∨
      (sr.room.impact = .HEAVY ∧ name = "impact_heavy") := by
    intro name h
    unfold Room.impactCue at h
    cases himp : sr.room.impact <;> rw [himp] at h
    · cases h
    · exact Or.inl ⟨rfl, (Option.some.inj h).symm⟩
    · exact Or.inr ⟨rfl, (Option.some.inj h).symm⟩
  have hcueD : ∀ name, sr.room.deadCue x model = some name →
      (x.getPower model (x.killSound (x.getIndex model sr.room.world) sr.room.world) = .LIGHT ∧
        name = "dead_small") ∨
      (x.getPower model (x.killSound (x.getIndex model sr.room.world) sr.room.world) = .HEAVY ∧
        name = "dead_big") := by
    intro name h
    unfold Room.deadCue at h
    cases hp : x.getPower model (x.killSound (x.getIndex model sr.room.world) sr.room.world) <;>
      rw [hp] at h
    · cases h
    · exact Or.inl ⟨rfl, (Option.some.inj h).symm⟩
    · exact Or.inr ⟨rfl, (Option.some.inj h).symm⟩
  have hI := SoundRoom.playImpact_cases x randomInt sr
  have hD := SoundRoom.playDead_cases x randomInt model sr
  refine ⟨?_, ?_, ?_, ?_, ?_, ?_⟩
  · intro s h
    rcases hI with ⟨-, hok⟩ | ⟨name, e, -, -, ht⟩
    · rw [hok] at h
      rw [← (Tried.ok.inj h).2]
      exact Room.cues_requested x model sr.room |>.imp_right
        (fun h2 => ⟨h2.1, h2.2.1, h2.2.2.1⟩)
    · rw [ht] at h
      exact Tried.noConfusion h
  · intro e s h
    rcases hI with ⟨-, hok⟩ | ⟨name, e1, hcue, hf, ht⟩
    · rw [hok] at h
      exact Tried.noConfusion h
    · rw [ht] at h
      refine ⟨(Tried.thrown.inj h).2.symm, ?_⟩
      rcases hcueI name hcue with ⟨h1, rfl⟩ | ⟨h1, rfl⟩
      · exact Or.inl ⟨h1, hf⟩
      · exact Or.inr ⟨h1, hf⟩
  · rcases hI with ⟨hall, hok⟩ | ⟨name, e1, hcue, hf, ht⟩
    · rw [hok]
      refine ⟨fun _ => ⟨fun h1 => hall _ ?_, fun h1 => hall _ ?_⟩, fun _ => rfl⟩
      · unfold Room.impactCue; rw [h1]
      · unfold Room.impactCue; rw [h1]
    · rw [ht]
      refine ⟨fun h => (by cases h), fun h => ?_⟩
      rcases hcueI name hcue with ⟨h1, rfl⟩ | ⟨h1, rfl⟩
      · rw [h.1 h1] at hf; cases hf
      · rw [h.2 h1] at hf; cases hf
  · intro s h
    rcases hD with ⟨-, hok⟩ | ⟨name, e, -, -, ht⟩
    · rw [hok] at h
      rw [← (Tried.ok.inj h).2]
      exact (Room.cues_requested x model sr.room).2.2.2.2
    · rw [ht] at h
      exact Tried.noConfusion h
  · intro e s h
    rcases hD with ⟨-, hok⟩ | ⟨name, e1, hcue, hf, ht⟩
    · rw [hok] at h
      exact Tried.noConfusion h
    · rw [ht] at h
      refine ⟨(Tried.thrown.inj h).2.symm, ?_, ?_⟩
      · rw [← (Tried.thrown.inj h).2]
        have htr : (sr.room.deadAsked x model).trace = sr.room.trace ++
            [Event.getIndex model (x.getIndex model sr.room.world),
              Event.killSound (x.getIndex model sr.room.world),
              Event.getPower model (x.getPower model
                (x.killSound (x.getIndex model sr.room.world) sr.room.world))] := by
          simp [Room.deadAsked]
        rw [eventsSince_append htr]
        rfl
      · rcases hcueD name hcue with ⟨h1, rfl⟩ | ⟨h1, rfl⟩
        · exact Or.inl ⟨h1, hf⟩
        · exact Or.inr ⟨h1, hf⟩
  · rcases hD with ⟨hall, hok⟩ | ⟨name, e1, hcue, hf, ht⟩
    · rw [hok]
      refine ⟨fun _ => ⟨fun h1 => hall _ ?_, fun h1 => hall _ ?_⟩, fun _ => rfl⟩
      · unfold Room.deadCue; rw [h1]
      · unfold Room.deadCue; rw [h1]
    · rw [ht]
      refine ⟨fun h => (by cases h), fun h => ?_⟩
      rcases hcueD name hcue with ⟨h1, rfl⟩ | ⟨h1, rfl⟩
      · rw [h.1 h1] at hf; cases hf
      · rw [h.2 h1] at hf; cases hf

theorem sound_cues_witness :
    eventsSince landedRoom (landedRoom.sounding.playImpact toy firstRes).room
      = [Event.playSound "impact_heavy" 50] ∧
    (landedRoom.sounding.playImpact toy firstRes).room.impact = .NONE ∧
    (landedRoom.silent.playImpact toy firstRes).room = landedRoom ∧
    landedRoom.silent.finds firstRes "impact_heavy" = false :=
  ⟨((sound_cues toy firstRes 7 landedRoom.sounding).1 _
      (show landedRoom.sounding.playImpact toy firstRes
        = .ok () (landedRoom.sounding.playImpact toy firstRes).room by decide)).1,
   ((sound_cues toy firstRes 7 landedRoom.sounding).1 _
      (show landedRoom.sounding.playImpact toy firstRes
        = .ok () (landedRoom.sounding.playImpact toy firstRes).room by decide)).2.2.2,
   ((sound_cues toy firstRes 7 landedRoom.silent).2.1 (.ResourceException "no such resource") _
      (show landedRoom.silent.playImpact toy firstRes
        = .thrown (.ResourceException "no such resource")
            (landedRoom.silent.playImpact toy firstRes).room by decide)).1,
   by decide⟩

/-! ### C16: the answer of `beginFall`, on the room with its sound pack -/

/-- C16, amended: a `beginFall` that returns, returns true if and only if at
least one exit check answered with a positive depth or at least one fall check
answered `FALL_NOW`; it returns false exactly when no exit check answered with a
positive depth and no fall check answered `FALL_NOW`, that is, every fall check
answered `NONE` or `FALL_LAST`.  A `beginFall` returns unless the lookup of a
cue throws, which needs a cue that is not in the sound pack: a death cue, or,
in an interactive call, an impact cue. -/
theorem beginFall_result (x : Collab W) (randomInt : Int → Int) (interactive : Bool)
    (sr : SoundRoom W) :
    (∀ b s, sr.beginFall x randomInt interactive = .ok b s →
      (b = true ↔
        (∃ m depth, Event.actionOut m depth ∈ eventsSince sr.room s ∧ 0 < depth) ∨
        ∃ m, Event.actionFall m .FALL_NOW ∈ eventsSince sr.room s) ∧
      (b = false ↔
        (∀ m depth, Event.actionOut m depth ∈ eventsSince sr.room s → depth ≤ 0) ∧
        ∀ m fall, Event.actionFall m fall ∈ eventsSince sr.room s →
          fall = .NONE ∨ fall = .FALL_LAST)) ∧
    ((sr.beginFall x randomInt interactive).returned = false →
      (∃ name, (name = "dead_small" ∨ name = "dead_big") ∧ sr.finds randomInt name = false) ∨
      (interactive = true ∧
        ∃ name, (name = "impact_light" ∨ name = "impact_heavy") ∧
          sr.finds randomInt name = false)) := by
  refine ⟨?_, ?_⟩
  · intro b s h
    obtain ⟨hb, hs⟩ := SoundRoom.beginFall_ok x randomInt interactive sr b s h
    rw [hb, hs]
    exact Room.beginFall_answer x interactive sr.room
  · intro h
    rcases SoundRoom.beginFall_cases x randomInt interactive sr
      with hok | ⟨e, pre, m, post, name, -, hn, hf, -⟩ | ⟨hi, -, name, e, hcue, hf, -⟩
    · rw [hok] at h
      cases h
    · exact Or.inl ⟨name, hn, hf⟩
    · exact Or.inr ⟨hi, name, Room.impactCue_names _ name hcue, hf⟩

theorem beginFall_result_witness :
    landingRoom.sounding.beginFall toy firstRes true
      = .ok false (landingRoom.sounding.beginFall toy firstRes true).room ∧
    (∀ m fall, Event.actionFall m fall
        ∈ eventsSince landingRoom (landingRoom.sounding.beginFall toy firstRes true).room →
      fall = .NONE ∨ fall = .FALL_LAST) ∧
    (landingRoom.silent.beginFall toy firstRes true).returned = false ∧
    (landingRoom.silent.beginFall toy firstRes false).returned = true :=
  ⟨by decide,
   (((beginFall_result toy firstRes true landingRoom.sounding).1 false _
      (show landingRoom.sounding.beginFall toy firstRes true
        = .ok false (landingRoom.sounding.beginFall toy firstRes true).room by decide)).2.mp
      rfl).2,
   by decide, by decide⟩

/-! ### C18: the three loops of `prepareRound`, on the room with its sound pack -/

/-- The state and the events of a `prepareRound` that a cue lookup throws out
of: the throw is at the death cue of a model `m`, inside the second loop. -/
theorem SoundRoom.prepareRound_thrown_cases (x : Collab W) (randomInt : Int → Int)
    (sr : SoundRoom W) (e : PackException) (s : Room W)
    (h : sr.prepareRound x randomInt = .thrown e s) :
    ∃ pre m post d name, sr.room.models = pre ++ m :: post ∧
      (name = "dead_small" ∨ name = "dead_big") ∧ sr.finds randomInt name = false ∧
      s = Room.diedAt x pre m sr.room ∧
      eventsSince sr.room s
        = Event.phase .prepareRound :: (sr.room.models.map Event.occupyNewPos ++ d) ∧
      d.filterMap Event.rulesCall = (pre ++ [m]).map (fun c => (RulesOp.checkDead, c)) ∧
      Event.checkDead m true ∈ d ∧
      (∀ e ∈ d, e.inPrepare) ∧
      (∀ e ∈ d, e ≠ .interruptPlan ∧ e ≠ .checkActive) := by
  rcases SoundRoom.prepareRound_cases x randomInt sr
    with hok | ⟨e1, pre, m, post, name, hms, hn, hf, ht⟩
  · rw [hok] at h
    exact Tried.noConfusion h
  · rw [ht] at h
    obtain ⟨-, -, -, d, htr, h1, h2, h3, h4⟩ := Room.diedAt_state x pre m sr.room
    refine ⟨pre, m, post, d, name, hms, hn, hf, (Tried.thrown.inj h).2.symm, ?_, h1, h2, h3, h4⟩
    rw [← (Tried.thrown.inj h).2]
    exact eventsSince_append htr

/-- C18, as stated, fails: in the room whose first model dies, with the sound
pack of a new room, `prepareRound` is thrown out of by the lookup of the death
cue of the first model: the rules calls are `occupyNewPos` on both models and
`checkDead` on the first one only; the second model has no death check and no
model has a state change. -/
theorem prepareRound_throw_cuts_loops :
    dyingRoom.models = [7, 4] ∧
    dyingRoom.silent.prepareRound toyDeath firstRes
      = .thrown (.ResourceException "no such resource")
          (dyingRoom.silent.prepareRound toyDeath firstRes).room ∧
    (eventsSince dyingRoom (dyingRoom.silent.prepareRound toyDeath firstRes).room).filterMap
        Event.rulesCall
      = [(.occupyNewPos, 7), (.occupyNewPos, 4), (.checkDead, 7)] := by
  decide

/-- C18, amended: in every `prepareRound` that returns, the calls on the
models' rules are `occupyNewPos` on every model in collection order, then
`checkDead` on every model in collection order, then `changeState` on every
model in collection order, and nothing else: each of the three operations is
called exactly once per model, every commit call comes before every death
check, and every death check before every state change.  A `prepareRound` that
the lookup of a death cue throws out of has made the `occupyNewPos` calls on
every model in order and then the `checkDead` calls, in order, on the models up
to the one whose death check answered true and whose cue is missing; the models
after it have no death check and no model has a state change.  It is thrown out
of only when a death cue is not in the sound pack. -/
theorem prepareRound_phase_by_phase (x : Collab W) (randomInt : Int → Int) (sr : SoundRoom W) :
    (∀ s, sr.prepareRound x randomInt = .ok () s →
      (eventsSince sr.room s).filterMap Event.rulesCall
        = sr.room.models.map (fun m => (RulesOp.occupyNewPos, m))
          ++ sr.room.models.map (fun m => (RulesOp.checkDead, m))
          ++ sr.room.models.map (fun m => (RulesOp.changeState, m))) ∧
    (∀ e s, sr.prepareRound x randomInt = .thrown e s →
      ∃ pre m post, sr.room.models = pre ++ m :: post ∧
        Event.checkDead m true ∈ eventsSince sr.room s ∧
        (eventsSince sr.room s).filterMap Event.rulesCall
          = sr.room.models.map (fun m => (RulesOp.occupyNewPos, m))
            ++ (pre ++ [m]).map (fun m => (RulesOp.checkDead, m))) ∧
    ((sr.prepareRound x randomInt).returned = false →
      ∃ name, (name = "dead_small" ∨ name = "dead_big") ∧ sr.finds randomInt name = false) := by
  refine ⟨?_, ?_, ?_⟩
  · intro s h
    rw [SoundRoom.prepareRound_ok x randomInt sr s h]
    exact Room.prepareRound_loops x sr.room
  · intro e s h
    obtain ⟨pre, m, post, d, name, hms, -, -, -, hev, h1, h2, -, -⟩ :=
      SoundRoom.prepareRound_thrown_cases x randomInt sr e s h
    refine ⟨pre, m, post, hms, ?_, ?_⟩
    · rw [hev]
      exact List.mem_cons_of_mem _ (List.mem_append_right _ h2)
    · rw [hev, List.filterMap_cons, List.filterMap_append, rulesCall_map_occupy, h1]
      rfl
  · intro h
    rcases SoundRoom.prepareRound_cases x randomInt sr
      with hok | ⟨e1, pre, m, post, name, -, hn, hf, -⟩
    · rw [hok] at h
      cases h
    · exact ⟨name, hn, hf⟩

theorem prepareRound_phase_by_phase_witness :
    (eventsSince toyRoom (toyRoom.sounding.prepareRound toy firstRes).room).filterMap
        Event.rulesCall
      = [(.occupyNewPos, 4), (.occupyNewPos, 6), (.checkDead, 4), (.checkDead, 6),
          (.changeState, 4), (.changeState, 6)] ∧
    (∃ pre m post, dyingRoom.models = pre ++ m :: post ∧
      Event.checkDead m true
        ∈ eventsSince dyingRoom (dyingRoom.silent.prepareRound toyDeath firstRes).room ∧
      (eventsSince dyingRoom (dyingRoom.silent.prepareRound toyDeath firstRes).room).filterMap
          Event.rulesCall
        = dyingRoom.models.map (fun m => (RulesOp.occupyNewPos, m))
          ++ (pre ++ [m]).map (fun m => (RulesOp.checkDead, m))) :=
  ⟨(prepareRound_phase_by_phase toy firstRes toyRoom.sounding).1 _
      (show toyRoom.sounding.prepareRound toy firstRes
        = .ok () (toyRoom.sounding.prepareRound toy firstRes).room by decide),
   (prepareRound_phase_by_phase toyDeath firstRes dyingRoom.silent).2.1
      (.ResourceException "no such resource") _
      (show dyingRoom.silent.prepareRound toyDeath firstRes
        = .thrown (.ResourceException "no such resource")
            (dyingRoom.silent.prepareRound toyDeath firstRes).room by decide)⟩

/-! ### C19: the interruptions, on the room with its sound pack -/

/-- C19, as stated, fails: in the room whose first model dies, with the sound
pack of a new room, the death check of the first model answers true and
`prepareRound` is thrown out of by the lookup of its death cue: neither
`interruptPlan` nor `checkActive` is called. -/
theorem prepareRound_throw_skips_interrupt :
    Event.checkDead 7 true
      ∈ eventsSince dyingRoom (dyingRoom.silent.prepareRound toyDeath firstRes).room ∧
    (dyingRoom.silent.prepareRound toyDeath firstRes).returned = false ∧
    (eventsSince dyingRoom (dyingRoom.silent.prepareRound toyDeath firstRes).room).count
      .interruptPlan = 0 ∧
    (eventsSince dyingRoom (dyingRoom.silent.prepareRound toyDeath firstRes).room).count
      .checkActive = 0 := by
  decide

/-- C19, amended: a `prepareRound` that returns has called the planner's
`interruptPlan` and the controls' `checkActive` exactly once each if some death
check of the call answered true, and not at all otherwise, and has started
`playDead` once for each model whose death check answered true, in order.  A
`prepareRound` that the lookup of a death cue throws out of has called neither
`interruptPlan` nor `checkActive`, although a death check answered true.  And
`fallout`, which looks up no cue, calls `interruptPlan` exactly once if some exit
check of the call answered with a positive depth, and not at all otherwise. -/
theorem interruptPlan_on_death_and_exit (x : Collab W) (randomInt : Int → Int)
    (interactive : Bool) (sr : SoundRoom W) :
    (∀ s, sr.prepareRound x randomInt = .ok () s →
      ((∃ m, Event.checkDead m true ∈ eventsSince sr.room s) →
        (eventsSince sr.room s).count .interruptPlan = 1 ∧
        (eventsSince sr.room s).count .checkActive = 1) ∧
      ((∀ m, Event.checkDead m true ∉ eventsSince sr.room s) →
        (eventsSince sr.room s).count .interruptPlan = 0 ∧
        (eventsSince sr.room s).count .checkActive = 0) ∧
      (eventsSince sr.room s).filterMap Event.playDeadFor
        = (eventsSince sr.room s).filterMap Event.died) ∧
    (∀ e s, sr.prepareRound x randomInt = .thrown e s →
      (∃ m, Event.checkDead m true ∈ eventsSince sr.room s) ∧
      (eventsSince sr.room s).count .interruptPlan = 0 ∧
      (eventsSince sr.room s).count .checkActive = 0) ∧
    ((∃ m depth, Event.actionOut m depth
          ∈ eventsSince sr.room (sr.room.fallout x interactive).2 ∧ 0 < depth) →
      (eventsSince sr.room (sr.room.fallout x interactive).2).count .interruptPlan = 1) ∧
    ((∀ m depth, Event.actionOut m depth
          ∈ eventsSince sr.room (sr.room.fallout x interactive).2 → depth ≤ 0) →
      (eventsSince sr.room (sr.room.fallout x interactive).2).count .interruptPlan = 0) := by
  obtain ⟨g1, g2, g3, g4, g5⟩ := Room.interrupts_made x interactive sr.room
  refine ⟨?_, ?_, g4, g5⟩
  · intro s h
    rw [SoundRoom.prepareRound_ok x randomInt sr s h]
    exact ⟨g1, g2, g3⟩
  · intro e s h
    obtain ⟨pre, m, post, d, name, -, -, -, -, hev, -, h2, -, h4⟩ :=
      SoundRoom.prepareRound_thrown_cases x randomInt sr e s h
    have hno : ∀ a ∈ eventsSince sr.room s, a ≠ Event.interruptPlan ∧ a ≠ Event.checkActive := by
      rw [hev]
      intro a ha
      rcases List.mem_cons.mp ha with rfl | ha
      · exact ⟨(by intro hc; cases hc), (by intro hc; cases hc)⟩
      · rcases List.mem_append.mp ha with ha | ha
        · obtain ⟨c, -, rfl⟩ := List.mem_map.mp ha
          exact ⟨(by intro hc; cases hc), (by intro hc; cases hc)⟩
        · exact h4 a ha
    refine ⟨⟨m, ?_⟩, ?_, ?_⟩
    · rw [hev]
      exact List.mem_cons_of_mem _ (List.mem_append_right _ h2)
    · rw [List.count_eq_zero]
      exact fun hmem => (hno _ hmem).1 rfl
    · rw [List.count_eq_zero]
      exact fun hmem => (hno _ hmem).2 rfl

theorem interruptPlan_on_death_and_exit_witness :
    (eventsSince deadRoom (deadRoom.sounding.prepareRound toyDeath firstRes).room).count
      .interruptPlan = 1 ∧
    (eventsSince dyingRoom (dyingRoom.silent.prepareRound toyDeath firstRes).room).count
      .interruptPlan = 0 ∧
    (eventsSince exitRoom (exitRoom.fallout toy true).2).count .interruptPlan = 1 :=
  ⟨(((interruptPlan_on_death_and_exit toyDeath firstRes true deadRoom.sounding).1 _
      (show deadRoom.sounding.prepareRound toyDeath firstRes
        = .ok () (deadRoom.sounding.prepareRound toyDeath firstRes).room by decide)).1
      ⟨7, by decide⟩).1,
   ((interruptPlan_on_death_and_exit toyDeath firstRes true dyingRoom.silent).2.1
      (.ResourceException "no such resource") _
      (show dyingRoom.silent.prepareRound toyDeath firstRes
        = .thrown (.ResourceException "no such resource")
            (dyingRoom.silent.prepareRound toyDeath firstRes).room by decide)).2.1,
   (interruptPlan_on_death_and_exit toy firstRes true exitRoom.sounding).2.2.1
      ⟨100, 1, by decide, by decide⟩⟩

/-! ### C22: the order of the phases of `nextRound`, on the room with its sound pack -/

/-- C22, as stated, fails: with the sound pack of a new room, `nextRound` in the
room whose first model dies is thrown out of inside `prepareRound`, and
`nextRound` in the room whose model lands is thrown out of at the impact cue,
after `falldown`: in both calls `finishRound` is not run, and in the second one
the control layer is not asked to drive although nothing is falling or
leaving. -/
theorem nextRound_throw_skips_finish :
    (dyingRoom.silent.nextRound toyDeath firstRes 0).returned = false ∧
    (eventsSince dyingRoom (dyingRoom.silent.nextRound toyDeath firstRes 0).room).filterMap
        Event.roundStep
      = [.phase .prepareRound] ∧
    (landingRoom.silent.nextRound toy firstRes 0).returned = false ∧
    (landingRoom.beginFall toy true).1 = false ∧
    (eventsSince landingRoom (landingRoom.silent.nextRound toy firstRes 0).room).filterMap
        Event.roundStep
      = [.phase .prepareRound, .phase .fallout, .phase .falldown] := by
  decide

/-- C22, amended: the steps of a `nextRound` that returns, in the order in which
they are taken: `prepareRound` is entered, then `fallout`, then `falldown` if and
only if no model left, then the control layer is asked once to drive the input
if and only if `beginFall` answered that nothing falls or leaves, and last
`finishRound` is entered; no phase is entered a second time, the events of the
round are those of `beginFall`, then the `driving` call if it is made, then
those of `finishRound`, and the round answers what `finishRound` answers.  A
`nextRound` that the lookup of a cue throws out of has taken the first steps in
this order and no others: `prepareRound` alone when the throw is at a death
cue, and `prepareRound`, `fallout`, `falldown` when it is at the impact cue;
the control layer is not asked to drive and `finishRound` is not entered. -/
theorem nextRound_phase_order (x : Collab W) (randomInt : Int → Int) (input : InputProvider)
    (sr : SoundRoom W) :
    (∀ b s, sr.nextRound x randomInt input = .ok b s →
      ∃ falling r1, sr.beginFall x randomInt x.beginFallDefault = .ok falling r1) ∧
    (∀ b s falling r1, sr.nextRound x randomInt input = .ok b s →
      sr.beginFall x randomInt x.beginFallDefault = .ok falling r1 →
        (eventsSince sr.room s).filterMap Event.roundStep
          = [Event.phase .prepareRound, Event.phase .fallout]
            ++ (if (eventsSince sr.room s).filterMap Event.exited = []
                then [Event.phase .falldown] else [])
            ++ (if falling then [] else [Event.driving input])
            ++ [Event.phase .finishRound] ∧
        eventsSince sr.room s
          = eventsSince sr.room r1
            ++ (if falling then [] else [Event.driving input])
            ++ eventsSince (sr.room.beforeFinish x input)
                ((sr.room.beforeFinish x input).finishRound x x.finishRoundDefault).2 ∧
        sr.room.beforeFinish x input
          = (if falling then r1 else r1.call (.driving input) (x.driving input r1.world)) ∧
        b = ((sr.room.beforeFinish x input).finishRound x x.finishRoundDefault).1) ∧
    (∀ e s, sr.nextRound x randomInt input = .thrown e s →
      ((eventsSince sr.room s).filterMap Event.roundStep = [Event.phase .prepareRound] ∨
        (eventsSince sr.room s).filterMap Event.roundStep
          = [Event.phase .prepareRound, Event.phase .fallout, Event.phase .falldown]) ∧
      Phase.finishRound ∉ (eventsSince sr.room s).filterMap Event.phaseEntered) ∧
    ((sr.nextRound x randomInt input).returned = false →
      ∃ name, (name = "dead_small" ∨ name = "dead_big" ∨ name = "impact_light" ∨
          name = "impact_heavy") ∧ sr.finds randomInt name = false) := by
  refine ⟨?_, ?_, ?_, ?_⟩
  · intro b s h
    exact ⟨_, _, (SoundRoom.nextRound_ok x randomInt input sr b s h).2.2⟩
  · intro b s falling r1 h hf
    obtain ⟨hb, hs, hfall⟩ := SoundRoom.nextRound_ok x randomInt input sr b s h
    obtain ⟨g1, g2, g3⟩ := Room.nextRound_steps x input sr.room
    obtain ⟨hf1, hf2⟩ := Tried.ok.inj (hf.symm.trans hfall)
    rw [hf1, hf2]
    refine ⟨?_, ?_, ?_, ?_⟩
    · rw [hs]; exact g1
    · rw [hs]; exact g2
    · rfl
    · rw [hb]; exact g3
  · intro e s h
    have hsteps : _ := thrown_steps x sr.room s
      (by
        rcases SoundRoom.nextRound_thrown_cases x randomInt input sr e s h
          with ⟨pre, m, post, d, -, -, hev, -, -, hd, -⟩ | ⟨name, -, hout, -, -, hev⟩
        · exact Or.inl ⟨_, d, hev, hd⟩
        · exact Or.inr ⟨name, hout, hev⟩)
    exact ⟨hsteps.1, hsteps.2.2.2⟩
  · intro h
    rcases SoundRoom.nextRound_cases x randomInt input sr
      with hok | ⟨e, pre, m, post, name, -, hn, hf, -⟩ | ⟨-, -, name, e, hcue, hf, -⟩
    · rw [hok] at h
      cases h
    · exact ⟨name, hn.elim Or.inl (fun h2 => Or.inr (Or.inl h2)), hf⟩
    · exact ⟨name, (Room.impactCue_names _ name hcue).elim (fun h2 => Or.inr (Or.inr (Or.inl h2)))
        (fun h2 => Or.inr (Or.inr (Or.inr h2))), hf⟩

theorem nextRound_phase_order_witness :
    (eventsSince toyRoom (toyRoom.sounding.nextRound toy firstRes 0).room).filterMap
        Event.roundStep
      = [.phase .prepareRound, .phase .fallout, .phase .falldown, .phase .finishRound] ∧
    (eventsSince restRoom (restRoom.silent.nextRound toy firstRes 7).room).filterMap
        Event.roundStep
      = [.phase .prepareRound, .phase .fallout, .phase .falldown, .driving 7,
          .phase .finishRound] ∧
    ((eventsSince dyingRoom (dyingRoom.silent.nextRound toyDeath firstRes 0).room).filterMap
          Event.roundStep = [Event.phase .prepareRound] ∨
      (eventsSince dyingRoom (dyingRoom.silent.nextRound toyDeath firstRes 0).room).filterMap
          Event.roundStep
        = [Event.phase .prepareRound, Event.phase .fallout, Event.phase .falldown]) :=
  ⟨((nextRound_phase_order toy firstRes 0 toyRoom.sounding).2.1 _ _ true _
      (show toyRoom.sounding.nextRound toy firstRes 0
        = .ok (toyRoom.nextRound toy 0).1
            (toyRoom.sounding.nextRound toy firstRes 0).room by decide)
      (show toyRoom.sounding.beginFall toy firstRes toy.beginFallDefault
        = .ok true (toyRoom.sounding.beginFall toy firstRes toy.beginFallDefault).room
        by decide)).1.trans (by decide),
   ((nextRound_phase_order toy firstRes 7 restRoom.silent).2.1 _ _ false _
      (show restRoom.silent.nextRound toy firstRes 7
        = .ok (restRoom.nextRound toy 7).1
            (restRoom.silent.nextRound toy firstRes 7).room by decide)
      (show restRoom.silent.beginFall toy firstRes toy.beginFallDefault
        = .ok false (restRoom.silent.beginFall toy firstRes toy.beginFallDefault).room
        by decide)).1.trans (by decide),
   ((nextRound_phase_order toyDeath firstRes 0 dyingRoom.silent).2.2.1
      (.ResourceException "no such resource") _
      (show dyingRoom.silent.nextRound toyDeath firstRes 0
        = .thrown (.ResourceException "no such resource")
            (dyingRoom.silent.nextRound toyDeath firstRes 0).room by decide)).1⟩

/-! ### C21: the impact after `beginFall`, on the room with its sound pack -/

/-- C21, amended: what the impact is after `beginFall` depends on the way the
call took.  After a call that returns: when a model left (an exit check
answered with a positive depth), no fall check was made and the impact is what
it was before the call, whatever round it comes from; when no model left, the
gravity phase ran on all models, and after an interactive call the impact is
`NONE`, since `playImpact` has reset it, while after a call that is not
interactive it is the greatest weight among the models whose fall check answered
`FALL_LAST` in this call (at least the weight of each of them, and `NONE` or
the weight of one of them).  After a call that the lookup of a cue throws out
of: when the throw is at a death cue, in `prepareRound`, no fall check was made
and the impact is what it was before the call; when it is at the impact cue, in
an interactive call in which no model left, the impact has not been reset: it is
the greatest weight among the models whose fall check answered `FALL_LAST` in
this call, and not `NONE`. -/
theorem beginFall_impact (x : Collab W) (randomInt : Int → Int) (interactive : Bool)
    (sr : SoundRoom W) :
    (∀ b s, sr.beginFall x randomInt interactive = .ok b s →
      ((eventsSince sr.room s).filterMap Event.exited ≠ [] →
        s.impact = sr.room.impact ∧
        (eventsSince sr.room s).filterMap Event.fallChecked = []) ∧
      ((eventsSince sr.room s).filterMap Event.exited = [] →
        (eventsSince sr.room s).filterMap Event.fallChecked = sr.room.models ∧
        (eventsSince sr.room s).filterMap Event.landedModel
          = (landed x sr.room.models (sr.room.afterFallout x interactive).2.world).map
              Prod.fst ∧
        (interactive = true → s.impact = .NONE) ∧
        (interactive = false →
          (∀ p ∈ landed x sr.room.models (sr.room.afterFallout x interactive).2.world,
            p.2.toNat ≤ s.impact.toNat) ∧
          (s.impact = .NONE ∨
            ∃ p ∈ landed x sr.room.models (sr.room.afterFallout x interactive).2.world,
              p.2 = s.impact)))) ∧
    (∀ e s, sr.beginFall x randomInt interactive = .thrown e s →
      ((eventsSince sr.room s).filterMap Event.phaseEntered = [.prepareRound] ∧
        (eventsSince sr.room s).filterMap Event.fallChecked = [] ∧
        s.impact = sr.room.impact) ∨
      (interactive = true ∧
        (eventsSince sr.room s).filterMap Event.exited = [] ∧
        (eventsSince sr.room s).filterMap Event.fallChecked = sr.room.models ∧
        s.impact ≠ .NONE ∧
        (∀ p ∈ landed x sr.room.models (sr.room.afterFallout x true).2.world,
          p.2.toNat ≤ s.impact.toNat) ∧
        ∃ p ∈ landed x sr.room.models (sr.room.afterFallout x true).2.world,
          p.2 = s.impact)) := by
  refine ⟨?_, ?_⟩
  · intro b s h
    obtain ⟨-, hs⟩ := SoundRoom.beginFall_ok x randomInt interactive sr b s h
    rw [hs]
    exact Room.beginFall_impact_after x interactive sr.room
  · intro e s h
    rcases SoundRoom.beginFall_thrown_cases x randomInt interactive sr e s h
      with ⟨pre, m, post, d, -, hs, hev, -, -, hd, -⟩ | ⟨name, hi, hout, hcue, hs, hev⟩
    · refine Or.inl ⟨?_, ?_, ?_⟩
      · have hph : (sr.room.models.map Event.occupyNewPos ++ d).filterMap Event.phaseEntered
            = [] := by
          rw [List.filterMap_eq_nil_iff]
          intro a ha
          rcases List.mem_append.mp ha with ha | ha
          · obtain ⟨c, -, rfl⟩ := List.mem_map.mp ha
            rfl
          · have := hd a ha
            cases a <;> first
              | exact False.elim this
              | rfl
        rw [hev, List.filterMap_cons, hph]
        rfl
      · rw [List.filterMap_eq_nil_iff]
        intro a ha
        rw [hev] at ha
        exact (Event.inPrepare_checks a (prepare_events _ d hd a ha)).2.1
      · rw [hs]
        exact (Room.diedAt_state x pre m { sr.room with fresh := true }).2.1
    · obtain ⟨hex, -, hchk⟩ := Room.beginFall_landing_events x true sr.room
      have hnil : (eventsSince sr.room (sr.room.beginFall x true).2).filterMap Event.exited
          = [] := by
        rw [hout] at hex
        cases hd : (eventsSince sr.room (sr.room.beginFall x true).2).filterMap Event.exited with
        | nil => rfl
        | cons a l => rw [hd] at hex; cases hex
      rw [hout] at hchk
      rw [hev] at hnil hchk
      simp only [List.filterMap_append, List.filterMap_cons, List.filterMap_nil, Event.exited,
        Event.fallChecked, List.append_nil] at hnil hchk
      have hmodels : (sr.room.afterFallout x true).2.models = sr.room.models := by
        simp [Room.afterFallout, Room.afterPrepare]
      obtain ⟨-, h2, h3⟩ := Room.fallLoop_impact x (sr.room.afterFallout x true).2.models
        (false, { (sr.room.afterFallout x true).2.log (.phase .falldown) with impact := .NONE })
      have himp : s.impact
          = ((sr.room.afterFallout x true).2.models.foldl (Room.fallStep x) (false,
              { (sr.room.afterFallout x true).2.log (.phase .falldown) with
                impact := .NONE })).2.impact := by
        rw [hs]
        rfl
      have hne : s.impact ≠ .NONE := by
        intro hc
        rw [hs] at hc
        rw [Room.impactCue_none _ hc] at hcue
        cases hcue
      rw [← himp, hmodels] at h2 h3
      refine Or.inr ⟨hi, hnil, hchk, hne, h2, ?_⟩
      rcases h3 with h3 | h3
      · exact absurd h3 hne
      · exact h3

theorem beginFall_impact_witness :
    (eventsSince staleRoom (staleRoom.sounding.beginFall toy firstRes true).room).filterMap
      Event.exited ≠ [] ∧
    (staleRoom.sounding.beginFall toy firstRes true).room.impact = staleRoom.impact ∧
    (landingRoom.sounding.beginFall toy firstRes true).room.impact = .NONE ∧
    (landingRoom.silent.beginFall toy firstRes true).returned = false ∧
    (landingRoom.silent.beginFall toy firstRes true).room.impact ≠ .NONE ∧
    (dyingRoom.silent.beginFall toyDeath firstRes true).room.impact = dyingRoom.impact :=
  ⟨by decide,
   (((beginFall_impact toy firstRes true staleRoom.sounding).1 _ _
      (show staleRoom.sounding.beginFall toy firstRes true
        = .ok true (staleRoom.sounding.beginFall toy firstRes true).room by decide)).1
      (by decide)).1,
   (((beginFall_impact toy firstRes true landingRoom.sounding).1 _ _
      (show landingRoom.sounding.beginFall toy firstRes true
        = .ok false (landingRoom.sounding.beginFall toy firstRes true).room by decide)).2
      (by decide)).2.2.1 rfl,
   by decide,
   ((beginFall_impact toy firstRes true landingRoom.silent).2
      (.ResourceException "no such resource") _
      (show landingRoom.silent.beginFall toy firstRes true
        = .thrown (.ResourceException "no such resource")
            (landingRoom.silent.beginFall toy firstRes true).room by decide)).elim
      (fun h => absurd h.2.1 (by decide)) (fun h => h.2.2.2.1),
   by decide⟩

end FishFillets
